import Mathlib

/-!
Verification of the bristol geometric-construction core against its
natural-language specification.

The sources under src/ are embedded shallowly:

* JS `vec2` over floating-point numbers is modelled by `Bristol.Vec`, a pair of
  rationals.  All claims under study are exact-arithmetic statements (positions,
  cross products, squared distances); rounding behaviour is out of scope.
* `Math.sqrt` has no exact counterpart on `ℚ`.  Every definition that the source
  computes with `Math.sqrt` (circle radii, `solveQuadratic`, the pivot dragger
  lengths) receives the square-root function as an explicit parameter `qs` (an
  uninterpreted oracle `ℚ → ℚ`), or as an oracle value constrained by the
  hypotheses `v ≥ 0 ∧ v^2 = argument` where a theorem genuinely depends on the
  defining property of the square root.  No theorem below depends on the values
  of `qs` itself.
* The mutable object graph of `primitives.js` is modelled by `Bristol.Reg`, a
  registry state carrying the `_primitives` array (as a list of flat records
  keyed by `id`), the `_nextPrimitiveId` counter, the `_changedPrimitives` /
  `_invalidatedPrimitives` bookkeeping arrays and the `_intersectionPoints`
  index.  Object identity in JS is modelled by the unique integer `id`.
* JS exceptions do not roll back state, so stateful operations return their
  (possibly partially mutated) state together with `Option Thrown`.
-/

namespace Bristol

/-- Rational 2-d vector, embedding of `vec2` from src/math.js. -/
structure Vec where
  x : ℚ
  y : ℚ
deriving DecidableEq, Repr

namespace Vec

/-- Embedding of `vec2.add` (static): componentwise sum. -/
def add (u v : Vec) : Vec := ⟨u.x + v.x, u.y + v.y⟩

/-- Embedding of `vec2.sub` (static): componentwise difference. -/
def sub (u v : Vec) : Vec := ⟨u.x - v.x, u.y - v.y⟩

/-- Embedding of `vec2.span(A, B) = B - A`. -/
def span (A B : Vec) : Vec := ⟨B.x - A.x, B.y - A.y⟩

/-- Embedding of `vec2.dot`. -/
def dot (u v : Vec) : ℚ := u.x * v.x + u.y * v.y

/-- Embedding of `vec2.per(u, v) = u.x * v.y - u.y * v.x` (2-d cross product). -/
def per (u v : Vec) : ℚ := u.x * v.y - u.y * v.x

/-- Embedding of `vec2.prototype.lenSq`. -/
def lenSq (u : Vec) : ℚ := u.x * u.x + u.y * u.y

/-- Embedding of `vec2.distSq(A, B) = sq(A.x - B.x) + sq(A.y - B.y)`. -/
def distSq (A B : Vec) : ℚ := (A.x - B.x) * (A.x - B.x) + (A.y - B.y) * (A.y - B.y)

/-- Embedding of `v.clone().addScaled(s, u)`: the point `v + s • u`. -/
def addScaled (v : Vec) (s : ℚ) (u : Vec) : Vec := ⟨v.x + s * u.x, v.y + s * u.y⟩

/-- Embedding of `vec2.prototype.mul` by a scalar. -/
def smul (s : ℚ) (u : Vec) : Vec := ⟨s * u.x, s * u.y⟩

/-- Embedding of `vec2.prototype.equals`: exact componentwise equality. -/
def equalsq (u v : Vec) : Bool := u.x == v.x && u.y == v.y

end Vec

/-- Embedding of `signnz(x) = x >= 0 ? 1 : -1` from src/math.js. -/
def signnz (x : ℚ) : ℚ := if 0 ≤ x then 1 else -1

/-- Embedding of `Geometry.lineLineIntersections` from src/math.js.

The source computes `t = per(span(P0, P1), d0) / per(d0, d1)` and keeps the
single point `P1 + t·d1` exactly when `isFinite(t)`.  Over exact rationals a
quotient of finite values is non-finite (`NaN` or `±Infinity` in JS) exactly
when the divisor `per(d0, d1)` is zero, so the finiteness test is embedded as
that divisor test. -/
def lineLineIntersections (P0 d0 P1 d1 : Vec) : List Vec :=
  let den := Vec.per d0 d1
  let num := Vec.per (Vec.span P0 P1) d0
  if den = 0 then [] else [Vec.addScaled P1 (num / den) d1]

/-- Embedding of `solveQuadratic` from src/math.js; `qs` stands for `Math.sqrt`,
applied to the (nonnegative) discriminant. -/
def solveQuadratic (qs : ℚ → ℚ) (a b c : ℚ) : List ℚ :=
  let delta := b * b - 4 * a * c
  if delta < 0 then []
  else if delta = 0 then [-b / (2 * a)]
  else
    let sqrtDelta := qs delta
    [(-b + sqrtDelta) / (2 * a), (-b - sqrtDelta) / (2 * a)]

/-- Embedding of `Geometry.lineCircleIntersections` from src/math.js. -/
def lineCircleIntersections (qs : ℚ → ℚ) (P d C : Vec) (r : ℚ) : List Vec :=
  let u := Vec.span C P
  let a := Vec.lenSq d
  let b := 2 * Vec.dot u d
  let c := Vec.lenSq u - r * r
  (solveQuadratic qs a b c).map (fun t => Vec.addScaled P t d)

/-- Embedding of `vec2.rhp(u) = (u.y, -u.x)`. -/
def Vec.rhp (u : Vec) : Vec := ⟨u.y, -u.x⟩

/-- Embedding of `Geometry.circleCircleIntersections` from src/math.js. -/
def circleCircleIntersections (qs : ℚ → ℚ) (C0 : Vec) (r0 : ℚ) (C1 : Vec) (r1 : ℚ) :
    List Vec :=
  let CRdr : Vec × ℚ × Vec × ℚ :=
    if r1 ≤ r0 then (C0, r0, Vec.span C0 C1, r1) else (C1, r1, Vec.span C1 C0, r0)
  let C := CRdr.1
  let R := CRdr.2.1
  let d := CRdr.2.2.1
  let r := CRdr.2.2.2
  let dSq := Vec.lenSq d
  let t := ((dSq + R * R) - r * r) / (2 * dSq)
  let P := Vec.addScaled C t d
  lineCircleIntersections qs P (Vec.rhp d) C R

/-- One iteration of the `indexOfMinBy` loop: the accumulator carries
`(bestIndex, minValue, i)`; a later element replaces the best one only on a
strictly smaller value. -/
def indexOfMinByStep {α : Type} (f : α → ℚ) (acc : Nat × ℚ × Nat) (b : α) : Nat × ℚ × Nat :=
  let i := acc.2.2 + 1
  if f b < acc.2.1 then (i, f b, i) else (acc.1, acc.2.1, i)

/-- Embedding of `Array.prototype.indexOfMinBy` from src/utils.js: returns `-1`
on the empty list, else the first index attaining the minimum value. -/
def indexOfMinBy {α : Type} (f : α → ℚ) (l : List α) : Int :=
  match l with
  | [] => -1
  | a :: rest => ((rest.foldl (indexOfMinByStep f) (0, f a, 0)).1 : Nat)

/-- JS indexing `l[i]` with a possibly out-of-range or negative index: yields
`undefined` (here `none`) outside the range. -/
def getAtInt {α : Type} (l : List α) (i : Int) : Option α :=
  if i < 0 then none else l.get? i.toNat

/- ### Claim C8: line-line intersection -/

/-- Claim C8: for all inputs, `lineLineIntersections` returns the empty list
exactly when the computed parameter is non-finite (`per d0 d1 = 0`, the
parallel/degenerate case), and otherwise returns exactly one point which is the
unique solution of `P0 + t·d0 = P1 + s·d1`; in particular two parallel lines
with direction `(1,0)` through `(0,0)` and `(0,1)` give zero intersections. -/
theorem c8_lineLine_spec (P0 d0 P1 d1 : Vec) :
    (lineLineIntersections P0 d0 P1 d1 = [] ↔ Vec.per d0 d1 = 0) ∧
    (Vec.per d0 d1 ≠ 0 →
      ∃ X t s, lineLineIntersections P0 d0 P1 d1 = [X] ∧
        X = Vec.addScaled P0 t d0 ∧ X = Vec.addScaled P1 s d1 ∧
        (∀ t2 s2, Vec.addScaled P0 t2 d0 = Vec.addScaled P1 s2 d1 →
          Vec.addScaled P0 t2 d0 = X)) ∧
    lineLineIntersections ⟨0, 0⟩ ⟨1, 0⟩ ⟨0, 1⟩ ⟨1, 0⟩ = [] := by
  have hden' : ∀ h : Vec.per d0 d1 ≠ 0, d0.x * d1.y - d0.y * d1.x ≠ 0 := fun h => h
  refine ⟨?_, ?_, by norm_num [lineLineIntersections, Vec.per]⟩
  · unfold lineLineIntersections
    constructor
    · intro h
      by_contra hden
      rw [if_neg hden] at h
      exact List.cons_ne_nil _ _ h
    · intro h
      rw [if_pos h]
  · intro hden
    refine ⟨Vec.addScaled P1 (Vec.per (Vec.span P0 P1) d0 / Vec.per d0 d1) d1,
      Vec.per (Vec.span P0 P1) d1 / Vec.per d0 d1,
      Vec.per (Vec.span P0 P1) d0 / Vec.per d0 d1, ?_, ?_, rfl, ?_⟩
    · unfold lineLineIntersections
      rw [if_neg hden]
    · have hd : d0.x * d1.y - d0.y * d1.x ≠ 0 := hden
      unfold Vec.addScaled Vec.per Vec.span
      simp only [Vec.mk.injEq]
      constructor
      · field_simp
        ring
      · field_simp
        ring
    · intro t2 s2 h
      unfold Vec.addScaled Vec.span Vec.per at *
      simp only [Vec.mk.injEq] at h ⊢
      obtain ⟨hx, hy⟩ := h
      have hd : d0.x * d1.y - d0.y * d1.x ≠ 0 := hden
      -- eliminate s2 from the two component equations to solve for t2
      have ht2 : t2 * (d0.x * d1.y - d0.y * d1.x) =
          (P1.x - P0.x) * d1.y - (P1.y - P0.y) * d1.x := by
        linear_combination d1.y * hx - d1.x * hy
      have ht2' : t2 = ((P1.x - P0.x) * d1.y - (P1.y - P0.y) * d1.x) /
          (d0.x * d1.y - d0.y * d1.x) := by
        rw [eq_div_iff hd]
        exact ht2
      subst ht2'
      constructor
      · field_simp
        ring
      · field_simp
        ring

/-- Witness for C8 at a concrete crossing pair: the lines through the origin
with directions `(1,0)` and `(0,1)` shifted to `(0,1)` intersect in exactly one
point satisfying both parametrisations. -/
theorem c8_witness :
    Vec.per ⟨1, 0⟩ ⟨0, 1⟩ ≠ (0 : ℚ) ∧
    (∃ X t s, lineLineIntersections ⟨0, 0⟩ ⟨1, 0⟩ ⟨0, 1⟩ ⟨0, 1⟩ = [X] ∧
      X = Vec.addScaled ⟨0, 0⟩ t ⟨1, 0⟩ ∧ X = Vec.addScaled ⟨0, 1⟩ s ⟨0, 1⟩ ∧
      (∀ t2 s2, Vec.addScaled ⟨0, 0⟩ t2 ⟨1, 0⟩ = Vec.addScaled ⟨0, 1⟩ s2 ⟨0, 1⟩ →
        Vec.addScaled ⟨0, 0⟩ t2 ⟨1, 0⟩ = X)) :=
  ⟨by norm_num [Vec.per],
    (c8_lineLine_spec ⟨0, 0⟩ ⟨1, 0⟩ ⟨0, 1⟩ ⟨0, 1⟩).2.1 (by norm_num [Vec.per])⟩

/- ### The primitive registry model (src/primitives.js) -/

/-- Tag of the four primitive variants. -/
inductive PKind
  | free
  | inter
  | line
  | circle
deriving DecidableEq, Repr

/-- Flat record of one primitive's mutable JS object state.  JS objects carry
only the fields their variant uses; unused fields keep their defaults here and
are never read for the other variants. -/
structure Prim where
  pid : Nat
  parents : List Nat
  children : List Nat
  level : Nat
  kind : PKind
  isSelectable : Bool
  position : Vec
  origin : Vec
  direction : Vec
  center : Vec
  radius : ℚ
  hints : List (Int × Int)
  invalid : Bool
  isDisposed : Bool
deriving DecidableEq, Repr

/-- State of one `Primitives` registry instance: the `_primitives` array (object
identity is modelled by the unique `pid`), the `_nextPrimitiveId` counter, the
`_changedPrimitives` and `_invalidatedPrimitives` bookkeeping arrays, and the
`_intersectionPoints` map (association list keyed by the pair id). -/
structure Reg where
  prims : List Prim
  nextId : Nat
  changed : List Nat
  invalidated : List Nat
  interIndex : List (Int × List Nat)
deriving DecidableEq, Repr

/-- Dereference of a JS object reference by its id. -/
def Reg.find? (r : Reg) (i : Nat) : Option Prim := r.prims.find? (fun p => p.pid == i)

/-- In-place mutation of the primitive with id `i`. -/
def Reg.update (r : Reg) (i : Nat) (f : Prim → Prim) : Reg :=
  { r with prims := r.prims.map (fun p => if p.pid == i then f p else p) }

/-- Reading `primitive.level` through a reference. -/
def Reg.levelOf (r : Reg) (i : Nat) : Nat := ((r.find? i).map (·.level)).getD 0

/-- Reading `primitive.position` through a reference. -/
def Reg.posOf (r : Reg) (i : Nat) : Vec := ((r.find? i).map (·.position)).getD ⟨0, 0⟩

/-- Reading `primitive.children` through a reference. -/
def Reg.childrenOf (r : Reg) (i : Nat) : List Nat := ((r.find? i).map (·.children)).getD []

/-- A primitive that exists and is not disposed. -/
def Reg.isAlive (r : Reg) (i : Nat) : Bool :=
  match r.find? i with
  | some p => !p.isDisposed
  | none => false

/-- The ids present in the registry. -/
def Reg.pids (r : Reg) : List Nat := r.prims.map (·.pid)

/-- The primitives the registry iteration would yield (non-disposed ones). -/
def Reg.alivePrims (r : Reg) : List Prim := r.prims.filter (fun p => !p.isDisposed)

/-- Modelled from the spec: `Primitives.get(id)` is called by
`Deserializer._resolveId` in diff mode but is not defined in src/primitives.js;
per spec section 4.5 and section 9 it is the lookup of a live primitive by id, with
disposed or absent ids resolving to not-found. -/
def Reg.get (r : Reg) (i : Nat) : Option Prim :=
  match r.find? i with
  | some p => if p.isDisposed then none else some p
  | none => none

/-- Kinds of JS errors raised by the embedded operations. -/
inductive JsKind
  | requiredValue
  | stateError
  | argumentError
  | alreadyDisposed
  | disposeChildrenFirst
  | changingInvalidated
  | invalidatingChanged
  | typeError
  | missingProperty
  | unexpectedProperty
  | duplicateId
  | unknownId
  | parentCountMismatch
  | assignedIdMismatch
  | unimplemented
  | disposedProhibited
  | userError
  | ghost
  | fuel
deriving DecidableEq, Repr

/-- A thrown JS error: `wrapped` is true when it is a `DeserializationError`
(the single wrapped error kind of src/serialization.js). -/
structure Thrown where
  wrapped : Bool
  kind : JsKind
deriving DecidableEq, Repr

/-- Embedding of JS `ToUint32` on an integer. -/
def u32 (x : Int) : Nat := (x % (2 ^ 32 : Int)).toNat

/-- Reinterpretation of a 32-bit pattern as a signed `Int32` value. -/
def i32ofNat (n : Nat) : Int := if n < 2 ^ 31 then (n : Int) else (n : Int) - 2 ^ 32

/-- JS `x << 16` on 32-bit integers. -/
def jsShl16 (x : Int) : Int := i32ofNat (u32 x * 2 ^ 16 % 2 ^ 32)

/-- JS `x | y` on 32-bit integers. -/
def jsOr (x y : Int) : Int := i32ofNat (Nat.lor (u32 x) (u32 y))

/-- Embedding of `Primitives._primitivePairId`: the smaller id shifted left by
16 bits, or-ed with the larger id, in JS 32-bit integer arithmetic. -/
def primitivePairId (id0 id1 : Nat) : Int :=
  if id0 < id1 then jsOr (jsShl16 (id0 : Int)) (id1 : Int)
  else jsOr (jsShl16 (id1 : Int)) (id0 : Int)

/-- Association-list read of the `_intersectionPoints` map. -/
def assocGet (m : List (Int × List Nat)) (k : Int) : Option (List Nat) :=
  (m.find? (fun e => e.1 == k)).map (·.2)

/-- Association-list in-place update of an existing entry. -/
def assocSet (m : List (Int × List Nat)) (k : Int) (v : List Nat) : List (Int × List Nat) :=
  m.map (fun e => if e.1 == k then (k, v) else e)

/-- Association-list `Map.delete`. -/
def assocDelete (m : List (Int × List Nat)) (k : Int) : List (Int × List Nat) :=
  m.filter (fun e => e.1 != k)

/-- Embedding of `Primitives._onPrimitiveDisposal`: an intersection point is
removed from the pair-dedup index (`Array.prototype.remove` deletes the first
occurrence), and the index entry is deleted when its list becomes empty. -/
def onPrimitiveDisposal (r : Reg) (p : Prim) : Reg :=
  if p.kind == .inter then
    match p.parents with
    | [a, b] =>
      let pairId := primitivePairId a b
      match assocGet r.interIndex pairId with
      | none => r
      | some points =>
        let points' := points.erase p.pid
        if points'.isEmpty then { r with interIndex := assocDelete r.interIndex pairId }
        else { r with interIndex := assocSet r.interIndex pairId points' }
    | _ => r
  else r

/-- Embedding of `Array.prototype.push` of each not-yet-present child inside the
breadth-first loop of `_onPrimitiveChange` (`if (!includes(child)) push(child)`,
sequentially, so duplicate children are pushed once). -/
def addAllNew (L : List Nat) (items : List Nat) : List Nat :=
  items.foldl (fun acc c => if acc.contains c then acc else acc ++ [c]) L

/-- The breadth-first closure loop of `Primitives._onPrimitiveChange`: starting
from index `i` of the invalidated list `L`, each processed member is checked
against the changed list (`Invalidating changed primitive.` fault) and its
children not yet in the list are appended.  Structured on fuel; a fuel of
`r.prims.length + 1` is always sufficient for well-formed registries. -/
def bfsLoop (r : Reg) (changedL : List Nat) : Nat → List Nat → Nat → List Nat × Option JsKind
  | 0, L, _ => (L, some .fuel)
  | fuel + 1, L, i =>
    if h : i < L.length then
      let x := L.get ⟨i, h⟩
      if changedL.contains x then (L, some .invalidatingChanged)
      else bfsLoop r changedL fuel (addAllNew L (r.childrenOf x)) (i + 1)
    else (L, none)

/-- Embedding of `Primitives._onPrimitiveChange` (the `_changeCallback` wired to
every primitive): disposed primitives route to `_onPrimitiveDisposal`; an
already-changed primitive is ignored; changing an invalidated primitive faults;
otherwise the primitive is appended to the invalidated list, the breadth-first
closure of its children is collected, and the primitive is recorded changed. -/
def onPrimitiveChange (r : Reg) (i : Nat) : Reg × Option Thrown :=
  match r.find? i with
  | none => (r, some ⟨false, .ghost⟩)
  | some p =>
    if p.isDisposed then (onPrimitiveDisposal r p, none)
    else if r.changed.contains i then (r, none)
    else if r.invalidated.contains i then (r, some ⟨false, .changingInvalidated⟩)
    else
      match bfsLoop r r.changed (r.prims.length + 1) (r.invalidated ++ [i]) r.invalidated.length with
      | (L, none) => ({ r with invalidated := L, changed := r.changed ++ [i] }, none)
      | (L, some k) => ({ r with invalidated := L }, some ⟨false, k⟩)

/-- Embedding of `Primitive.dispose`: throws when already disposed or when
children remain; otherwise removes itself from each parent's children list
(first occurrence per parent entry), marks itself disposed, and notifies change
(which routes to `_onPrimitiveDisposal`). -/
def disposePrim (r : Reg) (i : Nat) : Reg × Option Thrown :=
  match r.find? i with
  | none => (r, some ⟨false, .ghost⟩)
  | some p =>
    if p.isDisposed then (r, some ⟨false, .alreadyDisposed⟩)
    else if !p.children.isEmpty then (r, some ⟨false, .disposeChildrenFirst⟩)
    else
      let r1 := p.parents.foldl
        (fun acc j => acc.update j (fun q => { q with children := q.children.erase i })) r
      let r2 := r1.update i (fun q => { q with isDisposed := true })
      match r2.find? i with
      | some p2 => (onPrimitiveDisposal r2 p2, none)
      | none => (r2, some ⟨false, .ghost⟩)

/- ### Intersection candidate selection (src/primitives.js, IntersectionPointPrimitive) -/

/-- Result shape of `IntersectionPointPrimitive.intersection`. -/
structure Selection where
  position : Option Vec
  all : List Vec
  index : Int
  isHint : Bool
deriving DecidableEq, Repr

/-- The candidate-selection core of `IntersectionPointPrimitive.intersection`:
`hints?.find(hint => hint[0] == intersections.length)` picks the recorded index;
otherwise `indexOfMinBy` of the squared distance to the approximate position
(yielding `-1`, hence an undefined position, on an empty candidate list). -/
def selectIntersection (cands : List Vec) (hints : Option (List (Int × Int)))
    (approx : Vec) : Selection :=
  let hint := hints.bind (List.find? (fun h => h.1 == (cands.length : Int)))
  let index : Int :=
    match hint with
    | some h => h.2
    | none => indexOfMinBy (fun c => Vec.distSq c approx) cands
  { position := getAtInt cands index, all := cands, index := index, isHint := hint.isSome }

/-- Embedding of `Primitives.intersections` with its `_lineIntersections` and
`_circleIntersections` dispatch: non-curve operands yield the empty list. -/
def primIntersections (qs : ℚ → ℚ) (r : Reg) (i0 i1 : Nat) : List Vec :=
  match r.find? i0, r.find? i1 with
  | some p0, some p1 =>
    match p0.kind, p1.kind with
    | .line, .line => lineLineIntersections p0.origin p0.direction p1.origin p1.direction
    | .line, .circle => lineCircleIntersections qs p0.origin p0.direction p1.center p1.radius
    | .circle, .line => lineCircleIntersections qs p1.origin p1.direction p0.center p0.radius
    | .circle, .circle => circleCircleIntersections qs p0.center p0.radius p1.center p1.radius
    | _, _ => []
  | _, _ => []

/-- Embedding of the static `IntersectionPointPrimitive.intersection`. -/
def ippIntersection (qs : ℚ → ℚ) (r : Reg) (i0 i1 : Nat) (approx : Vec)
    (hints : Option (List (Int × Int))) : Selection :=
  selectIntersection (primIntersections qs r i0 i1) hints approx

/- ### Constraint application and creation -/

/-- Embedding of the per-variant `applyConstraints` methods, applied to the
primitive `i` of the registry: free points do nothing; a line copies
`point0.position` into its origin and spans the direction to `point1.position`;
a circle copies the center and recomputes the radius (`vec2.dist`, i.e.
`Math.sqrt` of the squared distance, via the oracle `qs`); an intersection point
recomputes the selection with its own hints and current position, then either
adopts the position (appending a hint on a non-hinted choice among at least two
candidates) and clears `invalid`, or sets `invalid` leaving the position. -/
def applyConstraintsOn (qs : ℚ → ℚ) (r : Reg) (i : Nat) : Reg :=
  match r.find? i with
  | none => r
  | some p =>
    match p.kind with
    | .free => r
    | .line =>
      match p.parents with
      | [a, b] =>
        let o := r.posOf a
        r.update i (fun q => { q with origin := o, direction := Vec.span o (r.posOf b) })
      | _ => r
    | .circle =>
      match p.parents with
      | [a, b] =>
        let c := r.posOf a
        r.update i (fun q => { q with center := c, radius := qs (Vec.distSq c (r.posOf b)) })
      | _ => r
    | .inter =>
      match p.parents with
      | [a, b] =>
        let sel := ippIntersection qs r a b p.position (some p.hints)
        match sel.position with
        | some pos =>
          r.update i (fun q =>
            { q with
              position := pos,
              hints :=
                if !sel.isHint && decide (1 < sel.all.length) then
                  q.hints ++ [((sel.all.length : Int), sel.index)]
                else q.hints,
              invalid := false })
        | none => r.update i (fun q => { q with invalid := true })
      | _ => r

/-- Embedding of the `Primitive` base constructor: record the parents, push the
new object into each parent's children list, and fold the level as
`max(level, parent.level + 1)` starting from zero.  The id that
`_initializePrimitive` will assign is `nextId`, used here to name the object. -/
def constructPrim (r : Reg) (parents : List Nat) (kind : PKind) (pos : Vec)
    (hints : List (Int × Int)) : Reg × Prim :=
  let pid := r.nextId
  let level := parents.foldl (fun l j => max l (r.levelOf j + 1)) 0
  let r1 := parents.foldl
    (fun acc j => acc.update j (fun q => { q with children := q.children ++ [pid] })) r
  (r1,
    { pid := pid, parents := parents, children := [], level := level, kind := kind,
      isSelectable := true, position := pos, origin := ⟨0, 0⟩, direction := ⟨1, 0⟩,
      center := ⟨0, 0⟩, radius := 0, hints := hints, invalid := false, isDisposed := false })

/-- Embedding of `Primitives._initializePrimitive`: assign the id, bump the
counter, register the primitive and apply its constraints once. -/
def registerPrim (qs : ℚ → ℚ) (r : Reg) (p : Prim) : Reg × Nat :=
  let r1 := { r with prims := r.prims ++ [p], nextId := r.nextId + 1 }
  (applyConstraintsOn qs r1 p.pid, p.pid)

/-- Whether a primitive is a `PointPrimitive` (has a `position`). -/
def isPointKind : PKind → Bool
  | .free => true
  | .inter => true
  | _ => false

/-- Embedding of `Primitives.createPoint`. -/
def createPoint (qs : ℚ → ℚ) (r : Reg) (position : Vec) : Reg × Nat :=
  let c := constructPrim r [] .free position []
  registerPrim qs c.1 c.2

/-- Embedding of `Primitives.createLine`.  The `Primitive` base constructor
runs first and pushes the new object onto both parents' children lists; only
then does the `TwoPointLinePrimitive` constructor call `applyConstraints`
(`_initializePrimitive` later calls it again), which reads
`parents[i].position` — `undefined` for a non-point parent — and raises a
TypeError.  The half-built object therefore stays attached to its parents'
children lists even on the error path, while it never receives an id, never
enters the primitives array, and the id counter is not bumped; its entry in
the children lists is named by the yet-unassigned id `r.nextId`.  The model
checks the parents' kinds up front to decide which of the two paths runs. -/
def createLine (qs : ℚ → ℚ) (r : Reg) (a b : Nat) : Reg × Except Thrown Nat :=
  match r.find? a, r.find? b with
  | some pa, some pb =>
    let c := constructPrim r [a, b] .line ⟨0, 0⟩ []
    if isPointKind pa.kind && isPointKind pb.kind then
      let r2 := { c.1 with prims := c.1.prims ++ [c.2], nextId := c.1.nextId + 1 }
      let r3 := applyConstraintsOn qs r2 c.2.pid
      let r4 := applyConstraintsOn qs r3 c.2.pid
      (r4, Except.ok c.2.pid)
    else (c.1, Except.error ⟨false, .typeError⟩)
  | _, _ => (r, Except.error ⟨false, .ghost⟩)

/-- Embedding of `Primitives.createCircle`; the same double constraint
application and the same pre-TypeError child attachment as for `createLine`
apply. -/
def createCircle (qs : ℚ → ℚ) (r : Reg) (a b : Nat) : Reg × Except Thrown Nat :=
  match r.find? a, r.find? b with
  | some pa, some pb =>
    let c := constructPrim r [a, b] .circle ⟨0, 0⟩ []
    if isPointKind pa.kind && isPointKind pb.kind then
      let r2 := { c.1 with prims := c.1.prims ++ [c.2], nextId := c.1.nextId + 1 }
      let r3 := applyConstraintsOn qs r2 c.2.pid
      let r4 := applyConstraintsOn qs r3 c.2.pid
      (r4, Except.ok c.2.pid)
    else (c.1, Except.error ⟨false, .typeError⟩)
  | _, _ => (r, Except.error ⟨false, .ghost⟩)

/-- Embedding of `Primitives.tryGetOrCreateIntersectionPoint`.  After the
candidate selection, the source calls
`this._intersectionPoints.putIfAbsent(id, () => [])`; `Map.prototype.putIfAbsent`
is defined nowhere in the repository (src/utils.js installs only `getOrCompute`
and `hasOrSet` on `Map.prototype`), so whenever a candidate position exists the
call raises a TypeError before any state is mutated.  With no candidate the
function returns `undefined` first. -/
def tryGetOrCreateIntersectionPoint (qs : ℚ → ℚ) (r : Reg) (i0 i1 : Nat) (approx : Vec)
    (hints : Option (List (Int × Int))) : Reg × Except Thrown (Option (Nat × Bool)) :=
  let sel := ippIntersection qs r i0 i1 approx hints
  match sel.position with
  | none => (r, Except.ok none)
  | some _ => (r, Except.error ⟨false, .typeError⟩)

/- ### The edit transaction -/

/-- The primitive-level occurrences inside an `edit` action that reach the
registry: a change notification (`notifyChange` after some mutation), a
disposal (`Primitive.dispose`), or one of the three creation entry points
(`createPoint`, `createLine`, `createCircle`). -/
inductive EditEv
  | change (i : Nat)
  | dispose (i : Nat)
  | createP (pos : Vec)
  | createL (a b : Nat)
  | createO (a b : Nat)

/-- One action event hitting the registry. -/
def processEvent (qs : ℚ → ℚ) (r : Reg) : EditEv → Reg × Option Thrown
  | .change i => onPrimitiveChange r i
  | .dispose i => disposePrim r i
  | .createP pos => ((createPoint qs r pos).1, none)
  | .createL a b =>
    match createLine qs r a b with
    | (r1, Except.ok _) => (r1, none)
    | (r1, Except.error t) => (r1, some t)
  | .createO a b =>
    match createCircle qs r a b with
    | (r1, Except.ok _) => (r1, none)
    | (r1, Except.error t) => (r1, some t)

/-- The body of an `edit` action: events are processed in order; a thrown error
aborts the remainder of the action (and propagates into `edit`'s `finally`). -/
def processEvents (qs : ℚ → ℚ) : Reg → List EditEv → Reg × Option Thrown
  | r, [] => (r, none)
  | r, e :: rest =>
    match processEvent qs r e with
    | (r1, none) => processEvents qs r1 rest
    | (r1, some t) => (r1, some t)

/-- Events that touch only existing primitives (no creation).  The claimed
entering-registry closure characterisation of the completion pass holds for
actions made of these; creations refute it (see the C1 counterexample). -/
def EditEv.noCreate : EditEv → Prop
  | .change _ => True
  | .dispose _ => True
  | _ => False

/-- Embedding of `Primitives.sortByLevelAscending` (`sort((a, b) => a.level - b.level)`). -/
def sortIdsByLevelAsc (r : Reg) (l : List Nat) : List Nat :=
  List.insertionSort (fun a b => r.levelOf a ≤ r.levelOf b) l

/-- Result of one `edit` call: the final registry, the ordered list of
primitives on which the completion pass called `applyConstraints`, and the
propagated error, if any. -/
structure EditResult where
  reg : Reg
  log : List Nat
  err : Option Thrown
deriving DecidableEq, Repr

/-- The `finally` block of `Primitives.edit`: sort the invalidated list by
ascending level, call `applyConstraints` on each non-disposed member in that
order, then clear both bookkeeping lists. -/
def editFinalize (qs : ℚ → ℚ) (r : Reg) : Reg × List Nat :=
  let order := sortIdsByLevelAsc r r.invalidated
  let step := order.foldl
    (fun (acc : Reg × List Nat) i =>
      if acc.1.isAlive i then (applyConstraintsOn qs acc.1 i, acc.2 ++ [i]) else acc)
    (r, [])
  ({ step.1 with invalidated := [], changed := [] }, step.2)

/-- Embedding of `Primitives.edit`.  The entry `console.assert` on an empty
changed list only logs and never raises.  The action runs (possibly throwing
after its last registry event, modelled by `userThrows`); the `finally` block
always runs the completion pass. -/
def edit (qs : ℚ → ℚ) (r : Reg) (evs : List EditEv) (userThrows : Bool) : EditResult :=
  let body := processEvents qs r evs
  let fin := editFinalize qs body.1
  { reg := fin.1, log := fin.2,
    err :=
      match body.2 with
      | some t => some t
      | none => if userThrows then some ⟨false, .userError⟩ else none }

/- ### Dragging (src/primitives.js draggers and the two-point mixin) -/

/-- One entry of a `PrimitiveNotDragger` offense list: either a primitive or the
two-element array `[pointA, pointB]` naming a dependency edge. -/
inductive Offense
  | prim (i : Nat)
  | edge (i j : Nat)
deriving DecidableEq, Repr

/-- The dragger object returned by `tryDrag`: a `FreePointPrimitiveDragger`
(with its grab offset), a `PrimitiveNotDragger` (with its offenses), a
`CompoundPrimitiveDragger` forwarding to two point draggers, or a
`PivotPointPrimitiveDragger` over a subject and a pivot point.  The pivot
dragger's stored `distance` is `Math.sqrt` of a squared distance and is
modelled separately (`PivotState`). -/
inductive DragRes
  | freePoint (pointId : Nat) (offset : Vec)
  | notDragger (offenses : List Offense)
  | compound (first second : DragRes)
  | pivot (subjectId pivotId : Nat) (grab : Vec)
deriving DecidableEq, Repr

/-- Embedding of `PrimitiveDragger.canDrag` (overridden to `false` only by
`PrimitiveNotDragger`). -/
def DragRes.canDrag : DragRes → Bool
  | .notDragger _ => false
  | _ => true

/-- Whether a dragger is the pivot variant. -/
def DragRes.isPivot : DragRes → Bool
  | .pivot _ _ _ => true
  | _ => false

/-- Embedding of `PointPrimitive.tryDrag` dispatch: a free point returns a
`FreePointPrimitiveDragger` with `offset = span(grabPosition, position)`; an
intersection point returns a `PrimitiveNotDragger` listing itself; the base
class method is unimplemented. -/
def pointTryDrag (p : Prim) (grab : Vec) : Option DragRes :=
  match p.kind with
  | .free => some (.freePoint p.pid (Vec.span grab p.position))
  | .inter => some (.notDragger [.prim p.pid])
  | _ => none

/-- The growing-set loop of `Primitive.dependsOn`: JS iterates a `Set` seeded
with `other` in insertion order while adding the children of every member whose
level is below the level of `this`; membership of `this` means dependence. -/
def dependsOnLoop (r : Reg) (selfId selfLevel : Nat) :
    Nat → List Nat → Nat → Option Bool
  | 0, _, _ => none
  | fuel + 1, L, i =>
    if h : i < L.length then
      let x := L.get ⟨i, h⟩
      if x == selfId then some true
      else if r.levelOf x < selfLevel then
        dependsOnLoop r selfId selfLevel fuel (addAllNew L (r.childrenOf x)) (i + 1)
      else dependsOnLoop r selfId selfLevel fuel L (i + 1)
    else some false

/-- Embedding of `Primitive.dependsOn` (`none` only on fuel exhaustion, which
cannot happen on well-formed registries). -/
def dependsOn (r : Reg) (i other : Nat) : Option Bool :=
  dependsOnLoop r i (r.levelOf i) (r.prims.length + 2) [other] 0

/-- Embedding of `_TwoPointPrimitiveMixin.tryDrag` as installed on
`TwoPointLinePrimitive`: both parents draggable gives a compound dragger; one
draggable gives a pivot dragger unless the fixed parent depends on the
draggable one (then a not-dragger listing the fixed parent and the dependency
edge); neither draggable gives a not-dragger listing both.  On a circle the
fixed-one-end branches call constructors that reference an undefined variable
(`grabPosition` in `_tryDrag0Fixed1`) or call `super()` without arguments, so
only the line instantiation is modelled; other receivers yield `none`. -/
def twoPointTryDrag (r : Reg) (i : Nat) (grab : Vec) : Option DragRes :=
  match r.find? i with
  | none => none
  | some p =>
    if p.kind == .line then
      match p.parents with
      | [a, b] =>
        match r.find? a, r.find? b with
        | some pa, some pb =>
          match pointTryDrag pa grab, pointTryDrag pb grab with
          | some d0, some d1 =>
            if d0.canDrag && d1.canDrag then some (.compound d0 d1)
            else if d0.canDrag then
              match dependsOn r b a with
              | some true => some (.notDragger [.prim b, .edge a b])
              | some false => some (.pivot a b grab)
              | none => none
            else if d1.canDrag then
              match dependsOn r a b with
              | some true => some (.notDragger [.prim a, .edge b a])
              | some false => some (.pivot b a grab)
              | none => none
            else some (.notDragger [.prim a, .prim b])
          | _, _ => none
        | _, _ => none
      | _ => none
    else none

/-- State of one `PivotPointPrimitiveDragger`: the pivot's (fixed) position, the
subject's position, and the stored grab-time distance
`vec2.dist(pivot.position, subject.position)`.  The distance is a `Math.sqrt`
result; the theorems constrain it by `distance ≥ 0 ∧ distance² = distSq`. -/
structure PivotState where
  pivotPos : Vec
  subjectPos : Vec
  distance : ℚ
deriving DecidableEq, Repr

/-- Embedding of `PivotPointPrimitiveDragger.dragTo`: with `u` spanning from the
pivot to the requested position, the drag is ignored when `1000·|u|` is below
the stored distance; otherwise the subject is placed at
`pivot + (s·distance/|u|)·u` where `s` is the sign of `dot(u, pivot→subject)`.
The length `|u| = Math.sqrt(u.lenSq())` is passed as the oracle value
`uLength`, constrained by the theorems as `uLength ≥ 0 ∧ uLength² = u.lenSq`.
(When `u = 0` and the stored distance is `0`, JS would produce `NaN`
coordinates from `0/0`; the model's total division places the subject on the
pivot, and no claim depends on that corner.) -/
def pivotDragTo (st : PivotState) (pos : Vec) (uLength : ℚ) : PivotState :=
  let u := Vec.span st.pivotPos pos
  if 1000 * uLength < st.distance then st
  else
    let s := signnz (Vec.dot u (Vec.span st.pivotPos st.subjectPos))
    { st with subjectPos := Vec.addScaled st.pivotPos (s * st.distance / uLength) u }

/-- A sequence of `dragTo` calls on a pivot dragger, each paired with its
`Math.sqrt` oracle value. -/
def pivotDragSeq (st : PivotState) : List (Vec × ℚ) → PivotState
  | [] => st
  | step :: rest => pivotDragSeq (pivotDragTo st step.1 step.2) rest

/- ### Point moves (src/primitives.js, PointPrimitive.tryMoveTo) -/

/-- Embedding of `PointPrimitive.tryMoveTo`: grab the point at its own position
(so a free point's dragger offset is the zero vector), and when the dragger can
drag, `dragTo(position)` sets `position.copy(target).add(offset)` and notifies
change. -/
def tryMoveTo (r : Reg) (i : Nat) (target : Vec) : Reg × Bool × Option Thrown :=
  match r.find? i with
  | none => (r, false, some ⟨false, .ghost⟩)
  | some p =>
    match pointTryDrag p p.position with
    | some (.freePoint _ offset) =>
      let r1 := r.update i (fun q => { q with position := Vec.add target offset })
      let step := onPrimitiveChange r1 i
      (step.1, true, step.2)
    | some (.notDragger _) => (r, false, none)
    | _ => (r, false, some ⟨false, .typeError⟩)

/-- Modelled from the spec: `FreePointPrimitive.moveTo` is called by
`Deserializer._derecordifySingleDiff` but is not defined in src/primitives.js;
per spec section 4.5 a record without `type` mutates the position of the existing
primitive through the usual change-notification path (spec section 4.2).  Modelled as
src's `PointPrimitive.tryMoveTo` with the boolean result dropped. -/
def moveTo (r : Reg) (i : Nat) (target : Vec) : Reg × Option Thrown :=
  let step := tryMoveTo r i target
  (step.1, step.2.2)

/-- Modelled from the spec: `IntersectionPointPrimitive.reset` is called by
`Deserializer._derecordifySingleDiff` but is not defined in src/primitives.js;
per spec section 4.5 a record without `type` mutates the fields (position, hints,
invalid flag) of the existing intersection point, here followed by the usual
change notification (spec section 4.2). -/
def resetIntersection (r : Reg) (i : Nat) (pos : Option Vec)
    (hints : Option (List (Int × Int))) (invalid : Bool) : Reg × Option Thrown :=
  let r1 := r.update i (fun q =>
    { q with
      position := pos.getD q.position,
      hints := hints.getD q.hints,
      invalid := invalid })
  onPrimitiveChange r1 i

/- ### Serialization (src/serialization.js) -/

/-- A serialization record: the flat object `{id, type?, parents?, position?,
hints?, invalid?, disposed?}`.  Absent JS properties are `none` (the boolean
flags are `false` when absent). -/
structure Rec where
  rid : Option Nat
  rtype : Option String
  rparents : Option (List Nat)
  rposition : Option Vec
  rhints : Option (List (Int × Int))
  rinvalid : Bool
  rdisposed : Bool
deriving DecidableEq, Repr

/-- State of one `Serializer` instance (the `_recordifyInProgress` flag). -/
structure SerializerState where
  recordifyInProgress : Bool
deriving DecidableEq, Repr

/-- Embedding of `Serializer._recordifySingle`: disposed primitives are skipped
or rejected; otherwise the record carries the id, the parent ids when any, and
the type-specific payload.  The source reads `primitive.isInvalid`, a property
that is never set (the flag property is named `invalid`), so no record ever
carries `invalid: true`.  Errors are wrapped into `DeserializationError`
(`Primitive id=...`) by the surrounding catch. -/
def recordifySingle (skipsDisposed : Bool) (p : Prim) : Except Thrown (Option Rec) :=
  if p.isDisposed then
    if skipsDisposed then .ok none
    else .error ⟨true, .disposedProhibited⟩
  else
    .ok (some
      { rid := some p.pid,
        rparents := if 0 < p.parents.length then some p.parents else none,
        rinvalid := false,
        rtype :=
          some (match p.kind with
            | .free => "P"
            | .inter => "X"
            | .line => "L"
            | .circle => "O"),
        rposition := if isPointKind p.kind then some p.position else none,
        rhints := if p.kind == .inter && decide (0 < p.hints.length) then some p.hints else none,
        rdisposed := false })

/-- The record-collecting loop of `Serializer.recordify` over an iterable. -/
def recordifyList (skips : Bool) : List Prim → List Rec → List Rec × Option Thrown
  | [], acc => (acc, none)
  | p :: rest, acc =>
    match recordifySingle skips p with
    | .ok none => recordifyList skips rest acc
    | .ok (some rc) => recordifyList skips rest (acc ++ [rc])
    | .error e => (acc, some e)

/-- Embedding of `Serializer.recordify` on an iterable: the `disposed` keyword
argument is validated, then a nested call faults (`checkState` before the
`try`, so the flag is left untouched); otherwise the records are collected and
the flag is cleared again by the `finally`. -/
def recordify (ss : SerializerState) (prims : List Prim) (disposedMode : String)
    (appendTo : List Rec) : SerializerState × List Rec × Option Thrown :=
  if !(disposedMode == "throw" || disposedMode == "skip") then
    (ss, appendTo, some ⟨false, .argumentError⟩)
  else if ss.recordifyInProgress then
    (ss, appendTo, some ⟨false, .stateError⟩)
  else
    let run := recordifyList (disposedMode == "skip") prims appendTo
    ({ ss with recordifyInProgress := false }, run.1, run.2)

/-- Mark an error as the wrapped `DeserializationError` kind
(`DeserializationError.wrap` keeps already-wrapped errors). -/
def wrapThrown (t : Thrown) : Thrown := ⟨true, t.kind⟩

/-- Embedding of `Deserializer._resolveId`: in diff mode ids resolve in the live
registry (`this._primitives.get`), otherwise in the `_bySerializedId` map of
this pass. -/
def resolveId (isDiff : Bool) (r : Reg) (bySer : List (Nat × Nat)) (i : Nat) : Option Nat :=
  if isDiff then (Reg.get r i).map (·.pid)
  else bySer.lookup i

/-- Embedding of `Deserializer._checkParents`: the `parents` property must be
present, have the expected length, and every id must resolve. -/
def checkParents (isDiff : Bool) (r : Reg) (bySer : List (Nat × Nat)) (rc : Rec)
    (count : Nat) : Except Thrown (List Nat) :=
  match rc.rparents with
  | none => .error ⟨true, .missingProperty⟩
  | some ids =>
    if ids.length != count then .error ⟨true, .parentCountMismatch⟩
    else
      match ids.mapM (resolveId isDiff r bySer) with
      | none => .error ⟨true, .unknownId⟩
      | some ps => .ok ps

/-- Embedding of `Deserializer._derecordifySingleNew`: dispatch on the type tag.
For `X` records, `tryGetOrCreateIntersectionPoint(...).point` dereferences
`.point` of `undefined` when the curves have no intersection (a TypeError), and
the call itself raises the `putIfAbsent` TypeError otherwise.  An unknown tag
raises `UnimplementedError`. -/
def derecordifySingleNew (qs : ℚ → ℚ) (isDiff : Bool) (r : Reg) (bySer : List (Nat × Nat))
    (rc : Rec) : Reg × Except Thrown Nat :=
  match rc.rtype with
  | some t =>
    if t == "P" then
      if rc.rparents.isSome then (r, .error ⟨true, .unexpectedProperty⟩)
      else
        match rc.rposition with
        | none => (r, .error ⟨true, .missingProperty⟩)
        | some pos =>
          let c := createPoint qs r pos
          (c.1, .ok c.2)
    else if t == "X" then
      match checkParents isDiff r bySer rc 2 with
      | .error e => (r, .error e)
      | .ok ps =>
        match rc.rposition with
        | none => (r, .error ⟨true, .missingProperty⟩)
        | some pos =>
          match rc.rhints with
          | none => (r, .error ⟨true, .missingProperty⟩)
          | some hints =>
            match ps with
            | [a, b] =>
              match tryGetOrCreateIntersectionPoint qs r a b pos (some hints) with
              | (r1, .error e) => (r1, .error e)
              | (r1, .ok none) => (r1, .error ⟨false, .typeError⟩)
              | (r1, .ok (some res)) => (r1, .ok res.1)
            | _ => (r, .error ⟨false, .ghost⟩)
    else if t == "L" then
      match checkParents isDiff r bySer rc 2 with
      | .error e => (r, .error e)
      | .ok ps =>
        match ps with
        | [a, b] => createLine qs r a b
        | _ => (r, .error ⟨false, .ghost⟩)
    else if t == "O" then
      match checkParents isDiff r bySer rc 2 with
      | .error e => (r, .error e)
      | .ok ps =>
        match ps with
        | [a, b] => createCircle qs r a b
        | _ => (r, .error ⟨false, .ghost⟩)
    else (r, .error ⟨true, .unimplemented⟩)
  | none => (r, .error ⟨false, .ghost⟩)

/-- Embedding of `Deserializer._derecordifySingleDiff`: resolve the id in the
live registry; a `disposed` record disposes the primitive; otherwise a free
point moves to the recorded position and an intersection point is reset; other
variants raise `UnimplementedError`. -/
def derecordifySingleDiff (r : Reg) (rc : Rec) (i : Nat) : Reg × Option Thrown :=
  match Reg.get r i with
  | none => (r, some ⟨true, .unknownId⟩)
  | some p =>
    if rc.rdisposed then disposePrim r i
    else
      match p.kind with
      | .free =>
        match rc.rposition with
        | none => (r, some ⟨true, .missingProperty⟩)
        | some pos => moveTo r i pos
      | .inter => resetIntersection r i rc.rposition rc.rhints rc.rinvalid
      | _ => (r, some ⟨true, .unimplemented⟩)

/-- Embedding of `Deserializer._derecordifySingle`: the `id` property is
required; a record is new when it carries `type` (in non-diff mode `type` is
required, so every record is a creation there); new records are checked against
duplicate ids and, in diff mode, against the deterministically assigned id;
non-diff creations are registered in `_bySerializedId`.  Every error leaving
this function is a (wrapped) `DeserializationError` carrying the record id
context. -/
def derecordifySingle (qs : ℚ → ℚ) (isDiff : Bool) (r : Reg) (bySer : List (Nat × Nat))
    (rc : Rec) : Reg × List (Nat × Nat) × Option Thrown :=
  match rc.rid with
  | none => (r, bySer, some ⟨true, .missingProperty⟩)
  | some i =>
    let isNewR : Except Thrown Bool :=
      if isDiff then .ok rc.rtype.isSome
      else
        match rc.rtype with
        | none => .error ⟨true, .missingProperty⟩
        | some _ => .ok true
    match isNewR with
    | .error e => (r, bySer, some (wrapThrown e))
    | .ok true =>
      if (bySer.lookup i).isSome then (r, bySer, some ⟨true, .duplicateId⟩)
      else
        match derecordifySingleNew qs isDiff r bySer rc with
        | (r1, .error e) => (r1, bySer, some (wrapThrown e))
        | (r1, .ok pid) =>
          if isDiff then
            if pid != i then (r1, bySer, some ⟨true, .assignedIdMismatch⟩)
            else (r1, bySer, none)
          else (r1, bySer ++ [(i, pid)], none)
    | .ok false =>
      match derecordifySingleDiff r rc i with
      | (r1, none) => (r1, bySer, none)
      | (r1, some e) => (r1, bySer, some (wrapThrown e))

/-- Embedding of `Primitives.sortByLevelDescending`. -/
def sortIdsByLevelDesc (r : Reg) (l : List Nat) : List Nat :=
  List.insertionSort (fun a b => r.levelOf b ≤ r.levelOf a) l

/-- The disposal loop of the static `Primitives.dispose`; the first throw
aborts the rest.  The second component records the successful disposal order. -/
def disposeFold : Reg → List Nat → List Nat → Reg × List Nat × Option Thrown
  | r, [], log => (r, log, none)
  | r, i :: rest, log =>
    match disposePrim r i with
    | (r1, none) => disposeFold r1 rest (log ++ [i])
    | (r1, some e) => (r1, log, some e)

/-- Embedding of the static `Primitives.dispose`: dispose a collection in
descending-level order. -/
def disposeAll (r : Reg) (ids : List Nat) : Reg × List Nat × Option Thrown :=
  disposeFold r (sortIdsByLevelDesc r ids) []

/-- The record loop of `Deserializer.derecordify`. -/
def derecordifyGo (qs : ℚ → ℚ) (isDiff : Bool) :
    Reg → List (Nat × Nat) → List Rec → Reg × List (Nat × Nat) × Option Thrown
  | r, bySer, [] => (r, bySer, none)
  | r, bySer, rc :: rest =>
    match derecordifySingle qs isDiff r bySer rc with
    | (r1, bySer1, none) => derecordifyGo qs isDiff r1 bySer1 rest
    | (r1, bySer1, some e) => (r1, bySer1, some e)

/-- Result of one `derecordify` pass: the final registry, the propagated error,
if any, and the order in which the catch block disposed the primitives created
during the pass (an observation channel of the model). -/
structure DerecordifyResult where
  reg : Reg
  err : Option Thrown
  disposalLog : List Nat
deriving DecidableEq, Repr

/-- Embedding of `Deserializer.derecordify`: a nested call faults immediately
(`checkState` before any mutation); otherwise the records are replayed; on a
throw the catch block disposes `_bySerializedId.values()` (in descending-level
order via `Primitives.dispose`) and rethrows the error wrapped — unless the
cleanup itself throws, in which case that raw error propagates instead. -/
def derecordify (qs : ℚ → ℚ) (dsInProgress : Bool) (r : Reg) (records : List Rec)
    (isDiff : Bool) : DerecordifyResult :=
  if dsInProgress then { reg := r, err := some ⟨false, .stateError⟩, disposalLog := [] }
  else
    match derecordifyGo qs isDiff r [] records with
    | (r1, _, none) => { reg := r1, err := none, disposalLog := [] }
    | (r1, bySer1, some e) =>
      let cleanup := disposeAll r1 (bySer1.map (·.2))
      { reg := cleanup.1,
        err :=
          match cleanup.2.2 with
          | some d => some d
          | none => some (wrapThrown e),
        disposalLog := cleanup.2.1 }

/- ### History (src/history.js) -/

/-- One history log entry: a mutual diff with forward and backward records. -/
structure Diff where
  forward : List Rec
  backward : List Rec
deriving DecidableEq, Repr

/-- State of one `History` instance. -/
structure Hist where
  diffs : List Diff
  latestDiffIndex : Int
  isApplyingDiff : Bool
  trackedIds : List Nat
  newIds : List Nat
  befores : List Rec
deriving DecidableEq, Repr

/-- Result of one `tryUndo`/`tryRedo` call. -/
structure HistResult where
  reg : Reg
  hist : Hist
  err : Option Thrown
deriving DecidableEq, Repr

/-- The two `checkState` guards at the top of `History._applyDiff`: no nested
diff application and no pending (tracked or new) changes. -/
def applyDiffGuard (h : Hist) : Option Thrown :=
  if h.isApplyingDiff then some ⟨false, .stateError⟩
  else if !(h.newIds.isEmpty && h.trackedIds.isEmpty) then some ⟨false, .stateError⟩
  else none

/-- Embedding of `History.tryUndo`: under the `_applyDiff` guards, when
`latestDiffIndex ≥ 0` the supplier picks that entry's backward diff and
post-decrements the index, and the records are replayed in diff mode; the
`finally` clears the `isApplyingDiff` flag again, so its net value is
unchanged. -/
def tryUndo (qs : ℚ → ℚ) (r : Reg) (h : Hist) : HistResult :=
  match applyDiffGuard h with
  | some e => { reg := r, hist := h, err := some e }
  | none =>
    if 0 ≤ h.latestDiffIndex then
      match h.diffs.get? h.latestDiffIndex.toNat with
      | some d =>
        let h1 := { h with latestDiffIndex := h.latestDiffIndex - 1 }
        let res := derecordify qs false r d.backward true
        { reg := res.reg, hist := h1, err := res.err }
      | none => { reg := r, hist := h, err := some ⟨false, .ghost⟩ }
    else { reg := r, hist := h, err := none }

/-- Embedding of `History.tryRedo`: when a later entry exists the supplier
pre-increments the index and replays that entry's forward diff. -/
def tryRedo (qs : ℚ → ℚ) (r : Reg) (h : Hist) : HistResult :=
  match applyDiffGuard h with
  | some e => { reg := r, hist := h, err := some e }
  | none =>
    if h.latestDiffIndex < (h.diffs.length : Int) - 1 then
      let idx := h.latestDiffIndex + 1
      match h.diffs.get? idx.toNat with
      | some d =>
        let h1 := { h with latestDiffIndex := idx }
        let res := derecordify qs false r d.forward true
        { reg := res.reg, hist := h1, err := res.err }
      | none => { reg := r, hist := h, err := some ⟨false, .ghost⟩ }
    else { reg := r, hist := h, err := none }

/- ### Generic registry lemmas -/

/-- Whether the primitive `i` exists and is disposed. -/
def Reg.disposedB (r : Reg) (i : Nat) : Bool :=
  match r.find? i with
  | some p => p.isDisposed
  | none => false

/-- Reachability along `children` edges (the set that a breadth-first closure
over `children` computes). -/
inductive Reaches (r : Reg) : Nat → Nat → Prop
  | refl (i : Nat) : Reaches r i i
  | step {i j k : Nat} : Reaches r i j → k ∈ r.childrenOf j → Reaches r i k

theorem find?_eq_of_prims_eq {r1 r2 : Reg} (h : r1.prims = r2.prims) (i : Nat) :
    r1.find? i = r2.find? i := by
  unfold Reg.find?
  rw [h]

theorem find?_update {r : Reg} {i : Nat} {f : Prim → Prim}
    (hpid : ∀ p, (f p).pid = p.pid) (j : Nat) :
    (r.update i f).find? j = (r.find? j).map (fun p => if p.pid == i then f p else p) := by
  unfold Reg.update Reg.find?
  simp only
  induction r.prims with
  | nil => rfl
  | cons p rest ih =>
    rw [List.map_cons]
    by_cases hp : p.pid = j
    · rw [List.find?_cons_of_pos _ (by split <;> simp [hpid, hp]),
        List.find?_cons_of_pos _ (by simpa using hp)]
      rfl
    · rw [List.find?_cons_of_neg _ (by split <;> simp [hpid, hp]),
        List.find?_cons_of_neg _ (by simpa using hp)]
      exact ih

theorem find?_update_ne {r : Reg} {i : Nat} {f : Prim → Prim}
    (hpid : ∀ p, (f p).pid = p.pid) {j : Nat} (hne : j ≠ i) :
    (r.update i f).find? j = r.find? j := by
  rw [find?_update hpid]
  match h : r.find? j with
  | none => rfl
  | some p =>
    have hj : p.pid = j := by
      have := List.find?_some h
      simpa using this
    simp [hj, hne]

theorem find?_pid {r : Reg} {i : Nat} {p : Prim} (h : r.find? i = some p) : p.pid = i := by
  have := List.find?_some h
  simpa using this

theorem find?_mem {r : Reg} {i : Nat} {p : Prim} (h : r.find? i = some p) : p ∈ r.prims :=
  List.mem_of_find?_eq_some h

theorem update_pids {r : Reg} {i : Nat} {f : Prim → Prim}
    (hpid : ∀ p, (f p).pid = p.pid) : (r.update i f).pids = r.pids := by
  unfold Reg.update Reg.pids
  simp only
  induction r.prims with
  | nil => rfl
  | cons p rest ih =>
    simp only [List.map_cons, List.cons.injEq]
    exact ⟨by split <;> simp [hpid], ih⟩

theorem update_nextId (r : Reg) (i : Nat) (f : Prim → Prim) :
    (r.update i f).nextId = r.nextId := rfl

theorem update_changed (r : Reg) (i : Nat) (f : Prim → Prim) :
    (r.update i f).changed = r.changed := rfl

theorem update_invalidated (r : Reg) (i : Nat) (f : Prim → Prim) :
    (r.update i f).invalidated = r.invalidated := rfl

theorem levelOf_update {r : Reg} {i : Nat} {f : Prim → Prim}
    (hpid : ∀ p, (f p).pid = p.pid) (hlvl : ∀ p, (f p).level = p.level) (j : Nat) :
    (r.update i f).levelOf j = r.levelOf j := by
  unfold Reg.levelOf
  rw [find?_update hpid]
  match r.find? j with
  | none => rfl
  | some p =>
    simp only [Option.map_some', Option.getD_some]
    split <;> simp [hlvl]

theorem mem_pids_iff_find?_isSome (r : Reg) (i : Nat) :
    i ∈ r.pids ↔ (r.find? i).isSome := by
  unfold Reg.pids Reg.find?
  induction r.prims with
  | nil => simp
  | cons p rest ih =>
    simp only [List.map_cons, List.mem_cons, List.find?_cons]
    by_cases hp : p.pid == i
    · simp only [hp]
      have : i = p.pid := by simpa using (beq_iff_eq.mp hp).symm
      simp [this]
    · simp only [hp]
      have : ¬(i = p.pid) := by
        intro h
        exact absurd (beq_iff_eq.mpr h.symm) (by simpa using hp)
      simp [this, ih]

/- ### Concrete scene helpers (shared by witnesses and counterexamples) -/

/-- A default square-root oracle for concrete instances (no theorem depends on
its values). -/
def qs0 : ℚ → ℚ := fun _ => 0

/-- A concrete free point. -/
def freePrim (i : Nat) (pos : Vec) (kids : List Nat) : Prim :=
  { pid := i, parents := [], children := kids, level := 0, kind := .free,
    isSelectable := true, position := pos, origin := ⟨0, 0⟩, direction := ⟨1, 0⟩,
    center := ⟨0, 0⟩, radius := 0, hints := [], invalid := false, isDisposed := false }

/-- A concrete two-point line. -/
def linePrim (i a b : Nat) (o d : Vec) (kids : List Nat) (lvl : Nat) : Prim :=
  { pid := i, parents := [a, b], children := kids, level := lvl, kind := .line,
    isSelectable := true, position := ⟨0, 0⟩, origin := o, direction := d,
    center := ⟨0, 0⟩, radius := 0, hints := [], invalid := false, isDisposed := false }

/-- A concrete intersection point. -/
def interPrim (i a b : Nat) (pos : Vec) (kids : List Nat) (lvl : Nat) : Prim :=
  { pid := i, parents := [a, b], children := kids, level := lvl, kind := .inter,
    isSelectable := true, position := pos, origin := ⟨0, 0⟩, direction := ⟨1, 0⟩,
    center := ⟨0, 0⟩, radius := 0, hints := [], invalid := false, isDisposed := false }

/-- A registry with empty bookkeeping around a primitive list. -/
def mkReg (ps : List Prim) (next : Nat) : Reg :=
  { prims := ps, nextId := next, changed := [], invalidated := [], interIndex := [] }

/- ### Claim C10: double disposal always throws -/

/-- Claim C10: calling `dispose()` on an already-disposed primitive always
throws (`Already disposed.`) and leaves the registry untouched, so the disposal
path (detaching from the parents' children lists, the disposal notification)
never runs twice. -/
theorem c10_double_dispose_throws (r : Reg) (i : Nat) (p : Prim)
    (hfind : r.find? i = some p) (hdisp : p.isDisposed = true) :
    disposePrim r i = (r, some ⟨false, .alreadyDisposed⟩) := by
  unfold disposePrim
  rw [hfind]
  simp [hdisp]

/-- The disposed point of the C10 witness. -/
def c10Prim : Prim := { freePrim 1 ⟨0, 0⟩ [] with isDisposed := true }

/-- The registry of the C10 witness. -/
def c10Reg : Reg := mkReg [c10Prim] 2

/-- Witness for C10: a registry holding one already-disposed point; `dispose`
on it throws and changes nothing. -/
theorem c10_witness :
    c10Reg.find? 1 = some c10Prim ∧ c10Prim.isDisposed = true ∧
    disposePrim c10Reg 1 = (c10Reg, some ⟨false, .alreadyDisposed⟩) :=
  ⟨rfl, rfl, c10_double_dispose_throws c10Reg 1 c10Prim rfl rfl⟩

/- ### Claim C3: intersection-point deduplication (code defect) -/

/-- Claim C3 (behaviour of the code as written): whenever the candidate
selection yields a position — i.e. whenever the two curves intersect, exactly
the situation in which the dedup index would be consulted —
`tryGetOrCreateIntersectionPoint` raises a TypeError before touching any state,
because it calls `Map.prototype.putIfAbsent`, which is defined nowhere in the
repository (src/utils.js installs only `getOrCompute` and `hasOrSet`).  The
documented behaviour (return the matching existing point with
`isExisting: true`) is therefore unreachable. -/
theorem c3_tryGetOrCreate_putIfAbsent_fault (qs : ℚ → ℚ) (r : Reg) (i0 i1 : Nat)
    (approx : Vec) (hints : Option (List (Int × Int))) (pos : Vec)
    (hsel : (ippIntersection qs r i0 i1 approx hints).position = some pos) :
    tryGetOrCreateIntersectionPoint qs r i0 i1 approx hints =
      (r, .error ⟨false, .typeError⟩) := by
  simp only [tryGetOrCreateIntersectionPoint, hsel]

/-- The failing scene of C3: four free points carrying two crossing lines. -/
def c3Reg : Reg :=
  mkReg
    [freePrim 1 ⟨-1, 0⟩ [5], freePrim 2 ⟨1, 0⟩ [5],
     freePrim 3 ⟨0, -1⟩ [6], freePrim 4 ⟨0, 1⟩ [6],
     linePrim 5 1 2 ⟨-1, 0⟩ ⟨2, 0⟩ [] 1,
     linePrim 6 3 4 ⟨0, -1⟩ ⟨0, 2⟩ [] 1]
    7

/-- Witness for C3 at the failing input: the two lines cross at the origin, the
selection resolves, and the very first `tryGetOrCreateIntersectionPoint` call
throws the `putIfAbsent` TypeError with the registry unchanged. -/
theorem c3_witness :
    (ippIntersection qs0 c3Reg 5 6 ⟨0, 0⟩ none).position = some ⟨0, 0⟩ ∧
    tryGetOrCreateIntersectionPoint qs0 c3Reg 5 6 ⟨0, 0⟩ none =
      (c3Reg, .error ⟨false, .typeError⟩) := by
  have hsel : (ippIntersection qs0 c3Reg 5 6 ⟨0, 0⟩ none).position = some ⟨0, 0⟩ := by
    norm_num [ippIntersection, primIntersections, c3Reg, mkReg, freePrim, linePrim,
      Reg.find?, lineLineIntersections, Vec.per, Vec.span, Vec.addScaled,
      selectIntersection, indexOfMinBy, getAtInt]
  exact ⟨hsel, c3_tryGetOrCreate_putIfAbsent_fault qs0 c3Reg 5 6 ⟨0, 0⟩ none ⟨0, 0⟩ hsel⟩

/- ### Claim C6: non-reentrancy (corrected) -/

/-- The mid-transaction registry of the C6 counterexample: one free point whose
change has been reported (bookkeeping non-empty, so an outer `edit` is in
progress). -/
def c6Mid : Reg := (processEvents qs0 (mkReg [freePrim 1 ⟨0, 0⟩ []] 2) [.change 1]).1

/-- Counterexample to C6 as stated: with an `edit` transaction in progress
(`_changedPrimitives` non-empty), a nested `edit` call raises no error at all —
it even runs its completion pass, applying constraints and clearing the outer
transaction's bookkeeping — where the claim requires an immediate fault before
any mutation. -/
theorem c6_counterexample :
    c6Mid.changed = [1] ∧ c6Mid.invalidated = [1] ∧
    (edit qs0 c6Mid [] false).err = none ∧
    (edit qs0 c6Mid [] false).reg.changed = [] ∧
    (edit qs0 c6Mid [] false).log = [1] := by
  refine ⟨rfl, rfl, rfl, rfl, rfl⟩

/-- Claim C6 (amended): nested `derecordify`, nested `recordify` and a diff
application started while one is in progress all fault immediately with a
`StateError`, before any mutation; a nested `edit`, however, does not raise —
the registry only `console.assert`s that no changes are pending, and the nested
call runs to completion (flushing the outer transaction's bookkeeping early). -/
theorem c6_nonreentrancy_amended :
    (∀ (qs : ℚ → ℚ) (r : Reg) (records : List Rec) (isDiff : Bool),
      derecordify qs true r records isDiff =
        { reg := r, err := some ⟨false, .stateError⟩, disposalLog := [] }) ∧
    (∀ (prims : List Prim) (acc : List Rec),
      recordify ⟨true⟩ prims "throw" acc = (⟨true⟩, acc, some ⟨false, .stateError⟩)) ∧
    (∀ (prims : List Prim) (acc : List Rec),
      recordify ⟨true⟩ prims "skip" acc = (⟨true⟩, acc, some ⟨false, .stateError⟩)) ∧
    (∀ (qs : ℚ → ℚ) (r : Reg) (h : Hist),
      tryUndo qs r { h with isApplyingDiff := true } =
        { reg := r, hist := { h with isApplyingDiff := true },
          err := some ⟨false, .stateError⟩ }) ∧
    (∀ (qs : ℚ → ℚ) (r : Reg) (h : Hist),
      tryRedo qs r { h with isApplyingDiff := true } =
        { reg := r, hist := { h with isApplyingDiff := true },
          err := some ⟨false, .stateError⟩ }) ∧
    (∀ (qs : ℚ → ℚ) (r : Reg), (edit qs r [] false).err = none) := by
  refine ⟨fun qs r records isDiff => rfl, fun prims acc => rfl, fun prims acc => rfl,
    fun qs r h => rfl, fun qs r h => rfl, fun qs r => rfl⟩

/- ### Claim C2: the candidate-selection rule -/

theorem indexOfMinBy_fold {α : Type} (f : α → ℚ) (l : List α) :
    ∀ (rest : List α) (b i : Nat) (m : ℚ) (v : α),
      rest = l.drop (i + 1) →
      l.get? b = some v → f v = m → b ≤ i →
      (∀ k w, k ≤ i → l.get? k = some w → m ≤ f w) →
      ∃ (j : Nat) (vj : α),
        (rest.foldl (indexOfMinByStep f) (b, m, i)).1 = j ∧ l.get? j = some vj ∧
        (∀ k w, l.get? k = some w → f vj ≤ f w)
  | [], b, i, m, v, hrest, hb, hm, _, hmin => by
      refine ⟨b, v, rfl, hb, ?_⟩
      intro k w hk
      have hlen : l.length ≤ i + 1 := by
        have hdrop := congrArg List.length hrest
        simp only [List.length_nil, List.length_drop] at hdrop
        omega
      obtain ⟨hklt, -⟩ := List.get?_eq_some.mp hk
      have hki : k ≤ i := by omega
      rw [hm]
      exact hmin k w hki hk
  | x :: rest', b, i, m, v, hrest, hb, hm, hbi, hmin => by
      have hx : l.get? (i + 1) = some x := by
        have h0 : (l.drop (i + 1)).get? 0 = some x := by rw [← hrest]; rfl
        rwa [List.get?_drop] at h0
      have hrest' : rest' = l.drop (i + 2) := by
        have h1 := congrArg (List.drop 1) hrest
        simpa [List.drop_drop] using h1
      rw [List.foldl_cons]
      unfold indexOfMinByStep
      by_cases hlt : f x < m
      · rw [if_pos hlt]
        exact indexOfMinBy_fold f l rest' (i + 1) (i + 1) (f x) x
          (by simpa using hrest') hx rfl le_rfl
          (fun k w hk hkw => by
            rcases Nat.lt_or_ge (i + 1) k with hki | hki
            · omega
            · rcases Nat.lt_or_ge k (i + 1) with hki2 | hki2
              · exact le_of_lt (lt_of_lt_of_le hlt (hmin k w (by omega) hkw))
              · have hkeq : k = i + 1 := by omega
                subst hkeq
                rw [hx] at hkw
                cases hkw
                exact le_rfl)
      · rw [if_neg hlt]
        exact indexOfMinBy_fold f l rest' b (i + 1) m v
          (by simpa using hrest') hb hm (by omega)
          (fun k w hk hkw => by
            rcases Nat.lt_or_ge k (i + 1) with hki | hki
            · exact hmin k w (by omega) hkw
            · have hkeq : k = i + 1 := by omega
              subst hkeq
              rw [hx] at hkw
              cases hkw
              exact le_of_not_lt hlt)

theorem getAtInt_natCast {α : Type} (l : List α) (j : Nat) :
    getAtInt l (j : Int) = l.get? j := by
  unfold getAtInt
  rw [if_neg (by omega)]
  simp

/-- Claim C2: the candidate-selection rule.  (1) If the hint list contains an
entry whose recorded candidate-count equals the current number of candidates,
the (first) such entry's recorded index is chosen and the position is the
candidate at that index.  (2) Otherwise, on a non-empty candidate list, a
candidate with minimal squared distance to the approximate position is chosen,
and the choice is marked non-hinted.  (3) `applyConstraints` of an intersection
point re-applies exactly this selection with the point's own hints and current
position: on success it adopts the selected position, clears `invalid`, and
appends `(candidateCount, chosenIndex)` to the hint list exactly when the
choice was non-hinted among at least two candidates; with no candidate it sets
`invalid` and leaves position and hints unchanged. -/
theorem c2_candidate_selection_rule (cands : List Vec) (hints : List (Int × Int))
    (approx : Vec) :
    (∀ h, hints.find? (fun e => e.1 == (cands.length : Int)) = some h →
      (selectIntersection cands (some hints) approx).isHint = true ∧
      (selectIntersection cands (some hints) approx).index = h.2 ∧
      (selectIntersection cands (some hints) approx).position = getAtInt cands h.2) ∧
    (hints.find? (fun e => e.1 == (cands.length : Int)) = none → cands ≠ [] →
      ∃ (j : Nat) (v : Vec),
        (selectIntersection cands (some hints) approx).isHint = false ∧
        (selectIntersection cands (some hints) approx).index = (j : Int) ∧
        cands.get? j = some v ∧
        (selectIntersection cands (some hints) approx).position = some v ∧
        ∀ k w, cands.get? k = some w → Vec.distSq v approx ≤ Vec.distSq w approx) ∧
    (∀ (qs : ℚ → ℚ) (r : Reg) (i : Nat) (p : Prim) (a b : Nat),
      r.find? i = some p → p.kind = .inter → p.parents = [a, b] →
      ((∀ pos, (ippIntersection qs r a b p.position (some p.hints)).position = some pos →
        applyConstraintsOn qs r i = r.update i (fun q =>
          { q with
            position := pos,
            hints :=
              if !(ippIntersection qs r a b p.position (some p.hints)).isHint &&
                  decide (1 < (ippIntersection qs r a b p.position (some p.hints)).all.length) then
                q.hints ++
                  [(((ippIntersection qs r a b p.position (some p.hints)).all.length : Int),
                    (ippIntersection qs r a b p.position (some p.hints)).index)]
              else q.hints,
            invalid := false })) ∧
      ((ippIntersection qs r a b p.position (some p.hints)).position = none →
        applyConstraintsOn qs r i = r.update i (fun q => { q with invalid := true })))) := by
  refine ⟨?_, ?_, ?_⟩
  · intro h hfind
    unfold selectIntersection
    simp only [Option.some_bind, hfind, Option.isSome_some]
    exact ⟨trivial, trivial, trivial⟩
  · intro hfind hne
    match cands, hfind, hne with
    | a :: rest, hfind, _ =>
      obtain ⟨j, vj, hj, hv, hmin⟩ :=
        indexOfMinBy_fold (fun c => Vec.distSq c approx) (a :: rest) rest 0 0
          (Vec.distSq a approx) a rfl rfl rfl le_rfl
          (fun k w hk hkw => by
            interval_cases k
            simp only [List.get?_cons_zero] at hkw
            cases hkw
            exact le_rfl)
      have hidx : indexOfMinBy (fun c => Vec.distSq c approx) (a :: rest) = (j : Int) := by
        unfold indexOfMinBy
        exact congrArg (fun n : Nat => (n : Int)) hj
      have hsel : selectIntersection (a :: rest) (some hints) approx =
          ⟨getAtInt (a :: rest) (j : Int), a :: rest, (j : Int), false⟩ := by
        unfold selectIntersection
        simp only [Option.some_bind, hfind, hidx, Option.isSome_none]
      refine ⟨j, vj, ?_, ?_, hv, ?_, hmin⟩
      · rw [hsel]
      · rw [hsel]
      · rw [hsel]
        show getAtInt (a :: rest) (j : Int) = some vj
        rw [getAtInt_natCast]
        exact hv
  · intro qs r i p a b hfind hkind hparents
    constructor
    · intro pos hpos
      unfold applyConstraintsOn
      simp only [hfind, hkind, hparents, hpos]
    · intro hpos
      unfold applyConstraintsOn
      simp only [hfind, hkind, hparents, hpos]

/-- Witness scene for C2: the crossing-lines registry of C3 with an
intersection point at the origin between lines 5 and 6. -/
def c2Reg : Reg :=
  mkReg
    [freePrim 1 ⟨-1, 0⟩ [5], freePrim 2 ⟨1, 0⟩ [5],
     freePrim 3 ⟨0, -1⟩ [6], freePrim 4 ⟨0, 1⟩ [6],
     linePrim 5 1 2 ⟨-1, 0⟩ ⟨2, 0⟩ [7] 1,
     linePrim 6 3 4 ⟨0, -1⟩ ⟨0, 2⟩ [7] 1,
     interPrim 7 5 6 ⟨3, 3⟩ [] 2]
    8

/-- Witness for C2: a hinted selection honours the recorded index, and an
unhinted selection on two candidates picks the closer one. -/
theorem c2_witness :
    ([((1 : Int), (0 : Int))].find?
        (fun e => e.1 == (([⟨0, 0⟩, ⟨5, 5⟩] : List Vec).length : Int)) = none) ∧
    (([⟨0, 0⟩, ⟨5, 5⟩] : List Vec) ≠ []) ∧
    (∃ (j : Nat) (v : Vec),
      (selectIntersection [⟨0, 0⟩, ⟨5, 5⟩] (some [((1 : Int), (0 : Int))]) ⟨4, 4⟩).isHint = false ∧
      (selectIntersection [⟨0, 0⟩, ⟨5, 5⟩] (some [((1 : Int), (0 : Int))]) ⟨4, 4⟩).index = (j : Int) ∧
      ([⟨0, 0⟩, ⟨5, 5⟩] : List Vec).get? j = some v ∧
      (selectIntersection [⟨0, 0⟩, ⟨5, 5⟩] (some [((1 : Int), (0 : Int))]) ⟨4, 4⟩).position = some v ∧
      ∀ k w, ([⟨0, 0⟩, ⟨5, 5⟩] : List Vec).get? k = some w →
        Vec.distSq v ⟨4, 4⟩ ≤ Vec.distSq w ⟨4, 4⟩) := by
  have hfind : ([((1 : Int), (0 : Int))].find?
      (fun e => e.1 == (([⟨0, 0⟩, ⟨5, 5⟩] : List Vec).length : Int)) = none) := by decide
  exact ⟨hfind, by simp,
    (c2_candidate_selection_rule [⟨0, 0⟩, ⟨5, 5⟩] [((1 : Int), (0 : Int))] ⟨4, 4⟩).2.1
      hfind (by simp)⟩

/- ### Claim C9: pivot dragging -/

theorem signnz_sq (x : ℚ) : signnz x * signnz x = 1 := by
  unfold signnz
  split <;> norm_num

theorem distSq_addScaled (P : Vec) (c : ℚ) (u : Vec) :
    Vec.distSq (Vec.addScaled P c u) P = c * c * Vec.lenSq u := by
  unfold Vec.distSq Vec.addScaled Vec.lenSq
  ring

theorem pivotDragTo_invariant (st : PivotState) (pos : Vec) (uL : ℚ)
    (hd0 : 0 ≤ st.distance)
    (hd : st.distance * st.distance = Vec.distSq st.subjectPos st.pivotPos)
    (hu0 : 0 ≤ uL) (hu : uL * uL = Vec.lenSq (Vec.span st.pivotPos pos)) :
    (pivotDragTo st pos uL).pivotPos = st.pivotPos ∧
    (pivotDragTo st pos uL).distance = st.distance ∧
    (pivotDragTo st pos uL).distance * (pivotDragTo st pos uL).distance =
      Vec.distSq (pivotDragTo st pos uL).subjectPos (pivotDragTo st pos uL).pivotPos := by
  unfold pivotDragTo
  by_cases hguard : 1000 * uL < st.distance
  · rw [if_pos hguard]
    exact ⟨rfl, rfl, hd⟩
  · rw [if_neg hguard]
    refine ⟨rfl, rfl, ?_⟩
    show st.distance * st.distance = Vec.distSq (Vec.addScaled st.pivotPos _ _) st.pivotPos
    rw [distSq_addScaled, ← hu]
    rcases eq_or_ne uL 0 with h0 | h0
    · have hdz : st.distance = 0 := by
        push_neg at hguard
        subst h0
        simpa using le_antisymm (by simpa using hguard) hd0
      rw [hdz, h0]
      norm_num
    · have hs := signnz_sq (Vec.dot (Vec.span st.pivotPos pos) (Vec.span st.pivotPos st.subjectPos))
      have h2 : (signnz (Vec.dot (Vec.span st.pivotPos pos) (Vec.span st.pivotPos st.subjectPos)) *
            st.distance / uL) *
          (signnz (Vec.dot (Vec.span st.pivotPos pos) (Vec.span st.pivotPos st.subjectPos)) *
            st.distance / uL) * (uL * uL) =
          (signnz (Vec.dot (Vec.span st.pivotPos pos) (Vec.span st.pivotPos st.subjectPos)) *
            signnz (Vec.dot (Vec.span st.pivotPos pos) (Vec.span st.pivotPos st.subjectPos))) *
          (st.distance * st.distance) * ((uL * uL) / (uL * uL)) := by
        ring
      rw [h2, hs, div_self (mul_ne_zero h0 h0)]
      ring

theorem pivotDragSeq_invariant (steps : List (Vec × ℚ)) :
    ∀ (st : PivotState),
      0 ≤ st.distance →
      st.distance * st.distance = Vec.distSq st.subjectPos st.pivotPos →
      (∀ s ∈ steps, 0 ≤ s.2 ∧ s.2 * s.2 = Vec.lenSq (Vec.span st.pivotPos s.1)) →
      (pivotDragSeq st steps).pivotPos = st.pivotPos ∧
      (pivotDragSeq st steps).distance = st.distance ∧
      (pivotDragSeq st steps).distance * (pivotDragSeq st steps).distance =
        Vec.distSq (pivotDragSeq st steps).subjectPos (pivotDragSeq st steps).pivotPos := by
  induction steps with
  | nil => exact fun st hd0 hd _ => ⟨rfl, rfl, hd⟩
  | cons s rest ih =>
    intro st hd0 hd hsteps
    obtain ⟨hs0, hs1⟩ := hsteps s (List.mem_cons_self s rest)
    obtain ⟨hp, hdist, hinv⟩ := pivotDragTo_invariant st s.1 s.2 hd0 hd hs0 hs1
    have hd0' : 0 ≤ (pivotDragTo st s.1 s.2).distance := by rw [hdist]; exact hd0
    have hrest := ih (pivotDragTo st s.1 s.2) hd0' hinv
      (fun t ht => by
        obtain ⟨ht0, ht1⟩ := hsteps t (List.mem_cons_of_mem s ht)
        refine ⟨ht0, ?_⟩
        rw [hp]
        exact ht1)
    exact ⟨hrest.1.trans hp, hrest.2.1.trans hdist, hrest.2.2⟩

/-- The scene of the C9 counterexample and witness: free points 1-4 and 9, the
crossing lines 5 and 6, their intersection point 7, the line 8 from the free
point 1 to the intersection point 7 (so the fixed endpoint 7 depends on the
draggable endpoint 1), and the line 10 from the independent free point 9 to the
intersection point 7. -/
def c9Reg : Reg :=
  mkReg
    [freePrim 1 ⟨-1, 0⟩ [5, 8], freePrim 2 ⟨1, 0⟩ [5],
     freePrim 3 ⟨0, -1⟩ [6], freePrim 4 ⟨0, 1⟩ [6],
     linePrim 5 1 2 ⟨-1, 0⟩ ⟨2, 0⟩ [7] 1,
     linePrim 6 3 4 ⟨0, -1⟩ ⟨0, 2⟩ [7] 1,
     interPrim 7 5 6 ⟨0, 0⟩ [8, 10] 2,
     linePrim 8 1 7 ⟨-1, 0⟩ ⟨1, 0⟩ [] 3,
     freePrim 9 ⟨5, 5⟩ [10],
     linePrim 10 9 7 ⟨5, 5⟩ ⟨-5, -5⟩ [] 3]
    11

/-- Counterexample to C9 as stated: on line 8, endpoint 1 is draggable (free),
endpoint 7 is fixed (an intersection point) and is *not* a dependency of the
draggable endpoint (`dependsOn 1 7 = false`), yet `tryDrag` returns a
non-dragging placeholder, not a pivot dragger, because the code instead tests
whether the fixed endpoint depends on the draggable one (`dependsOn 7 1`),
which holds here. -/
theorem c9_counterexample :
    (c9Reg.find? 8).map (·.kind) = some .line ∧
    (c9Reg.find? 1).map (·.kind) = some .free ∧
    (c9Reg.find? 7).map (·.kind) = some .inter ∧
    dependsOn c9Reg 1 7 = some false ∧
    dependsOn c9Reg 7 1 = some true ∧
    twoPointTryDrag c9Reg 8 ⟨-1, 0⟩ = some (.notDragger [.prim 7, .edge 1 7]) :=
  ⟨rfl, rfl, rfl, rfl, rfl, rfl⟩

/-- The scene of the C9 orientation-2 witness: the `c9Reg` scene extended by
the line 11 whose *first* parent is the intersection point 7 and whose second
parent is the free point 9. -/
def c9RegB : Reg :=
  mkReg
    [freePrim 1 ⟨-1, 0⟩ [5, 8], freePrim 2 ⟨1, 0⟩ [5],
     freePrim 3 ⟨0, -1⟩ [6], freePrim 4 ⟨0, 1⟩ [6],
     linePrim 5 1 2 ⟨-1, 0⟩ ⟨2, 0⟩ [7] 1,
     linePrim 6 3 4 ⟨0, -1⟩ ⟨0, 2⟩ [7] 1,
     interPrim 7 5 6 ⟨0, 0⟩ [8, 10, 11] 2,
     linePrim 8 1 7 ⟨-1, 0⟩ ⟨1, 0⟩ [] 3,
     freePrim 9 ⟨5, 5⟩ [10, 11],
     linePrim 10 9 7 ⟨5, 5⟩ ⟨-5, -5⟩ [] 3,
     linePrim 11 7 9 ⟨0, 0⟩ ⟨5, 5⟩ [] 3]
    12

/-- Claim C9 (amended): for a two-point line whose one endpoint is draggable (a
free point) and whose other endpoint is fixed (an intersection point, not
draggable), in either parent order, `tryDrag` returns the pivot dragger
(subject: the free endpoint; pivot: the fixed endpoint) exactly when the
*fixed* endpoint does not depend on the draggable one — when it does depend,
the result is the not-dragger listing the fixed endpoint and the dependency
edge; and on any pivot dragger whose stored distance is the grab-time distance,
every sequence of `dragTo` calls keeps the subject's (squared) distance to the
pivot equal to that stored distance (exactly, in real arithmetic). -/
theorem c9_pivot_amended :
    (∀ (r : Reg) (i : Nat) (g : Vec) (p pa pb : Prim) (a b : Nat) (db : Bool),
      r.find? i = some p → p.kind = .line → p.parents = [a, b] →
      r.find? a = some pa → pa.kind = .free →
      r.find? b = some pb → pb.kind = .inter →
      dependsOn r b a = some db →
      twoPointTryDrag r i g =
        some (if db then .notDragger [.prim b, .edge a b] else .pivot a b g)) ∧
    (∀ (r : Reg) (i : Nat) (g : Vec) (p pa pb : Prim) (a b : Nat) (da : Bool),
      r.find? i = some p → p.kind = .line → p.parents = [a, b] →
      r.find? a = some pa → pa.kind = .inter →
      r.find? b = some pb → pb.kind = .free →
      dependsOn r a b = some da →
      twoPointTryDrag r i g =
        some (if da then .notDragger [.prim a, .edge b a] else .pivot b a g)) ∧
    (∀ (st : PivotState) (steps : List (Vec × ℚ)),
      0 ≤ st.distance →
      st.distance * st.distance = Vec.distSq st.subjectPos st.pivotPos →
      (∀ s ∈ steps, 0 ≤ s.2 ∧ s.2 * s.2 = Vec.lenSq (Vec.span st.pivotPos s.1)) →
      (pivotDragSeq st steps).pivotPos = st.pivotPos ∧
      (pivotDragSeq st steps).distance = st.distance ∧
      Vec.distSq (pivotDragSeq st steps).subjectPos st.pivotPos =
        st.distance * st.distance) := by
  refine ⟨?_, ?_, ?_⟩
  · intro r i g p pa pb a b db hfind hkind hparents hfa hka hfb hkb hdep
    unfold twoPointTryDrag
    simp only [hfind, hkind, hparents, hfa, hfb, beq_self_eq_true, if_true]
    unfold pointTryDrag
    simp only [hka, hkb]
    simp only [DragRes.canDrag, Bool.and_false, Bool.false_and, Bool.false_eq_true,
      if_false, if_true, hdep]
    cases db <;> rfl
  · intro r i g p pa pb a b da hfind hkind hparents hfa hka hfb hkb hdep
    unfold twoPointTryDrag
    simp only [hfind, hkind, hparents, hfa, hfb, beq_self_eq_true, if_true]
    unfold pointTryDrag
    simp only [hka, hkb]
    simp only [DragRes.canDrag, Bool.and_false, Bool.false_and, Bool.false_eq_true,
      if_false, if_true, hdep]
    cases da <;> rfl
  · intro st steps hd0 hd hsteps
    obtain ⟨hp, hdist, hinv⟩ := pivotDragSeq_invariant steps st hd0 hd hsteps
    exact ⟨hp, hdist, by rw [← hp]; rw [hdist] at hinv; exact hinv.symm⟩

/-- Witness for C9 (amended), covering all four dispatch cases and the metric:
on line 10 (free endpoint first) the fixed intersection point 7 does not depend
on the free point 9, so `tryDrag` pivots; on line 8 (free endpoint first) the
fixed point 7 depends on the draggable point 1, so `tryDrag` refuses; on line
11 of the extended scene (fixed endpoint first) the pivot is returned likewise;
and a concrete pivot state (pivot at the origin, subject at `(3,4)`, stored
distance `5`) dragged towards `(0,5)` (with `|u| = 5`) keeps the squared
distance at `25`. -/
theorem c9_witness :
    twoPointTryDrag c9Reg 10 ⟨5, 5⟩ = some (.pivot 9 7 ⟨5, 5⟩) ∧
    twoPointTryDrag c9Reg 8 ⟨-1, 0⟩ = some (.notDragger [.prim 7, .edge 1 7]) ∧
    twoPointTryDrag c9RegB 11 ⟨6, 6⟩ = some (.pivot 9 7 ⟨6, 6⟩) ∧
    (let st : PivotState := ⟨⟨0, 0⟩, ⟨3, 4⟩, 5⟩
     (pivotDragSeq st [(⟨0, 5⟩, 5)]).pivotPos = st.pivotPos ∧
     (pivotDragSeq st [(⟨0, 5⟩, 5)]).distance = st.distance ∧
     Vec.distSq (pivotDragSeq st [(⟨0, 5⟩, 5)]).subjectPos st.pivotPos =
       st.distance * st.distance) := by
  refine ⟨?_, ?_, ?_, ?_⟩
  · exact c9_pivot_amended.1 c9Reg 10 ⟨5, 5⟩
      (linePrim 10 9 7 ⟨5, 5⟩ ⟨-5, -5⟩ [] 3) (freePrim 9 ⟨5, 5⟩ [10])
      (interPrim 7 5 6 ⟨0, 0⟩ [8, 10] 2) 9 7 false rfl rfl rfl rfl rfl rfl rfl rfl
  · exact c9_pivot_amended.1 c9Reg 8 ⟨-1, 0⟩
      (linePrim 8 1 7 ⟨-1, 0⟩ ⟨1, 0⟩ [] 3) (freePrim 1 ⟨-1, 0⟩ [5, 8])
      (interPrim 7 5 6 ⟨0, 0⟩ [8, 10] 2) 1 7 true rfl rfl rfl rfl rfl rfl rfl rfl
  · exact c9_pivot_amended.2.1 c9RegB 11 ⟨6, 6⟩
      (linePrim 11 7 9 ⟨0, 0⟩ ⟨5, 5⟩ [] 3) (interPrim 7 5 6 ⟨0, 0⟩ [8, 10, 11] 2)
      (freePrim 9 ⟨5, 5⟩ [10, 11]) 7 9 false rfl rfl rfl rfl rfl rfl rfl rfl
  · exact c9_pivot_amended.2.2 ⟨⟨0, 0⟩, ⟨3, 4⟩, 5⟩ [(⟨0, 5⟩, 5)]
      (by norm_num)
      (by norm_num [Vec.distSq])
      (by
        intro s hs
        simp only [List.mem_singleton] at hs
        subst hs
        norm_num [Vec.lenSq, Vec.span])

/- ### Claim C7: levels are fixed at construction -/

/-- Every primitive present in `r` is still present in `r2` with the same
level. -/
def PreservesLevels (r r2 : Reg) : Prop :=
  ∀ i p, r.find? i = some p → ∃ q, r2.find? i = some q ∧ q.level = p.level

theorem preservesLevels_refl (r : Reg) : PreservesLevels r r :=
  fun _ p h => ⟨p, h, rfl⟩

theorem preservesLevels_trans {r1 r2 r3 : Reg} (h12 : PreservesLevels r1 r2)
    (h23 : PreservesLevels r2 r3) : PreservesLevels r1 r3 := by
  intro i p h
  obtain ⟨q, hq, hql⟩ := h12 i p h
  obtain ⟨w, hw, hwl⟩ := h23 i q hq
  exact ⟨w, hw, hwl.trans hql⟩

theorem preservesLevels_of_prims_eq {r r2 : Reg} (h : r2.prims = r.prims) :
    PreservesLevels r r2 := by
  intro i p hp
  refine ⟨p, ?_, rfl⟩
  rw [find?_eq_of_prims_eq h]
  exact hp

theorem preservesLevels_update {r : Reg} {i : Nat} {f : Prim → Prim}
    (hpid : ∀ p, (f p).pid = p.pid) (hlvl : ∀ p, (f p).level = p.level) :
    PreservesLevels r (r.update i f) := by
  intro j p hj
  rw [find?_update hpid j, hj]
  refine ⟨_, rfl, ?_⟩
  show (if (p.pid == i) = true then f p else p).level = p.level
  split <;> simp [hlvl]

theorem preservesLevels_foldl {α : Type} (g : Reg → α → Reg)
    (h : ∀ r a, PreservesLevels r (g r a)) (l : List α) :
    ∀ r, PreservesLevels r (l.foldl g r) := by
  induction l with
  | nil => exact fun r => preservesLevels_refl r
  | cons a rest ih =>
    intro r
    rw [List.foldl_cons]
    exact preservesLevels_trans (h r a) (ih (g r a))

theorem preservesLevels_onPrimitiveDisposal (r : Reg) (p : Prim) :
    PreservesLevels r (onPrimitiveDisposal r p) := by
  unfold onPrimitiveDisposal
  repeat' first | split | dsimp only
  all_goals exact preservesLevels_of_prims_eq rfl

theorem preservesLevels_applyConstraintsOn (qs : ℚ → ℚ) (r : Reg) (i : Nat) :
    PreservesLevels r (applyConstraintsOn qs r i) := by
  unfold applyConstraintsOn
  repeat' first | split | dsimp only
  all_goals
    first
      | exact preservesLevels_refl r
      | exact preservesLevels_update (fun p => rfl) (fun p => rfl)

theorem preservesLevels_onPrimitiveChange (r : Reg) (i : Nat) :
    PreservesLevels r (onPrimitiveChange r i).1 := by
  unfold onPrimitiveChange
  repeat' first | split | dsimp only
  all_goals
    first
      | exact preservesLevels_refl r
      | exact preservesLevels_onPrimitiveDisposal r _
      | exact preservesLevels_of_prims_eq rfl

theorem preservesLevels_disposePrim (r : Reg) (i : Nat) :
    PreservesLevels r (disposePrim r i).1 := by
  have hstep : ∀ (ps : List Nat),
      PreservesLevels r (ps.foldl (fun acc j => acc.update j
        (fun q => { q with children := q.children.erase i })) r) := by
    intro ps
    apply preservesLevels_foldl
    intro r2 j
    apply preservesLevels_update
    · intro p
      rfl
    · intro p
      rfl
  unfold disposePrim
  repeat' first | split | dsimp only
  all_goals
    first
      | exact preservesLevels_refl r
      | (refine preservesLevels_trans ?_ (preservesLevels_onPrimitiveDisposal _ _)
         exact preservesLevels_trans (hstep _)
           (preservesLevels_update (fun p => rfl) (fun p => rfl)))
      | exact preservesLevels_trans (hstep _)
          (preservesLevels_update (fun p => rfl) (fun p => rfl))

theorem find?_append_left {α : Type} {f : α → Bool} {l1 : List α} (l2 : List α) {p : α}
    (h : l1.find? f = some p) : (l1 ++ l2).find? f = some p := by
  induction l1 with
  | nil => cases h
  | cons a rest ih =>
    rw [List.cons_append]
    by_cases ha : f a
    · rw [List.find?_cons_of_pos _ ha] at h ⊢
      exact h
    · rw [List.find?_cons_of_neg _ ha] at h ⊢
      exact ih h

theorem preservesLevels_append (r : Reg) (p : Prim) (n : Nat) :
    PreservesLevels r { r with prims := r.prims ++ [p], nextId := n } :=
  fun _ q hj => ⟨q, find?_append_left [p] hj, rfl⟩

theorem preservesLevels_constructFold (r : Reg) (parents : List Nat) (pid : Nat) :
    PreservesLevels r (parents.foldl (fun acc j => acc.update j
      (fun q => { q with children := q.children ++ [pid] })) r) := by
  apply preservesLevels_foldl
  intro r2 j
  apply preservesLevels_update
  · intro p
    rfl
  · intro p
    rfl

theorem preservesLevels_registerPrim (qs : ℚ → ℚ) (r : Reg) (p : Prim) :
    PreservesLevels r (registerPrim qs r p).1 := by
  unfold registerPrim
  exact preservesLevels_trans (preservesLevels_append r p _)
    (preservesLevels_applyConstraintsOn qs _ _)

theorem preservesLevels_createPoint (qs : ℚ → ℚ) (r : Reg) (pos : Vec) :
    PreservesLevels r (createPoint qs r pos).1 := by
  unfold createPoint
  exact preservesLevels_registerPrim qs (constructPrim r [] .free pos []).1
    (constructPrim r [] .free pos []).2

theorem preservesLevels_createLine (qs : ℚ → ℚ) (r : Reg) (a b : Nat) :
    PreservesLevels r (createLine qs r a b).1 := by
  unfold createLine
  repeat' first | split | dsimp only
  all_goals
    first
      | exact preservesLevels_refl r
      | exact preservesLevels_constructFold r [a, b] _
      | (refine preservesLevels_trans ?_ (preservesLevels_applyConstraintsOn qs _ _)
         refine preservesLevels_trans ?_ (preservesLevels_applyConstraintsOn qs _ _)
         refine preservesLevels_trans ?_ (preservesLevels_append _ _ _)
         exact preservesLevels_constructFold r [a, b] _)

theorem preservesLevels_createCircle (qs : ℚ → ℚ) (r : Reg) (a b : Nat) :
    PreservesLevels r (createCircle qs r a b).1 := by
  unfold createCircle
  repeat' first | split | dsimp only
  all_goals
    first
      | exact preservesLevels_refl r
      | exact preservesLevels_constructFold r [a, b] _
      | (refine preservesLevels_trans ?_ (preservesLevels_applyConstraintsOn qs _ _)
         refine preservesLevels_trans ?_ (preservesLevels_applyConstraintsOn qs _ _)
         refine preservesLevels_trans ?_ (preservesLevels_append _ _ _)
         exact preservesLevels_constructFold r [a, b] _)

theorem preservesLevels_tryGetOrCreate (qs : ℚ → ℚ) (r : Reg) (i0 i1 : Nat) (ap : Vec)
    (hs : Option (List (Int × Int))) :
    PreservesLevels r (tryGetOrCreateIntersectionPoint qs r i0 i1 ap hs).1 := by
  unfold tryGetOrCreateIntersectionPoint
  repeat' first | split | dsimp only
  all_goals exact preservesLevels_refl r

theorem preservesLevels_tryMoveTo (r : Reg) (i : Nat) (t : Vec) :
    PreservesLevels r (tryMoveTo r i t).1 := by
  unfold tryMoveTo
  repeat' first | split | dsimp only
  all_goals
    first
      | exact preservesLevels_refl r
      | (refine preservesLevels_trans (preservesLevels_update ?_ ?_)
            (preservesLevels_onPrimitiveChange _ _) <;>
          exact fun p => rfl)

theorem preservesLevels_moveTo (r : Reg) (i : Nat) (t : Vec) :
    PreservesLevels r (moveTo r i t).1 :=
  preservesLevels_tryMoveTo r i t

theorem preservesLevels_resetIntersection (r : Reg) (i : Nat) (pos : Option Vec)
    (hints : Option (List (Int × Int))) (inv : Bool) :
    PreservesLevels r (resetIntersection r i pos hints inv).1 := by
  unfold resetIntersection
  refine preservesLevels_trans (preservesLevels_update ?_ ?_)
      (preservesLevels_onPrimitiveChange _ _) <;>
    exact fun p => rfl

theorem preservesLevels_of_fst_eq {r : Reg} {α : Type} {pr : Reg × α}
    (h : PreservesLevels r pr.1) {r1 : Reg} {a : α} (heq : pr = (r1, a)) :
    PreservesLevels r r1 := by
  have h2 := congrArg Prod.fst heq
  dsimp only at h2
  rwa [h2] at h

theorem preservesLevels_processEvent (qs : ℚ → ℚ) (r : Reg) (e : EditEv) :
    PreservesLevels r (processEvent qs r e).1 := by
  cases e with
  | change i => exact preservesLevels_onPrimitiveChange r i
  | dispose i => exact preservesLevels_disposePrim r i
  | createP pos => exact preservesLevels_createPoint qs r pos
  | createL a b =>
    show PreservesLevels r (match createLine qs r a b with
      | (r1, Except.ok _) => (r1, (none : Option Thrown))
      | (r1, Except.error t) => (r1, some t)).1
    rcases hc : createLine qs r a b with ⟨r1, res⟩
    have h : PreservesLevels r r1 :=
      preservesLevels_of_fst_eq (preservesLevels_createLine qs r a b) hc
    cases res <;> exact h
  | createO a b =>
    show PreservesLevels r (match createCircle qs r a b with
      | (r1, Except.ok _) => (r1, (none : Option Thrown))
      | (r1, Except.error t) => (r1, some t)).1
    rcases hc : createCircle qs r a b with ⟨r1, res⟩
    have h : PreservesLevels r r1 :=
      preservesLevels_of_fst_eq (preservesLevels_createCircle qs r a b) hc
    cases res <;> exact h

theorem preservesLevels_processEvents (qs : ℚ → ℚ) (evs : List EditEv) :
    ∀ r, PreservesLevels r (processEvents qs r evs).1 := by
  induction evs with
  | nil => exact fun r => preservesLevels_refl r
  | cons e rest ih =>
    intro r
    rcases he : processEvent qs r e with ⟨r1, err⟩
    have h1 : PreservesLevels r r1 := by
      have h := preservesLevels_processEvent qs r e
      rwa [he] at h
    unfold processEvents
    rw [he]
    cases err with
    | none => exact preservesLevels_trans h1 (ih r1)
    | some t => exact h1

theorem preservesLevels_finalizeFold (qs : ℚ → ℚ) (order : List Nat) :
    ∀ (acc : Reg × List Nat),
      PreservesLevels acc.1 ((order.foldl (fun acc i =>
        if acc.1.isAlive i then (applyConstraintsOn qs acc.1 i, acc.2 ++ [i]) else acc)
        acc)).1 := by
  induction order with
  | nil => exact fun acc => preservesLevels_refl acc.1
  | cons a rest ih =>
    intro acc
    rw [List.foldl_cons]
    refine preservesLevels_trans ?_ (ih _)
    by_cases h : acc.1.isAlive a
    · rw [if_pos h]
      exact preservesLevels_applyConstraintsOn qs acc.1 a
    · rw [if_neg h]
      exact preservesLevels_refl acc.1

theorem preservesLevels_editFinalize (qs : ℚ → ℚ) (r : Reg) :
    PreservesLevels r (editFinalize qs r).1 := by
  unfold editFinalize
  exact preservesLevels_trans (preservesLevels_finalizeFold qs _ (r, []))
    (preservesLevels_of_prims_eq rfl)

theorem preservesLevels_edit (qs : ℚ → ℚ) (r : Reg) (evs : List EditEv) (u : Bool) :
    PreservesLevels r (edit qs r evs u).reg := by
  unfold edit
  exact preservesLevels_trans (preservesLevels_processEvents qs evs r)
    (preservesLevels_editFinalize qs _)

theorem preservesLevels_derecordifySingleNew (qs : ℚ → ℚ) (d : Bool) (r : Reg)
    (bySer : List (Nat × Nat)) (rc : Rec) :
    PreservesLevels r (derecordifySingleNew qs d r bySer rc).1 := by
  unfold derecordifySingleNew
  repeat' first | split | dsimp only
  all_goals
    first
      | exact preservesLevels_refl r
      | exact preservesLevels_createPoint qs r _
      | exact preservesLevels_createLine qs r _ _
      | exact preservesLevels_createCircle qs r _ _
      | exact preservesLevels_of_fst_eq
          (preservesLevels_tryGetOrCreate qs r _ _ _ _) (by assumption)

theorem preservesLevels_derecordifySingleDiff (r : Reg) (rc : Rec) (i : Nat) :
    PreservesLevels r (derecordifySingleDiff r rc i).1 := by
  unfold derecordifySingleDiff
  repeat' first | split | dsimp only
  all_goals
    first
      | exact preservesLevels_refl r
      | exact preservesLevels_disposePrim r _
      | exact preservesLevels_moveTo r _ _
      | exact preservesLevels_resetIntersection r _ _ _ _

theorem preservesLevels_derecordifySingle (qs : ℚ → ℚ) (d : Bool) (r : Reg)
    (bySer : List (Nat × Nat)) (rc : Rec) :
    PreservesLevels r (derecordifySingle qs d r bySer rc).1 := by
  unfold derecordifySingle
  repeat' first | split | dsimp only
  all_goals
    first
      | exact preservesLevels_refl r
      | exact preservesLevels_of_fst_eq
          (preservesLevels_derecordifySingleNew qs d r bySer rc) (by assumption)
      | exact preservesLevels_of_fst_eq
          (preservesLevels_derecordifySingleDiff r rc _) (by assumption)

theorem preservesLevels_derecordifyGo (qs : ℚ → ℚ) (d : Bool) (records : List Rec) :
    ∀ r bySer, PreservesLevels r (derecordifyGo qs d r bySer records).1 := by
  induction records with
  | nil => exact fun r _ => preservesLevels_refl r
  | cons rc rest ih =>
    intro r bySer
    rcases hs : derecordifySingle qs d r bySer rc with ⟨r1, bySer1, err⟩
    have h1 : PreservesLevels r r1 := by
      have h := preservesLevels_derecordifySingle qs d r bySer rc
      rwa [hs] at h
    unfold derecordifyGo
    rw [hs]
    cases err with
    | none => exact preservesLevels_trans h1 (ih r1 bySer1)
    | some t => exact h1

theorem preservesLevels_disposeFold (ids : List Nat) :
    ∀ r log, PreservesLevels r (disposeFold r ids log).1 := by
  induction ids with
  | nil => exact fun r _ => preservesLevels_refl r
  | cons i rest ih =>
    intro r log
    rcases hd : disposePrim r i with ⟨r1, err⟩
    have h1 : PreservesLevels r r1 := by
      have h := preservesLevels_disposePrim r i
      rwa [hd] at h
    unfold disposeFold
    rw [hd]
    cases err with
    | none => exact preservesLevels_trans h1 (ih r1 (log ++ [i]))
    | some t => exact h1

theorem preservesLevels_disposeAll (r : Reg) (ids : List Nat) :
    PreservesLevels r (disposeAll r ids).1 := by
  unfold disposeAll
  exact preservesLevels_disposeFold _ r []

theorem preservesLevels_derecordify (qs : ℚ → ℚ) (dsIn : Bool) (r : Reg)
    (records : List Rec) (isDiff : Bool) :
    PreservesLevels r (derecordify qs dsIn r records isDiff).reg := by
  unfold derecordify
  repeat' first | split | dsimp only
  all_goals
    first
      | exact preservesLevels_refl r
      | exact preservesLevels_of_fst_eq
          (preservesLevels_derecordifyGo qs isDiff records r []) (by assumption)
      | (refine preservesLevels_trans
          (preservesLevels_of_fst_eq
            (preservesLevels_derecordifyGo qs isDiff records r []) (by assumption)) ?_
         exact preservesLevels_disposeAll _ _)

theorem preservesLevels_tryUndo (qs : ℚ → ℚ) (r : Reg) (h : Hist) :
    PreservesLevels r (tryUndo qs r h).reg := by
  unfold tryUndo
  repeat' first | split | dsimp only
  all_goals
    first
      | exact preservesLevels_refl r
      | exact preservesLevels_derecordify qs false r _ true

theorem preservesLevels_tryRedo (qs : ℚ → ℚ) (r : Reg) (h : Hist) :
    PreservesLevels r (tryRedo qs r h).reg := by
  unfold tryRedo
  repeat' first | split | dsimp only
  all_goals
    first
      | exact preservesLevels_refl r
      | exact preservesLevels_derecordify qs false r _ true

theorem foldl_max_succ (g : Nat → Nat) (parents : List Nat) :
    ∀ a : Nat, parents.foldl (fun l j => max l (g j + 1)) (a + 1) =
      (parents.foldl (fun l j => max l (g j)) a) + 1 := by
  induction parents with
  | nil => intro a; rfl
  | cons p ps ih =>
    intro a
    rw [List.foldl_cons, List.foldl_cons, Nat.succ_max_succ]
    exact ih (max a (g p))

theorem constructPrim_level (r : Reg) (parents : List Nat) (kind : PKind) (pos : Vec)
    (hints : List (Int × Int)) :
    (constructPrim r parents kind pos hints).2.level =
      if parents.isEmpty then 0 else ((parents.map r.levelOf).foldl max 0) + 1 := by
  show parents.foldl (fun l j => max l (r.levelOf j + 1)) 0 =
    if parents.isEmpty then 0 else ((parents.map r.levelOf).foldl max 0) + 1
  match parents with
  | [] => rfl
  | p :: ps =>
    rw [List.foldl_cons, List.map_cons, List.foldl_cons]
    have h0 : max 0 (r.levelOf p + 1) = (max 0 (r.levelOf p)) + 1 := by omega
    rw [h0, foldl_max_succ (r.levelOf) ps (max 0 (r.levelOf p))]
    rw [List.foldl_map]
    rfl

/-- Claim C7: a primitive's `level` is computed once at construction as `0`
with no parents and `1 + max(parent levels)` otherwise, and no registry
operation (constraint application, change notification, disposal, moves,
creation of other primitives, edit transactions, deserialization, undo/redo)
ever changes the level of an existing primitive. -/
theorem c7_level_rule (qs : ℚ → ℚ) (r : Reg) :
    (∀ (parents : List Nat) (kind : PKind) (pos : Vec) (hints : List (Int × Int)),
      (constructPrim r parents kind pos hints).2.level =
        if parents.isEmpty then 0 else ((parents.map r.levelOf).foldl max 0) + 1) ∧
    (∀ pos, PreservesLevels r (createPoint qs r pos).1) ∧
    (∀ a b, PreservesLevels r (createLine qs r a b).1) ∧
    (∀ a b, PreservesLevels r (createCircle qs r a b).1) ∧
    (∀ i0 i1 ap hs, PreservesLevels r (tryGetOrCreateIntersectionPoint qs r i0 i1 ap hs).1) ∧
    (∀ i, PreservesLevels r (applyConstraintsOn qs r i)) ∧
    (∀ i, PreservesLevels r (onPrimitiveChange r i).1) ∧
    (∀ i, PreservesLevels r (disposePrim r i).1) ∧
    (∀ i t, PreservesLevels r (tryMoveTo r i t).1) ∧
    (∀ evs u, PreservesLevels r (edit qs r evs u).reg) ∧
    (∀ dsIn records isDiff, PreservesLevels r (derecordify qs dsIn r records isDiff).reg) ∧
    (∀ h, PreservesLevels r (tryUndo qs r h).reg) ∧
    (∀ h, PreservesLevels r (tryRedo qs r h).reg) :=
  ⟨fun parents kind pos hints => constructPrim_level r parents kind pos hints,
    fun pos => preservesLevels_createPoint qs r pos,
    fun a b => preservesLevels_createLine qs r a b,
    fun a b => preservesLevels_createCircle qs r a b,
    fun i0 i1 ap hs => preservesLevels_tryGetOrCreate qs r i0 i1 ap hs,
    fun i => preservesLevels_applyConstraintsOn qs r i,
    fun i => preservesLevels_onPrimitiveChange r i,
    fun i => preservesLevels_disposePrim r i,
    fun i t => preservesLevels_tryMoveTo r i t,
    fun evs u => preservesLevels_edit qs r evs u,
    fun dsIn records isDiff => preservesLevels_derecordify qs dsIn r records isDiff,
    fun h => preservesLevels_tryUndo qs r h,
    fun h => preservesLevels_tryRedo qs r h⟩

/-- Witness for C7 at the concrete crossing-lines scene: the constructed line's
level is `1 + max(0, 0)` and disposing line 5 preserves every other level. -/
theorem c7_witness :
    ((constructPrim c3Reg [1, 2] .line ⟨0, 0⟩ []).2.level =
      if ([1, 2] : List Nat).isEmpty then 0
      else (([1, 2].map c3Reg.levelOf).foldl max 0) + 1) ∧
    PreservesLevels c3Reg (disposePrim c3Reg 5).1 :=
  ⟨(c7_level_rule qs0 c3Reg).1 [1, 2] .line ⟨0, 0⟩ [],
    (c7_level_rule qs0 c3Reg).2.2.2.2.2.2.2.1 5⟩

/- ### Claim C4: undo/redo (corrected) -/

/-- The registry of the C4 counterexample: one freshly created free point (the
state right after `createPoint` and a `flush`). -/
def c4Reg : Reg := mkReg [freePrim 1 ⟨2, 3⟩ []] 2

/-- The history of the C4 counterexample: the single log entry a flush of that
creation produces — forward diff creates the point (full record), backward diff
disposes it. -/
def c4Hist : Hist :=
  { diffs :=
      [{ forward := [{ rid := some 1, rtype := some "P", rparents := none,
                       rposition := some ⟨2, 3⟩, rhints := none, rinvalid := false,
                       rdisposed := false }],
         backward := [{ rid := some 1, rtype := none, rparents := none, rposition := none,
                        rhints := none, rinvalid := false, rdisposed := true }] }],
    latestDiffIndex := 0, isApplyingDiff := false, trackedIds := [], newIds := [],
    befores := [] }

/-- Counterexample to C4 as stated: undoing the creation entry disposes the
point, but the following `tryRedo` does *not* restore it — ids are assigned by
a monotone counter and never reused, so the replayed creation gets id `2`,
fails the assigned-id check with a wrapped `DeserializationError`, and leaves
the registry with point 1 still disposed (and a stray alive point 2 that the
diff-mode cleanup does not dispose). -/
theorem c4_counterexample :
    ((c4Reg.find? 1).map (·.isDisposed) = some false) ∧
    (tryUndo qs0 c4Reg c4Hist).err = none ∧
    (((tryUndo qs0 c4Reg c4Hist).reg.find? 1).map (·.isDisposed) = some true) ∧
    (tryRedo qs0 (tryUndo qs0 c4Reg c4Hist).reg (tryUndo qs0 c4Reg c4Hist).hist).err =
      some ⟨true, .assignedIdMismatch⟩ ∧
    (((tryRedo qs0 (tryUndo qs0 c4Reg c4Hist).reg
        (tryUndo qs0 c4Reg c4Hist).hist).reg.find? 1).map (·.isDisposed) = some true) ∧
    (((tryRedo qs0 (tryUndo qs0 c4Reg c4Hist).reg
        (tryUndo qs0 c4Reg c4Hist).hist).reg.find? 2).map (·.isDisposed) = some false) :=
  ⟨rfl, rfl, rfl, rfl, rfl, rfl⟩

/- ### Breadth-first closure lemmas (shared by the edit and replay claims) -/

theorem addAllNew_append (L items : List Nat) :
    ∃ ext, addAllNew L items = L ++ ext ∧ ∀ x ∈ ext, x ∈ items := by
  induction items generalizing L with
  | nil => exact ⟨[], by simp [addAllNew]⟩
  | cons c cs ih =>
    show ∃ ext, addAllNew (if L.contains c then L else L ++ [c]) cs = L ++ ext ∧ _
    by_cases hc : L.contains c
    · rw [if_pos hc]
      obtain ⟨ext, hext, hmem⟩ := ih L
      exact ⟨ext, hext, fun x hx => List.mem_cons_of_mem c (hmem x hx)⟩
    · rw [if_neg hc]
      obtain ⟨ext, hext, hmem⟩ := ih (L ++ [c])
      refine ⟨c :: ext, by simpa using hext, ?_⟩
      intro x hx
      rcases List.mem_cons.mp hx with h | h
      · exact h ▸ List.mem_cons_self c cs
      · exact List.mem_cons_of_mem c (hmem x h)

theorem addAllNew_mem {L items : List Nat} {x : Nat} (hx : x ∈ addAllNew L items) :
    x ∈ L ∨ x ∈ items := by
  obtain ⟨ext, hext, hmem⟩ := addAllNew_append L items
  rw [hext] at hx
  rcases List.mem_append.mp hx with h | h
  · exact Or.inl h
  · exact Or.inr (hmem x h)

theorem mem_addAllNew_of_mem_left {L items : List Nat} {x : Nat} (hx : x ∈ L) :
    x ∈ addAllNew L items := by
  obtain ⟨ext, hext, -⟩ := addAllNew_append L items
  rw [hext]
  exact List.mem_append_left _ hx

theorem addAllNew_cons (L : List Nat) (c : Nat) (cs : List Nat) :
    addAllNew L (c :: cs) = addAllNew (if L.contains c then L else L ++ [c]) cs := rfl

theorem mem_addAllNew_of_mem_items (items : List Nat) {x : Nat} :
    ∀ (L : List Nat), x ∈ items → x ∈ addAllNew L items := by
  induction items with
  | nil => intro L hx; cases hx
  | cons c cs ih =>
    intro L hx
    rw [addAllNew_cons]
    rcases List.mem_cons.mp hx with h | h
    · by_cases hc : L.contains c
      · rw [if_pos hc]
        exact mem_addAllNew_of_mem_left (show x ∈ L by rw [h]; simpa using hc)
      · rw [if_neg hc]
        exact mem_addAllNew_of_mem_left (by simp [h])
    · by_cases hc : L.contains c
      · rw [if_pos hc]
        exact ih _ h
      · rw [if_neg hc]
        exact ih _ h

theorem addAllNew_nodup (items : List Nat) : ∀ {L : List Nat}, L.Nodup →
    (addAllNew L items).Nodup := by
  induction items with
  | nil => exact fun h => h
  | cons c cs ih =>
    intro L h
    rw [addAllNew_cons]
    by_cases hc : L.contains c
    · rw [if_pos hc]
      exact ih h
    · rw [if_neg hc]
      refine ih ?_
      rw [List.nodup_append]
      exact ⟨h, List.nodup_singleton c, by
        intro a ha hb
        simp only [List.mem_singleton] at hb
        subst hb
        exact absurd (by simpa using ha) (by simpa using hc)⟩

theorem bfsLoop_prefix (r : Reg) (ch : List Nat) :
    ∀ (fuel : Nat) (L : List Nat) (i : Nat),
      ∃ ext, (bfsLoop r ch fuel L i).1 = L ++ ext := by
  intro fuel
  induction fuel with
  | zero => exact fun L i => ⟨[], by simp [bfsLoop]⟩
  | succ fuel ih =>
    intro L i
    unfold bfsLoop
    by_cases hi : i < L.length
    · rw [dif_pos hi]
      by_cases hch : ch.contains (L.get ⟨i, hi⟩)
      · rw [if_pos hch]
        exact ⟨[], by simp⟩
      · rw [if_neg hch]
        obtain ⟨ext1, hext1, -⟩ := addAllNew_append L (r.childrenOf (L.get ⟨i, hi⟩))
        obtain ⟨ext2, hext2⟩ := ih (addAllNew L (r.childrenOf (L.get ⟨i, hi⟩))) (i + 1)
        exact ⟨ext1 ++ ext2, by rw [hext2, hext1, List.append_assoc]⟩
    · rw [dif_neg hi]
      exact ⟨[], by simp⟩

theorem bfsLoop_nodup (r : Reg) (ch : List Nat) :
    ∀ (fuel : Nat) (L : List Nat) (i : Nat), L.Nodup →
      (bfsLoop r ch fuel L i).1.Nodup := by
  intro fuel
  induction fuel with
  | zero => exact fun L i h => h
  | succ fuel ih =>
    intro L i h
    unfold bfsLoop
    by_cases hi : i < L.length
    · rw [dif_pos hi]
      by_cases hch : ch.contains (L.get ⟨i, hi⟩)
      · rw [if_pos hch]
        exact h
      · rw [if_neg hch]
        exact ih _ _ (addAllNew_nodup _ h)
    · rw [dif_neg hi]
      exact h

/-- A predicate closed under the `children` edges and holding on the start list
holds on everything the breadth-first loop collects. -/
theorem bfsLoop_good (r : Reg) (ch : List Nat) (Good : Nat → Prop)
    (hClosed : ∀ y, Good y → ∀ c ∈ r.childrenOf y, Good c) :
    ∀ (fuel : Nat) (L : List Nat) (i : Nat), (∀ x ∈ L, Good x) →
      ∀ x ∈ (bfsLoop r ch fuel L i).1, Good x := by
  intro fuel
  induction fuel with
  | zero => exact fun L i h => h
  | succ fuel ih =>
    intro L i h
    unfold bfsLoop
    by_cases hi : i < L.length
    · rw [dif_pos hi]
      by_cases hch : ch.contains (L.get ⟨i, hi⟩)
      · rw [if_pos hch]
        exact h
      · rw [if_neg hch]
        refine ih _ _ ?_
        intro x hx
        rcases addAllNew_mem hx with hx | hx
        · exact h x hx
        · exact hClosed _ (h _ (L.get_mem i hi)) x hx
    · rw [dif_neg hi]
      exact h

/-- On a successful run, the collected list is closed under `children` edges,
provided the already-processed prefix was. -/
theorem bfsLoop_closed (r : Reg) (ch : List Nat) :
    ∀ (fuel : Nat) (L : List Nat) (i : Nat),
      (∀ x ∈ L.take i, ∀ c ∈ r.childrenOf x, c ∈ L) →
      (bfsLoop r ch fuel L i).2 = none →
      ∀ x ∈ (bfsLoop r ch fuel L i).1, ∀ c ∈ r.childrenOf x, c ∈ (bfsLoop r ch fuel L i).1 := by
  intro fuel
  induction fuel with
  | zero => intro L i hpre hok; cases hok
  | succ fuel ih =>
    intro L i hpre hok
    unfold bfsLoop at hok ⊢
    by_cases hi : i < L.length
    · rw [dif_pos hi] at hok ⊢
      by_cases hch : ch.contains (L.get ⟨i, hi⟩)
      · rw [if_pos hch] at hok
        cases hok
      · rw [if_neg hch] at hok ⊢
        refine ih _ _ ?_ hok
        intro x hx c hc
        have htake : (addAllNew L (r.childrenOf (L.get ⟨i, hi⟩))).take (i + 1) =
            L.take (i + 1) := by
          obtain ⟨ext, hext, -⟩ := addAllNew_append L (r.childrenOf (L.get ⟨i, hi⟩))
          rw [hext, List.take_append_of_le_length (by omega)]
        rw [htake] at hx
        rw [List.take_succ] at hx
        rcases List.mem_append.mp hx with hx | hx
        · exact mem_addAllNew_of_mem_left (hpre x hx c hc)
        · have hxi : x = L.get ⟨i, hi⟩ := by
            simp only [List.getElem?_eq_getElem hi, Option.toList_some, List.mem_singleton] at hx
            exact hx
          subst hxi
          exact mem_addAllNew_of_mem_items _ _ hc
    · rw [dif_neg hi] at hok ⊢
      intro x hx c hc
      have : x ∈ L.take i := by
        rwa [List.take_of_length_le (by omega)]
      exact hpre x this c hc

theorem childrenOf_subset_pids {r : Reg} (hwf : (∀ p ∈ r.prims, ∀ c ∈ p.children, c ∈ r.pids))
    (y : Nat) : ∀ c ∈ r.childrenOf y, c ∈ r.pids := by
  intro c hc
  unfold Reg.childrenOf at hc
  match hy : r.find? y with
  | none => rw [hy] at hc; cases hc
  | some p =>
    rw [hy] at hc
    exact hwf p (find?_mem hy) c (by simpa using hc)

/-- With the fuel `r.prims.length + 1` the loop cannot exhaust fuel, and when
no collected element (from position `i` on) lies on the changed list it
succeeds outright. -/
theorem bfsLoop_success (r : Reg) (ch : List Nat)
    (hpids : r.pids.Nodup)
    (hchild : ∀ p ∈ r.prims, ∀ c ∈ p.children, c ∈ r.pids)
    (hchch : ∀ y, ∀ c ∈ r.childrenOf y, ¬ c ∈ ch) :
    ∀ (fuel : Nat) (L : List Nat) (i : Nat),
      L.Nodup → (∀ x ∈ L, x ∈ r.pids) → i ≤ L.length →
      r.prims.length + 1 ≤ fuel + i →
      (∀ x ∈ L.drop i, ¬ x ∈ ch) →
      (bfsLoop r ch fuel L i).2 = none := by
  intro fuel
  induction fuel with
  | zero =>
    intro L i hnd hmem hi hfuel hdrop
    exfalso
    have hlen : L.length ≤ r.pids.length := by
      have := List.Nodup.subperm hnd (fun x hx => hmem x hx)
      exact this.length_le
    have : r.pids.length = r.prims.length := by simp [Reg.pids]
    omega
  | succ fuel ih =>
    intro L i hnd hmem hi hfuel hdrop
    unfold bfsLoop
    by_cases hilt : i < L.length
    · rw [dif_pos hilt]
      have hx : L.get ⟨i, hilt⟩ ∈ L.drop i := by
        rw [← List.get_drop_eq_drop L i]
        exact List.mem_cons_self _ _
      have hnotch : ¬ (L.get ⟨i, hilt⟩) ∈ ch := hdrop _ hx
      rw [if_neg (by simpa using hnotch)]
      obtain ⟨ext, hext, hextmem⟩ := addAllNew_append L (r.childrenOf (L.get ⟨i, hilt⟩))
      refine ih _ (i + 1) (addAllNew_nodup _ hnd) ?_ ?_ (by omega) ?_
      · intro x hxm
        rcases addAllNew_mem hxm with h | h
        · exact hmem x h
        · exact childrenOf_subset_pids hchild _ x h
      · rw [hext]
        rw [List.length_append]
        omega
      · intro x hxm
        rw [hext, List.drop_append_of_le_length (by omega)] at hxm
        rcases List.mem_append.mp hxm with h | h
        · refine hdrop x ?_
          have hdd : (L.drop i).drop 1 = L.drop (i + 1) := List.drop_drop 1 i L
          have hsub : L.drop (i + 1) ⊆ L.drop i := by
            rw [← hdd]
            exact List.drop_subset _ _
          exact hsub h
        · exact hchch _ x (hextmem x h)
    · rw [dif_neg hilt]

/- ### Position-patch replay (History round trip over move-only diffs) -/

/-- The structural view of a primitive: every field except the mutable geometry
payload (`position`, `origin`, `direction`, `center`, `radius`, `hints`,
`invalid`). -/
def strukt (p : Prim) : Nat × List Nat × List Nat × Nat × PKind × Bool :=
  (p.pid, p.parents, p.children, p.level, p.kind, p.isDisposed)

theorem strukt_pid {p q : Prim} (h : strukt p = strukt q) : p.pid = q.pid :=
  congrArg (fun t => t.1) h

theorem strukt_parents {p q : Prim} (h : strukt p = strukt q) : p.parents = q.parents :=
  congrArg (fun t => t.2.1) h

theorem strukt_children {p q : Prim} (h : strukt p = strukt q) : p.children = q.children :=
  congrArg (fun t => t.2.2.1) h

theorem strukt_level {p q : Prim} (h : strukt p = strukt q) : p.level = q.level :=
  congrArg (fun t => t.2.2.2.1) h

theorem strukt_kind {p q : Prim} (h : strukt p = strukt q) : p.kind = q.kind :=
  congrArg (fun t => t.2.2.2.2.1) h

theorem strukt_isDisposed {p q : Prim} (h : strukt p = strukt q) :
    p.isDisposed = q.isDisposed :=
  congrArg (fun t => t.2.2.2.2.2) h

/-- Well-formedness of a registry, as the source maintains it: ids are unique,
`children` entries reference existing primitives, each child lists the parent
back in its `parents` array (the constructor wires both sides), and free points
are parentless. -/
structure RegWF (r : Reg) : Prop where
  nodupPids : r.pids.Nodup
  childMem : ∀ p ∈ r.prims, ∀ c ∈ p.children, c ∈ r.pids
  childParent : ∀ p ∈ r.prims, ∀ c ∈ p.children, ∀ q, r.find? c = some q → p.pid ∈ q.parents
  freeNoParents : ∀ p ∈ r.prims, p.kind = .free → p.parents = []

/-- During a diff replay of position patches: every changed primitive is a free
point, and the invalidated list is duplicate-free, references existing
primitives, and contains a free point only when that point is changed. -/
structure BookOK (r : Reg) : Prop where
  changedFree : ∀ x ∈ r.changed, ∀ p, r.find? x = some p → p.kind = .free
  invNodup : r.invalidated.Nodup
  invMem : ∀ x ∈ r.invalidated, x ∈ r.pids
  invFree : ∀ x ∈ r.invalidated, ∀ p, r.find? x = some p → p.kind = .free → x ∈ r.changed

/-- A child of any primitive is never a free point (it has a parent). -/
theorem child_not_free {r : Reg} (hwf : RegWF r) {y c : Nat} (hc : c ∈ r.childrenOf y)
    {q : Prim} (hq : r.find? c = some q) : q.kind ≠ .free := by
  intro hfree
  unfold Reg.childrenOf at hc
  match hy : r.find? y with
  | none => rw [hy] at hc; cases hc
  | some py =>
    rw [hy] at hc
    simp only [Option.map_some', Option.getD_some] at hc
    have hmem := hwf.childParent py (find?_mem hy) c hc q hq
    rw [hwf.freeNoParents q (find?_mem hq) hfree] at hmem
    cases hmem

/-- The conditional position write `if (p.id == i) p.position = v` that one
diff record performs on one primitive. -/
def condWrite (i : Nat) (v : Vec) (p : Prim) : Prim :=
  if p.pid == i then { p with position := v } else p

/-- The write a record performs on one primitive (nothing without an id and a
position). -/
def recWrite (rc : Rec) (p : Prim) : Prim :=
  match rc.rid, rc.rposition with
  | some i, some v => condWrite i v p
  | _, _ => p

/-- The cumulative effect of a record list on one primitive. -/
def patchPrim (rs : List Rec) (p : Prim) : Prim := rs.foldl (fun q rc => recWrite rc q) p

theorem condWrite_strukt (i : Nat) (v : Vec) (p : Prim) :
    strukt (condWrite i v p) = strukt p := by
  unfold condWrite
  split <;> rfl

theorem recWrite_strukt (rc : Rec) (p : Prim) : strukt (recWrite rc p) = strukt p := by
  unfold recWrite
  match rc.rid, rc.rposition with
  | some i, some v => exact condWrite_strukt i v p
  | some _, none => rfl
  | none, some _ => rfl
  | none, none => rfl

theorem patchPrim_cons (rc : Rec) (rs : List Rec) (p : Prim) :
    patchPrim (rc :: rs) p = patchPrim rs (recWrite rc p) := rfl

theorem patchPrim_strukt (rs : List Rec) : ∀ (p : Prim),
    strukt (patchPrim rs p) = strukt p := by
  induction rs with
  | nil => exact fun p => rfl
  | cons rc rs ih =>
    intro p
    rw [patchPrim_cons, ih, recWrite_strukt]

theorem recWrite_eq_pos (rc : Rec) (p : Prim) :
    recWrite rc p = { p with position := (recWrite rc p).position } := by
  unfold recWrite condWrite
  match rc.rid, rc.rposition with
  | some i, some v =>
    dsimp only
    by_cases h : (p.pid == i) = true
    · rw [if_pos h]
    · rw [if_neg h]
  | some _, none => rfl
  | none, some _ => rfl
  | none, none => rfl

/-- A patch fold touches nothing but the position. -/
theorem patchPrim_eq_pos (rs : List Rec) : ∀ (p : Prim),
    patchPrim rs p = { p with position := (patchPrim rs p).position } := by
  induction rs with
  | nil => exact fun p => rfl
  | cons rc rs ih =>
    intro p
    rw [patchPrim_cons, ih (recWrite rc p)]
    rw [recWrite_eq_pos rc p]

/-- `find?` through a pid-preserving map of the primitive array. -/
theorem find?_map_pid {l : List Prim} {g : Prim → Prim} (hg : ∀ p, (g p).pid = p.pid)
    (i : Nat) :
    (l.map g).find? (fun p => p.pid == i) = (l.find? (fun p => p.pid == i)).map g := by
  induction l with
  | nil => rfl
  | cons p rest ih =>
    by_cases hp : p.pid = i
    · rw [List.map_cons, List.find?_cons_of_pos _ (by simp [hg, hp]),
        List.find?_cons_of_pos _ (by simp [hp]), Option.map_some']
    · rw [List.map_cons, List.find?_cons_of_neg _ (by simp [hg, hp]),
        List.find?_cons_of_neg _ (by simp [hp]), ih]

theorem regWF_of_prims_eq {r1 r2 : Reg} (h : r2.prims = r1.prims) (hwf : RegWF r1) :
    RegWF r2 := by
  have hpids : r2.pids = r1.pids := by unfold Reg.pids; rw [h]
  have hfind : ∀ j, r2.find? j = r1.find? j := find?_eq_of_prims_eq h
  constructor
  · rw [hpids]; exact hwf.nodupPids
  · intro p hp c hc
    rw [hpids]
    exact hwf.childMem p (h ▸ hp) c hc
  · intro p hp c hc q hq
    exact hwf.childParent p (h ▸ hp) c hc q ((hfind c) ▸ hq)
  · intro p hp hk
    exact hwf.freeNoParents p (h ▸ hp) hk

theorem bookOK_of_book_eq {r1 r2 : Reg} (h : r2.prims = r1.prims)
    (hch : r2.changed = r1.changed) (hinv : r2.invalidated = r1.invalidated)
    (hbook : BookOK r1) : BookOK r2 := by
  have hpids : r2.pids = r1.pids := by unfold Reg.pids; rw [h]
  have hfind : ∀ j, r2.find? j = r1.find? j := find?_eq_of_prims_eq h
  constructor
  · intro x hx p hp
    exact hbook.changedFree x (hch ▸ hx) p ((hfind x) ▸ hp)
  · rw [hinv]; exact hbook.invNodup
  · intro x hx
    rw [hpids]
    exact hbook.invMem x (hinv ▸ hx)
  · intro x hx p hp hk
    rw [hch]
    exact hbook.invFree x (hinv ▸ hx) p ((hfind x) ▸ hp) hk

theorem regWF_update {r : Reg} {i : Nat} {f : Prim → Prim}
    (hf : ∀ p, strukt (f p) = strukt p) (hwf : RegWF r) : RegWF (r.update i f) := by
  have hpid : ∀ p, (f p).pid = p.pid := fun p => strukt_pid (hf p)
  have hg : ∀ p, strukt (if p.pid == i then f p else p) = strukt p := by
    intro p
    split
    · exact hf p
    · rfl
  have hprims : (r.update i f).prims = r.prims.map (fun p => if p.pid == i then f p else p) :=
    rfl
  constructor
  · rw [update_pids hpid]; exact hwf.nodupPids
  · intro p hp c hc
    rw [update_pids hpid]
    rw [hprims] at hp
    obtain ⟨q, hq, hpq⟩ := List.mem_map.mp hp
    have hpq2 : strukt p = strukt q := by rw [← hpq]; exact hg q
    rw [strukt_children hpq2] at hc
    exact hwf.childMem q hq c hc
  · intro p hp c hc s hs
    rw [hprims] at hp
    obtain ⟨q, hq, hpq⟩ := List.mem_map.mp hp
    have hpq2 : strukt p = strukt q := by rw [← hpq]; exact hg q
    rw [strukt_children hpq2] at hc
    rw [find?_update hpid] at hs
    match hs0 : r.find? c with
    | none => rw [hs0] at hs; cases hs
    | some s0 =>
      rw [hs0, Option.map_some'] at hs
      have hss : s = (if s0.pid == i then f s0 else s0) := (Option.some.inj hs).symm
      have hss2 : strukt s = strukt s0 := by rw [hss]; exact hg s0
      rw [strukt_parents hss2, strukt_pid hpq2]
      exact hwf.childParent q hq c hc s0 hs0
  · intro p hp hk
    rw [hprims] at hp
    obtain ⟨q, hq, hpq⟩ := List.mem_map.mp hp
    have hpq2 : strukt p = strukt q := by rw [← hpq]; exact hg q
    rw [strukt_kind hpq2] at hk
    rw [strukt_parents hpq2]
    exact hwf.freeNoParents q hq hk

theorem bookOK_update {r : Reg} {i : Nat} {f : Prim → Prim}
    (hf : ∀ p, strukt (f p) = strukt p) (hbook : BookOK r) : BookOK (r.update i f) := by
  have hpid : ∀ p, (f p).pid = p.pid := fun p => strukt_pid (hf p)
  have hg : ∀ p, strukt (if p.pid == i then f p else p) = strukt p := by
    intro p
    split
    · exact hf p
    · rfl
  constructor
  · intro x hx p hp
    rw [update_changed] at hx
    rw [find?_update hpid] at hp
    match hs0 : r.find? x with
    | none => rw [hs0] at hp; cases hp
    | some s0 =>
      rw [hs0, Option.map_some'] at hp
      have hss : p = (if s0.pid == i then f s0 else s0) := (Option.some.inj hp).symm
      have hss2 : strukt p = strukt s0 := by rw [hss]; exact hg s0
      rw [strukt_kind hss2]
      exact hbook.changedFree x hx s0 hs0
  · rw [update_invalidated]; exact hbook.invNodup
  · intro x hx
    rw [update_invalidated] at hx
    rw [update_pids hpid]
    exact hbook.invMem x hx
  · intro x hx p hp hk
    rw [update_invalidated] at hx
    rw [update_changed]
    rw [find?_update hpid] at hp
    match hs0 : r.find? x with
    | none => rw [hs0] at hp; cases hp
    | some s0 =>
      rw [hs0, Option.map_some'] at hp
      have hss : p = (if s0.pid == i then f s0 else s0) := (Option.some.inj hp).symm
      have hss2 : strukt p = strukt s0 := by rw [hss]; exact hg s0
      rw [strukt_kind hss2] at hk
      exact hbook.invFree x hx s0 hs0 hk

/-- Notifying the change of an alive free point under the replay invariants
never faults, never touches the primitive array, the id counter or the
intersection index, and preserves the bookkeeping invariant. -/
theorem onPrimitiveChange_free {r : Reg} {i : Nat} {p : Prim}
    (hfind : r.find? i = some p) (hkind : p.kind = .free) (halive : p.isDisposed = false)
    (hwf : RegWF r) (hbook : BookOK r) :
    (onPrimitiveChange r i).2 = none ∧
    (onPrimitiveChange r i).1.prims = r.prims ∧
    (onPrimitiveChange r i).1.nextId = r.nextId ∧
    (onPrimitiveChange r i).1.interIndex = r.interIndex ∧
    BookOK (onPrimitiveChange r i).1 := by
  unfold onPrimitiveChange
  rw [hfind]
  dsimp only
  rw [halive]
  rw [if_neg (by simp)]
  by_cases hchg : r.changed.contains i = true
  · rw [if_pos hchg]
    exact ⟨rfl, rfl, rfl, rfl, hbook⟩
  · rw [if_neg hchg]
    have hnotchg : ¬ i ∈ r.changed := fun hmem => hchg (by simpa using hmem)
    have hnotinv : ¬ i ∈ r.invalidated := fun hmem =>
      hnotchg (hbook.invFree i hmem p hfind hkind)
    rw [if_neg (by simpa using hnotinv)]
    have hipid : i ∈ r.pids := (mem_pids_iff_find?_isSome r i).mpr (by rw [hfind]; rfl)
    have hchch : ∀ y, ∀ c ∈ r.childrenOf y, ¬ c ∈ r.changed := by
      intro y c hc hmem
      have hcp : c ∈ r.pids := childrenOf_subset_pids hwf.childMem y c hc
      have hcs := (mem_pids_iff_find?_isSome r c).mp hcp
      match hq : r.find? c with
      | none => rw [hq] at hcs; cases hcs
      | some q =>
        exact child_not_free hwf hc hq (hbook.changedFree c hmem q hq)
    have hLnd : (r.invalidated ++ [i]).Nodup := by
      rw [List.nodup_append]
      refine ⟨hbook.invNodup, List.nodup_singleton i, ?_⟩
      intro a ha hb
      simp only [List.mem_singleton] at hb
      subst hb
      exact hnotinv ha
    have hLmem : ∀ x ∈ r.invalidated ++ [i], x ∈ r.pids := by
      intro x hx
      rcases List.mem_append.mp hx with h | h
      · exact hbook.invMem x h
      · simp only [List.mem_singleton] at h
        subst h
        exact hipid
    have hdropL : (r.invalidated ++ [i]).drop r.invalidated.length = [i] :=
      List.drop_left _ _
    have hsucc := bfsLoop_success r r.changed hwf.nodupPids hwf.childMem hchch
      (r.prims.length + 1) (r.invalidated ++ [i]) r.invalidated.length hLnd hLmem
      (by simp) (by omega)
      (by
        rw [hdropL]
        intro x hx
        simp only [List.mem_singleton] at hx
        subst hx
        exact hnotchg)
    have hnd := bfsLoop_nodup r r.changed (r.prims.length + 1) (r.invalidated ++ [i])
      r.invalidated.length hLnd
    have hmemall := bfsLoop_good r r.changed (fun x => x ∈ r.pids)
      (fun y _ c hc => childrenOf_subset_pids hwf.childMem y c hc)
      (r.prims.length + 1) (r.invalidated ++ [i]) r.invalidated.length hLmem
    have hfreeall := bfsLoop_good r r.changed
      (fun x => ∀ q, r.find? x = some q → q.kind = .free → x ∈ r.changed ++ [i])
      (by
        intro y _ c hc
        intro q hq hk
        exact absurd hk (child_not_free hwf hc hq))
      (r.prims.length + 1) (r.invalidated ++ [i]) r.invalidated.length
      (by
        intro x hx
        rcases List.mem_append.mp hx with h | h
        · exact fun q hq hk => List.mem_append_left _ (hbook.invFree x h q hq hk)
        · simp only [List.mem_singleton] at h
          subst h
          exact fun q hq hk => List.mem_append_right _ (List.mem_singleton.mpr rfl))
    rcases hres : bfsLoop r r.changed (r.prims.length + 1) (r.invalidated ++ [i])
        r.invalidated.length with ⟨L2, err⟩
    rw [hres] at hsucc hnd hmemall hfreeall
    dsimp only at hsucc
    subst hsucc
    dsimp only
    refine ⟨rfl, rfl, rfl, rfl, ?_, ?_, ?_, ?_⟩
    · intro x hx q hq
      have hq2 : r.find? x = some q := hq
      rcases List.mem_append.mp hx with h | h
      · exact hbook.changedFree x h q hq2
      · simp only [List.mem_singleton] at h
        subst h
        rw [hfind] at hq2
        rw [← Option.some.inj hq2]
        exact hkind
    · exact hnd
    · exact hmemall
    · exact hfreeall

theorem vec_add_span_self (v w : Vec) : Vec.add v (Vec.span w w) = v := by
  cases v
  cases w
  simp [Vec.add, Vec.span]

/-- Moving an alive free point in a well-formed registry under the replay
invariants: no fault, and the primitive array is exactly the conditional
position write. -/
theorem tryMoveTo_free {r : Reg} {i : Nat} {p : Prim} (v : Vec)
    (hfind : r.find? i = some p) (hkind : p.kind = .free) (halive : p.isDisposed = false)
    (hwf : RegWF r) (hbook : BookOK r) :
    (tryMoveTo r i v).2.2 = none ∧
    (tryMoveTo r i v).1.prims = r.prims.map (condWrite i v) ∧
    (tryMoveTo r i v).1.nextId = r.nextId ∧
    (tryMoveTo r i v).1.interIndex = r.interIndex ∧
    RegWF (tryMoveTo r i v).1 ∧ BookOK (tryMoveTo r i v).1 := by
  unfold tryMoveTo pointTryDrag
  rw [hfind]
  dsimp only
  rw [hkind]
  dsimp only
  have hstrukt : ∀ q : Prim,
      strukt ({ q with position := Vec.add v (Vec.span p.position p.position) }) = strukt q :=
    fun q => rfl
  have hwf1 := regWF_update (f := fun q =>
    { q with position := Vec.add v (Vec.span p.position p.position) }) (i := i) hstrukt hwf
  have hbook1 := bookOK_update (f := fun q =>
    { q with position := Vec.add v (Vec.span p.position p.position) }) (i := i) hstrukt hbook
  have hfind1 : (r.update i (fun q =>
      { q with position := Vec.add v (Vec.span p.position p.position) })).find? i =
      some ({ p with position := Vec.add v (Vec.span p.position p.position) }) := by
    have hpid1 : ∀ q : Prim,
        ({ q with position := Vec.add v (Vec.span p.position p.position) } : Prim).pid =
        q.pid := fun q => rfl
    rw [find?_update hpid1 i, hfind, Option.map_some']
    have : (p.pid == i) = true := by simp [find?_pid hfind]
    rw [this]
    simp
  obtain ⟨h1, h2, h3, h4, h5⟩ := onPrimitiveChange_free hfind1 hkind halive hwf1 hbook1
  have hprims1 : (r.update i (fun q =>
      { q with position := Vec.add v (Vec.span p.position p.position) })).prims =
      r.prims.map (condWrite i v) := by
    show r.prims.map _ = r.prims.map (condWrite i v)
    refine List.map_congr_left ?_
    intro q _
    unfold condWrite
    rw [vec_add_span_self]
  refine ⟨h1, ?_, ?_, ?_, ?_, h5⟩
  · rw [h2, hprims1]
  · rw [h3]
    rfl
  · rw [h4]
    rfl
  · exact regWF_of_prims_eq h2 hwf1

/-- A diff record that only moves an alive free point of `r`: no `type`, no
`disposed` flag, an id resolving to an alive free point, and a `position`. -/
def PatchRecOf (r : Reg) (rc : Rec) : Prop :=
  rc.rtype = none ∧ rc.rdisposed = false ∧
  ∃ i v p, rc.rid = some i ∧ rc.rposition = some v ∧
    r.find? i = some p ∧ p.kind = .free ∧ p.isDisposed = false

/-- Replaying a single position-patch record in diff mode: no fault, the
serialized-id map is untouched, and the primitive array receives exactly the
record's conditional position write. -/
theorem derecordifySingle_patch (qs : ℚ → ℚ) {r : Reg} (bySer : List (Nat × Nat)) {rc : Rec}
    (hrc : PatchRecOf r rc) (hwf : RegWF r) (hbook : BookOK r) :
    (derecordifySingle qs true r bySer rc).2.2 = none ∧
    (derecordifySingle qs true r bySer rc).2.1 = bySer ∧
    (derecordifySingle qs true r bySer rc).1.prims = r.prims.map (recWrite rc) ∧
    (derecordifySingle qs true r bySer rc).1.nextId = r.nextId ∧
    (derecordifySingle qs true r bySer rc).1.interIndex = r.interIndex ∧
    RegWF (derecordifySingle qs true r bySer rc).1 ∧
    BookOK (derecordifySingle qs true r bySer rc).1 := by
  obtain ⟨htype, hdisp, i, v, p, hid, hpos, hfind, hkind, halive⟩ := hrc
  have hget : Reg.get r i = some p := by
    unfold Reg.get
    rw [hfind]
    dsimp only
    rw [halive]
    simp
  have hrw : recWrite rc = condWrite i v := by
    funext q
    unfold recWrite
    rw [hid, hpos]
  obtain ⟨m1, m2, m3, m4, m5, m6⟩ := tryMoveTo_free v hfind hkind halive hwf hbook
  unfold derecordifySingle
  rw [hid]
  dsimp only
  split
  · rename_i e heq
    rw [htype] at heq
    simp at heq
  · rename_i heq
    rw [htype] at heq
    simp at heq
  · unfold derecordifySingleDiff
    rw [hget]
    dsimp only
    rw [hdisp]
    rw [if_neg (by simp)]
    rw [hkind]
    dsimp only
    rw [hpos]
    dsimp only
    have hmv1 : (moveTo r i v).2 = none := m1
    rcases hmv : moveTo r i v with ⟨r1, err⟩
    rw [hmv] at hmv1
    dsimp only at hmv1
    subst hmv1
    dsimp only
    have h1 : (tryMoveTo r i v).1 = r1 := congrArg Prod.fst hmv
    refine ⟨rfl, rfl, ?_, ?_, ?_, ?_, ?_⟩
    · rw [← h1, hrw]
      exact m2
    · rw [← h1]
      exact m3
    · rw [← h1]
      exact m4
    · exact h1 ▸ m5
    · exact h1 ▸ m6

/-- A structure-preserving rewrite of the primitive array preserves
`PatchRecOf`. -/
theorem patchRecOf_map {r r1 : Reg} {g : Prim → Prim} (hg : ∀ p, strukt (g p) = strukt p)
    (hprims : r1.prims = r.prims.map g) {rc : Rec} (hrc : PatchRecOf r rc) :
    PatchRecOf r1 rc := by
  obtain ⟨htype, hdisp, i, v, p, hid, hpos, hfind, hkind, halive⟩ := hrc
  have hpid : ∀ q, (g q).pid = q.pid := fun q => strukt_pid (hg q)
  have hf1 : r1.find? i = (r.find? i).map g := by
    unfold Reg.find?
    rw [hprims]
    exact find?_map_pid hpid i
  refine ⟨htype, hdisp, i, v, g p, hid, hpos, ?_, ?_, ?_⟩
  · rw [hf1, hfind, Option.map_some']
  · rw [strukt_kind (hg p)]
    exact hkind
  · rw [strukt_isDisposed (hg p)]
    exact halive

/-- Replaying a list of position-patch records in diff mode: no fault, and the
primitive array receives exactly the accumulated conditional position
writes. -/
theorem derecordifyGo_patches (qs : ℚ → ℚ) (rs : List Rec) :
    ∀ (r : Reg) (bySer : List (Nat × Nat)),
      (∀ rc ∈ rs, PatchRecOf r rc) → RegWF r → BookOK r →
      (derecordifyGo qs true r bySer rs).2.2 = none ∧
      (derecordifyGo qs true r bySer rs).2.1 = bySer ∧
      (derecordifyGo qs true r bySer rs).1.prims = r.prims.map (patchPrim rs) ∧
      (derecordifyGo qs true r bySer rs).1.nextId = r.nextId ∧
      (derecordifyGo qs true r bySer rs).1.interIndex = r.interIndex ∧
      RegWF (derecordifyGo qs true r bySer rs).1 ∧
      BookOK (derecordifyGo qs true r bySer rs).1 := by
  induction rs with
  | nil =>
    intro r bySer hrs hwf hbook
    refine ⟨rfl, rfl, ?_, rfl, rfl, hwf, hbook⟩
    have : patchPrim [] = id := rfl
    rw [this, List.map_id]
    rfl
  | cons rc rest ih =>
    intro r bySer hrs hwf hbook
    obtain ⟨s1, s2, s3, s4, s5, s6, s7⟩ :=
      derecordifySingle_patch qs bySer (hrs rc (List.mem_cons_self rc rest)) hwf hbook
    unfold derecordifyGo
    rcases hstep : derecordifySingle qs true r bySer rc with ⟨r1, b1, err⟩
    rw [hstep] at s1 s2 s3 s4 s5 s6 s7
    dsimp only at s1 s2 s3 s4 s5 s6 s7
    subst s1
    subst s2
    dsimp only
    have hrs1 : ∀ rc2 ∈ rest, PatchRecOf r1 rc2 := fun rc2 h =>
      patchRecOf_map (recWrite_strukt rc) s3 (hrs rc2 (List.mem_cons_of_mem rc h))
    obtain ⟨t1, t2, t3, t4, t5, t6, t7⟩ := ih r1 b1 hrs1 s6 s7
    refine ⟨t1, t2, ?_, t4.trans s4, t5.trans s5, t6, t7⟩
    rw [t3, s3, List.map_map]
    have hcomp : (patchPrim rest ∘ recWrite rc) = patchPrim (rc :: rest) := by
      funext q
      exact (patchPrim_cons rc rest q).symm
    rw [hcomp]

theorem find?_pid_self : ∀ {l : List Prim}, (l.map (·.pid)).Nodup → ∀ {p : Prim}, p ∈ l →
    l.find? (fun q => q.pid == p.pid) = some p := by
  intro l
  induction l with
  | nil => intro _ p hp; cases hp
  | cons q rest ih =>
    intro hnd p hp
    rw [List.map_cons, List.nodup_cons] at hnd
    rcases List.mem_cons.mp hp with h | h
    · subst h
      exact List.find?_cons_of_pos _ (by simp)
    · by_cases hq : q.pid = p.pid
      · exact absurd (hq ▸ List.mem_map_of_mem (·.pid) h) hnd.1
      · rw [List.find?_cons_of_neg _ (by simpa using hq)]
        exact ih hnd.2 h

/-- With unique ids, looking up a member's own id finds that member. -/
theorem find?_self_of_nodup {r : Reg} (hnd : r.pids.Nodup) {p : Prim} (hp : p ∈ r.prims) :
    r.find? p.pid = some p :=
  find?_pid_self hnd hp

/-- Records that never aim at `p.pid` leave `p` alone. -/
theorem patchPrim_of_no_target (rs : List Rec) : ∀ (p : Prim),
    (∀ rc ∈ rs, ∀ j w, rc.rid = some j → rc.rposition = some w → j ≠ p.pid) →
    patchPrim rs p = p := by
  induction rs with
  | nil => exact fun p _ => rfl
  | cons rc rest ih =>
    intro p hno
    rw [patchPrim_cons]
    have hrw : recWrite rc p = p := by
      unfold recWrite
      match h1 : rc.rid, h2 : rc.rposition with
      | some j, some w =>
        dsimp only
        unfold condWrite
        rw [if_neg (by
          simpa using Ne.symm (hno rc (List.mem_cons_self rc rest) j w h1 h2))]
      | some _, none => rfl
      | none, some _ => rfl
      | none, none => rfl
    rw [hrw]
    exact ih p (fun rc2 h2 => hno rc2 (List.mem_cons_of_mem rc h2))

/-- Records whose writes at `p.pid` all write `p.position` keep `p` fixed. -/
theorem patchPrim_of_same_writes (rs : List Rec) : ∀ (p : Prim),
    (∀ rc ∈ rs, ∀ j w, rc.rid = some j → rc.rposition = some w → j = p.pid →
      w = p.position) →
    patchPrim rs p = p := by
  induction rs with
  | nil => exact fun p _ => rfl
  | cons rc rest ih =>
    intro p hall
    rw [patchPrim_cons]
    have hrw : recWrite rc p = p := by
      unfold recWrite
      match h1 : rc.rid, h2 : rc.rposition with
      | some j, some w =>
        dsimp only
        unfold condWrite
        by_cases hj : (p.pid == j) = true
        · rw [if_pos hj]
          rw [hall rc (List.mem_cons_self rc rest) j w h1 h2
            ((by simpa using hj : p.pid = j)).symm]
        · rw [if_neg hj]
      | some _, none => rfl
      | none, some _ => rfl
      | none, none => rfl
    rw [hrw]
    exact ih p (fun rc2 h2 => hall rc2 (List.mem_cons_of_mem rc h2))

/-- From a start differing from `p` only in position, a record list whose writes
at `p.pid` all write `p.position` and that writes `p.pid` at least once lands
exactly on `p`. -/
theorem patchPrim_fw_fix (fw : List Rec) : ∀ (p q : Prim),
    q = { p with position := q.position } →
    (∀ rc ∈ fw, ∀ j w, rc.rid = some j → rc.rposition = some w → j = p.pid →
      w = p.position) →
    (∃ rc ∈ fw, ∃ j w, rc.rid = some j ∧ rc.rposition = some w ∧ j = p.pid) →
    patchPrim fw q = p := by
  induction fw with
  | nil =>
    intro p q hq hall hex
    obtain ⟨rc, hmem, -⟩ := hex
    cases hmem
  | cons rc rest ih =>
    intro p q hq hall hex
    rw [patchPrim_cons]
    by_cases htgt : ∃ j w, rc.rid = some j ∧ rc.rposition = some w ∧ j = p.pid
    · obtain ⟨j, w, hid, hpos, hj⟩ := htgt
      have hw : w = p.position := hall rc (List.mem_cons_self rc rest) j w hid hpos hj
      have hstep : recWrite rc q = p := by
        unfold recWrite
        rw [hid, hpos]
        dsimp only
        unfold condWrite
        have hqpid : q.pid = p.pid := by rw [hq]
        rw [if_pos (by simp [hqpid, hj]), hw, hq]
      rw [hstep]
      exact patchPrim_of_same_writes rest p
        (fun rc2 h2 => hall rc2 (List.mem_cons_of_mem rc h2))
    · have hstep : recWrite rc q = q := by
        unfold recWrite
        match h1 : rc.rid, h2 : rc.rposition with
        | some j, some w =>
          dsimp only
          unfold condWrite
          have hqpid : q.pid = p.pid := by rw [hq]
          rw [if_neg (by
            simp only [hqpid, beq_iff_eq]
            intro hc
            exact htgt ⟨j, w, h1, h2, hc.symm⟩)]
        | some _, none => rfl
        | none, some _ => rfl
        | none, none => rfl
      rw [hstep]
      refine ih p q hq (fun rc2 h2 => hall rc2 (List.mem_cons_of_mem rc h2)) ?_
      obtain ⟨rc2, hmem, hrest⟩ := hex
      rcases List.mem_cons.mp hmem with h | h
      · exact absurd (h ▸ hrest) htgt
      · exact ⟨rc2, h, hrest⟩

/-- Undo (backward writes) followed by redo (forward writes equal to the
original positions) restores the primitive, provided every id the backward list
writes is also written by the forward list. -/
theorem patchPrim_restore (bw fw : List Rec) (p : Prim)
    (hfwp : ∀ rc ∈ fw, ∀ j w, rc.rid = some j → rc.rposition = some w → j = p.pid →
      w = p.position)
    (hcov : (∃ rc ∈ bw, ∃ j w, rc.rid = some j ∧ rc.rposition = some w ∧ j = p.pid) →
      ∃ rc ∈ fw, ∃ j w, rc.rid = some j ∧ rc.rposition = some w ∧ j = p.pid) :
    patchPrim fw (patchPrim bw p) = p := by
  by_cases hbt : ∃ rc ∈ bw, ∃ j w, rc.rid = some j ∧ rc.rposition = some w ∧ j = p.pid
  · exact patchPrim_fw_fix fw p (patchPrim bw p) (patchPrim_eq_pos bw p) hfwp (hcov hbt)
  · have hbw : patchPrim bw p = p := by
      refine patchPrim_of_no_target bw p ?_
      intro rc hmem j w hid hpos hj
      exact hbt ⟨rc, hmem, j, w, hid, hpos, hj⟩
    rw [hbw]
    exact patchPrim_of_same_writes fw p hfwp

/-- A diff-mode `derecordify` pass over position patches succeeds and applies
exactly the accumulated writes. -/
theorem derecordify_patches (qs : ℚ → ℚ) {r : Reg} {rs : List Rec}
    (hrs : ∀ rc ∈ rs, PatchRecOf r rc) (hwf : RegWF r) (hbook : BookOK r) :
    (derecordify qs false r rs true).err = none ∧
    (derecordify qs false r rs true).reg.prims = r.prims.map (patchPrim rs) ∧
    (derecordify qs false r rs true).reg.nextId = r.nextId ∧
    (derecordify qs false r rs true).reg.interIndex = r.interIndex ∧
    RegWF (derecordify qs false r rs true).reg ∧
    BookOK (derecordify qs false r rs true).reg := by
  obtain ⟨u1, u2, u3, u4, u5, u6, u7⟩ := derecordifyGo_patches qs rs r [] hrs hwf hbook
  unfold derecordify
  rw [if_neg (by simp)]
  rcases hgo : derecordifyGo qs true r [] rs with ⟨r1, b1, err⟩
  rw [hgo] at u1 u3 u4 u5 u6 u7
  dsimp only at u1 u3 u4 u5 u6 u7
  subst u1
  dsimp only
  exact ⟨rfl, u3, u4, u5, u6, u7⟩

/-- C4: amended round-trip law.  `tryUndo` with an empty log leaves both the
registry and the history untouched.  And when the latest entry consists solely
of position patches of alive free points — with forward patch positions equal to
the current positions and every backward-patched id also patched forward —
`tryUndo` followed by `tryRedo` raises nothing and restores every primitive
field, the id counter, the intersection index, and the history record;
creations or disposals in the diff break the law, as the separate
counterexample shows. -/
theorem c4_undo_redo_amended (qs : ℚ → ℚ) (r : Reg) (hst : Hist) (k : Nat) (diff : Diff)
    (hwf : RegWF r) (hch : r.changed = []) (hinv : r.invalidated = [])
    (hflag : hst.isApplyingDiff = false) (hnew : hst.newIds = [])
    (htrk : hst.trackedIds = [])
    (hlatest : hst.latestDiffIndex = (k : Int)) (hdiff : hst.diffs.get? k = some diff)
    (hbw : ∀ rc ∈ diff.backward, PatchRecOf r rc)
    (hfw : ∀ rc ∈ diff.forward, PatchRecOf r rc)
    (hfwpos : ∀ rc ∈ diff.forward, ∀ j w, rc.rid = some j → rc.rposition = some w →
      ∀ p, r.find? j = some p → w = p.position)
    (hcover : ∀ rc ∈ diff.backward, ∀ j w, rc.rid = some j → rc.rposition = some w →
      ∃ rc2 ∈ diff.forward, ∃ w2, rc2.rid = some j ∧ rc2.rposition = some w2) :
    (∀ (r2 : Reg) (h2 : Hist), h2.latestDiffIndex = -1 →
      (tryUndo qs r2 h2).reg = r2 ∧ (tryUndo qs r2 h2).hist = h2) ∧
    (tryUndo qs r hst).err = none ∧
    (tryRedo qs (tryUndo qs r hst).reg (tryUndo qs r hst).hist).err = none ∧
    (tryRedo qs (tryUndo qs r hst).reg (tryUndo qs r hst).hist).reg.prims = r.prims ∧
    (tryRedo qs (tryUndo qs r hst).reg (tryUndo qs r hst).hist).reg.nextId = r.nextId ∧
    (tryRedo qs (tryUndo qs r hst).reg (tryUndo qs r hst).hist).reg.interIndex =
      r.interIndex ∧
    (tryRedo qs (tryUndo qs r hst).reg (tryUndo qs r hst).hist).hist = hst := by
  have hklen : k < hst.diffs.length := by
    by_contra hc
    push_neg at hc
    rw [List.get?_eq_none.mpr hc] at hdiff
    cases hdiff
  have hbook : BookOK r := by
    constructor
    · intro x hx
      rw [hch] at hx
      cases hx
    · rw [hinv]
      exact List.nodup_nil
    · intro x hx
      rw [hinv] at hx
      cases hx
    · intro x hx
      rw [hinv] at hx
      cases hx
  have hguard : applyDiffGuard hst = none := by
    unfold applyDiffGuard
    rw [hflag, hnew, htrk]
    simp
  obtain ⟨U1, U2, U3, U4, U5, U6⟩ := derecordify_patches qs hbw hwf hbook
  have hundo : tryUndo qs r hst =
      { reg := (derecordify qs false r diff.backward true).reg,
        hist := { hst with latestDiffIndex := (k : Int) - 1 },
        err := (derecordify qs false r diff.backward true).err } := by
    unfold tryUndo
    rw [hguard]
    dsimp only
    rw [hlatest]
    rw [if_pos (Int.natCast_nonneg k)]
    rw [Int.toNat_natCast, hdiff]
  have hfw1 : ∀ rc ∈ diff.forward, PatchRecOf (derecordify qs false r diff.backward true).reg
      rc := fun rc hm => patchRecOf_map (patchPrim_strukt diff.backward) U2 (hfw rc hm)
  obtain ⟨W1, W2, W3, W4, W5, W6⟩ := derecordify_patches qs hfw1 U5 U6
  have hguard2 : applyDiffGuard { hst with latestDiffIndex := (k : Int) - 1 } = none := by
    unfold applyDiffGuard
    dsimp only
    rw [hflag, hnew, htrk]
    simp
  have hredo : tryRedo qs (derecordify qs false r diff.backward true).reg
      { hst with latestDiffIndex := (k : Int) - 1 } =
      { reg := (derecordify qs false
          (derecordify qs false r diff.backward true).reg diff.forward true).reg,
        hist := { hst with latestDiffIndex := (k : Int) },
        err := (derecordify qs false
          (derecordify qs false r diff.backward true).reg diff.forward true).err } := by
    unfold tryRedo
    rw [hguard2]
    dsimp only
    rw [if_pos (by omega)]
    have hidx : ((k : Int) - 1 + 1) = (k : Int) := by ring
    rw [hidx]
    rw [Int.toNat_natCast, hdiff]
  have hh : ({ hst with latestDiffIndex := (k : Int) } : Hist) = hst := by
    rw [← hlatest]
  refine ⟨?_, ?_, ?_, ?_, ?_, ?_, ?_⟩
  · intro r2 h2 hm
    unfold tryUndo
    match hg : applyDiffGuard h2 with
    | some e =>
      exact ⟨rfl, rfl⟩
    | none =>
      rw [hm]
      rw [if_neg (by decide)]
      exact ⟨rfl, rfl⟩
  · rw [hundo]
    exact U1
  · rw [hundo]
    dsimp only
    rw [hredo]
    exact W1
  · rw [hundo]
    dsimp only
    rw [hredo]
    dsimp only
    rw [W2, U2, List.map_map]
    have hone : ∀ p ∈ r.prims, (patchPrim diff.forward ∘ patchPrim diff.backward) p = p := by
      intro p hp
      refine patchPrim_restore diff.backward diff.forward p ?_ ?_
      · intro rc hm j w hid hpos hj
        refine hfwpos rc hm j w hid hpos p ?_
        rw [hj]
        exact find?_self_of_nodup hwf.nodupPids hp
      · intro hbt
        obtain ⟨rc, hm, j, w, hid, hpos, hj⟩ := hbt
        obtain ⟨rc2, hm2, w2, hid2, hpos2⟩ := hcover rc hm j w hid hpos
        exact ⟨rc2, hm2, j, w2, hid2, hpos2, hj⟩
    rw [List.map_congr_left hone, List.map_id']
  · rw [hundo]
    dsimp only
    rw [hredo]
    dsimp only
    exact W3.trans U3
  · rw [hundo]
    dsimp only
    rw [hredo]
    dsimp only
    exact W4.trans U4
  · rw [hundo]
    dsimp only
    rw [hredo]
    exact hh

/-- The move-only log entry of the amended C4 witness: the forward diff puts
point 1 at its current position `(2, 3)`, the backward diff moves it to
`(5, 7)`. -/
def c4wDiff : Diff :=
  { forward := [{ rid := some 1, rtype := none, rparents := none,
                  rposition := some ⟨2, 3⟩, rhints := none, rinvalid := false,
                  rdisposed := false }],
    backward := [{ rid := some 1, rtype := none, rparents := none,
                   rposition := some ⟨5, 7⟩, rhints := none, rinvalid := false,
                   rdisposed := false }] }

/-- History holding just the move-only entry. -/
def c4wHist : Hist :=
  { diffs := [c4wDiff], latestDiffIndex := 0, isApplyingDiff := false, trackedIds := [],
    newIds := [], befores := [] }

/-- Witness for the amended C4 round trip on a concrete scene: one free point,
one move-only history entry; undo and redo succeed and restore the primitive
array and the history. -/
theorem c4_amended_witness :
    (tryUndo qs0 c4Reg c4wHist).err = none ∧
    (tryRedo qs0 (tryUndo qs0 c4Reg c4wHist).reg (tryUndo qs0 c4Reg c4wHist).hist).err =
      none ∧
    (tryRedo qs0 (tryUndo qs0 c4Reg c4wHist).reg
      (tryUndo qs0 c4Reg c4wHist).hist).reg.prims = c4Reg.prims ∧
    (tryRedo qs0 (tryUndo qs0 c4Reg c4wHist).reg (tryUndo qs0 c4Reg c4wHist).hist).hist =
      c4wHist := by
  have hwf : RegWF c4Reg := by
    constructor
    · decide
    · decide
    · intro p hp c hc q hq
      simp only [c4Reg, mkReg] at hp
      rw [List.mem_singleton] at hp
      subst hp
      simp [freePrim] at hc
    · intro p hp hk
      simp only [c4Reg, mkReg] at hp
      rw [List.mem_singleton] at hp
      subst hp
      rfl
  have hfind1 : c4Reg.find? 1 = some (freePrim 1 ⟨2, 3⟩ []) := rfl
  obtain ⟨-, h2, h3, h4, -, -, h7⟩ :=
    c4_undo_redo_amended qs0 c4Reg c4wHist 0 c4wDiff hwf rfl rfl rfl rfl rfl rfl rfl
      (by
        intro rc hm
        simp only [c4wDiff] at hm
        rw [List.mem_singleton] at hm
        subst hm
        exact ⟨rfl, rfl, 1, ⟨5, 7⟩, freePrim 1 ⟨2, 3⟩ [], rfl, rfl, hfind1, rfl, rfl⟩)
      (by
        intro rc hm
        simp only [c4wDiff] at hm
        rw [List.mem_singleton] at hm
        subst hm
        exact ⟨rfl, rfl, 1, ⟨2, 3⟩, freePrim 1 ⟨2, 3⟩ [], rfl, rfl, hfind1, rfl, rfl⟩)
      (by
        intro rc hm j w hid hpos p hfind
        simp only [c4wDiff] at hm
        rw [List.mem_singleton] at hm
        subst hm
        have hj : (1 : Nat) = j := Option.some.inj hid
        subst hj
        have hw : (⟨2, 3⟩ : Vec) = w := Option.some.inj hpos
        subst hw
        rw [hfind1] at hfind
        rw [← Option.some.inj hfind]
        rfl)
      (by
        intro rc hm j w hid hpos
        simp only [c4wDiff] at hm
        rw [List.mem_singleton] at hm
        subst hm
        have hj : (1 : Nat) = j := Option.some.inj hid
        subst hj
        exact ⟨{ rid := some 1, rtype := none, rparents := none, rposition := some ⟨2, 3⟩,
                 rhints := none, rinvalid := false, rdisposed := false },
          by simp [c4wDiff], ⟨2, 3⟩, rfl, rfl⟩)
  exact ⟨h2, h3, h4, h7⟩

/- ### Derecordify cleanup behaviour (serialization error handling) -/

theorem disposedB_of_prims_eq {r1 r2 : Reg} (h : r2.prims = r1.prims) (j : Nat) :
    r2.disposedB j = r1.disposedB j := by
  unfold Reg.disposedB
  rw [find?_eq_of_prims_eq h]

theorem disposedB_update_keep {r : Reg} {i : Nat} {f : Prim → Prim}
    (hpid : ∀ p, (f p).pid = p.pid) (hdisp : ∀ p, (f p).isDisposed = p.isDisposed)
    (j : Nat) : (r.update i f).disposedB j = r.disposedB j := by
  unfold Reg.disposedB
  rw [find?_update hpid]
  match r.find? j with
  | none => rfl
  | some p =>
    rw [Option.map_some']
    dsimp only
    by_cases h : (p.pid == i) = true
    · rw [if_pos h]
      exact hdisp p
    · rw [if_neg h]

theorem disposedB_update_setTrue_mono {r : Reg} {i j : Nat}
    (h : r.disposedB j = true) :
    (r.update i (fun q => { q with isDisposed := true })).disposedB j = true := by
  unfold Reg.disposedB at h ⊢
  have hpid : ∀ q : Prim, ({ q with isDisposed := true } : Prim).pid = q.pid := fun q => rfl
  rw [find?_update hpid]
  match hf : r.find? j with
  | none =>
    rw [hf] at h
    cases h
  | some p =>
    rw [hf] at h
    rw [Option.map_some']
    dsimp only
    by_cases hc : (p.pid == i) = true
    · rw [if_pos hc]
    · rw [if_neg hc]
      exact h

theorem disposedB_foldl_childErase (ps : List Nat) (i : Nat) : ∀ (r : Reg) (j : Nat),
    (ps.foldl
      (fun acc x => acc.update x (fun q => { q with children := q.children.erase i }))
      r).disposedB j = r.disposedB j := by
  induction ps with
  | nil => intro r j; rfl
  | cons a rest ih =>
    intro r j
    rw [List.foldl_cons]
    rw [ih]
    have hpid : ∀ p : Prim, ({ p with children := p.children.erase i } : Prim).pid = p.pid :=
      fun p => rfl
    have hdisp : ∀ p : Prim,
        ({ p with children := p.children.erase i } : Prim).isDisposed = p.isDisposed :=
      fun p => rfl
    exact disposedB_update_keep hpid hdisp j

theorem onPrimitiveDisposal_prims (r : Reg) (p : Prim) :
    (onPrimitiveDisposal r p).prims = r.prims := by
  unfold onPrimitiveDisposal
  repeat' first | split | dsimp only
  all_goals rfl

/-- A successful disposal marks its target disposed and never revives
anything. -/
theorem disposePrim_success_facts {r : Reg} {i : Nat} {r1 : Reg}
    (h : disposePrim r i = (r1, none)) :
    r1.disposedB i = true ∧ ∀ j, r.disposedB j = true → r1.disposedB j = true := by
  unfold disposePrim at h
  match hf : r.find? i with
  | none =>
    rw [hf] at h
    exact absurd (congrArg Prod.snd h) (by simp)
  | some p =>
    rw [hf] at h
    dsimp only at h
    by_cases hd : p.isDisposed = true
    · rw [if_pos hd] at h
      exact absurd (congrArg Prod.snd h) (by simp)
    · rw [if_neg hd] at h
      by_cases hc : (!p.children.isEmpty) = true
      · rw [if_pos hc] at h
        exact absurd (congrArg Prod.snd h) (by simp)
      · rw [if_neg hc] at h
        match hf2 : (p.parents.foldl
            (fun acc j => acc.update j (fun q => { q with children := q.children.erase i }))
            r).update i (fun q => { q with isDisposed := true }) |>.find? i with
        | none =>
          rw [hf2] at h
          exact absurd (congrArg Prod.snd h) (by simp)
        | some p2 =>
          rw [hf2] at h
          dsimp only at h
          have hr1 : onPrimitiveDisposal ((p.parents.foldl
              (fun acc j => acc.update j
                (fun q => { q with children := q.children.erase i })) r).update i
              (fun q => { q with isDisposed := true })) p2 = r1 := congrArg Prod.fst h
          have hprims := onPrimitiveDisposal_prims ((p.parents.foldl
              (fun acc j => acc.update j
                (fun q => { q with children := q.children.erase i })) r).update i
              (fun q => { q with isDisposed := true })) p2
          rw [hr1] at hprims
          constructor
          · rw [disposedB_of_prims_eq hprims i]
            unfold Reg.disposedB
            rw [hf2]
            have hpid : ∀ q : Prim, ({ q with isDisposed := true } : Prim).pid = q.pid :=
              fun q => rfl
            rw [find?_update hpid] at hf2
            match hf3 : (p.parents.foldl
                (fun acc j => acc.update j
                  (fun q => { q with children := q.children.erase i })) r).find? i with
            | none =>
              rw [hf3] at hf2
              cases hf2
            | some q =>
              rw [hf3, Option.map_some'] at hf2
              have hqpid : q.pid = i := find?_pid hf3
              rw [if_pos (by simp [hqpid])] at hf2
              rw [← Option.some.inj hf2]
          · intro j hj
            rw [disposedB_of_prims_eq hprims j]
            exact disposedB_update_setTrue_mono
              (by rw [disposedB_foldl_childErase]; exact hj)

/-- A fully successful disposal loop logs every id in order and leaves every
listed primitive disposed (and disposed primitives stay disposed). -/
theorem disposeFold_success_facts : ∀ (ids : List Nat) (r : Reg) (log : List Nat)
    (r1 : Reg) (log1 : List Nat), disposeFold r ids log = (r1, log1, none) →
    log1 = log ++ ids ∧ (∀ j ∈ ids, r1.disposedB j = true) ∧
    (∀ j, r.disposedB j = true → r1.disposedB j = true) := by
  intro ids
  induction ids with
  | nil =>
    intro r log r1 log1 h
    have hr : r = r1 := congrArg Prod.fst h
    have hl : log = log1 := congrArg (fun t => t.2.1) h
    subst hr
    subst hl
    refine ⟨by simp, ?_, fun j hj => hj⟩
    intro j hj
    cases hj
  | cons i rest ih =>
    intro r log r1 log1 h
    unfold disposeFold at h
    match hd : disposePrim r i with
    | (ra, none) =>
      rw [hd] at h
      dsimp only at h
      obtain ⟨l1, l2, l3⟩ := ih ra (log ++ [i]) r1 log1 h
      obtain ⟨d1, d2⟩ := disposePrim_success_facts hd
      refine ⟨by rw [l1]; simp, ?_, ?_⟩
      · intro j hj
        rcases List.mem_cons.mp hj with hji | hji
        · subst hji
          exact l3 j d1
        · exact l2 j hji
      · intro j hj
        exact l3 j (d2 j hj)
    | (ra, some e) =>
      rw [hd] at h
      dsimp only at h
      exact absurd (congrArg (fun t => t.2.2) h) (by simp)

/-- In diff mode a single record never touches the `_bySerializedId` map. -/
theorem derecordifySingle_diff_bySer (qs : ℚ → ℚ) (r : Reg) (b : List (Nat × Nat))
    (rc : Rec) : (derecordifySingle qs true r b rc).2.1 = b := by
  unfold derecordifySingle
  repeat' first | split | dsimp only
  all_goals first | rfl | simp_all

/-- In diff mode a whole replay never touches the `_bySerializedId` map. -/
theorem derecordifyGo_diff_bySer (qs : ℚ → ℚ) : ∀ (rs : List Rec) (r : Reg)
    (b : List (Nat × Nat)), (derecordifyGo qs true r b rs).2.1 = b := by
  intro rs
  induction rs with
  | nil => intro r b; rfl
  | cons rc rest ih =>
    intro r b
    unfold derecordifyGo
    rcases hstep : derecordifySingle qs true r b rc with ⟨r1, b1, err⟩
    have hb : b1 = b := by
      have hx := derecordifySingle_diff_bySer qs r b rc
      rw [hstep] at hx
      exact hx
    subst hb
    match err with
    | none =>
      dsimp only
      exact ih r1 b1
    | some e => rfl

/-- An empty registry about to receive a replay. -/
def c5dReg : Reg := mkReg [] 1

/-- A diff-mode creation record carrying serialized id 5: the deterministic pid
assignment yields 1, so the assigned-id check fails after the point has been
created. -/
def c5dRecs : List Rec :=
  [{ rid := some 5, rtype := some "P", rparents := none, rposition := some ⟨1, 1⟩,
     rhints := none, rinvalid := false, rdisposed := true }]

/-- A non-diff pass: one good creation (serialized id 5), then a record missing
its `id` property. -/
def c5wRecs : List Rec :=
  [{ rid := some 5, rtype := some "P", rparents := none, rposition := some ⟨1, 1⟩,
     rhints := none, rinvalid := false, rdisposed := false },
   { rid := none, rtype := some "P", rparents := none, rposition := some ⟨2, 2⟩,
     rhints := none, rinvalid := false, rdisposed := false }]

/-- Counterexample to C5 as stated: a diff-mode replay whose record faults the
assigned-id check (a listed data-fault kind) aborts with the wrapped error, but
the point created milliseconds earlier is *not* disposed — the catch block
disposes `_bySerializedId.values()`, and the diff branch never populates that
map — so the registry is left changed, with the stray point alive. -/
theorem c5_counterexample :
    (derecordify qs0 false c5dReg c5dRecs true).err = some ⟨true, .assignedIdMismatch⟩ ∧
    (derecordify qs0 false c5dReg c5dRecs true).disposalLog = [] ∧
    c5dReg.prims.length = 0 ∧
    (derecordify qs0 false c5dReg c5dRecs true).reg.prims.length = 1 ∧
    Reg.isAlive (derecordify qs0 false c5dReg c5dRecs true).reg 1 = true :=
  ⟨rfl, rfl, rfl, rfl, rfl⟩

/-- Claim C5, amended.  On a data fault the pass aborts with the error wrapped
into the deserialization kind, and the catch block disposes exactly the values
of the pass's `_bySerializedId` map, in descending-level order (each of them is
left disposed) — unless the cleanup itself throws, in which case that error
propagates raw, with only the prefix disposed that preceded the cleanup fault.
In non-diff mode that map holds every primitive the pass created; in diff mode
it is never populated, so a faulting diff replay disposes nothing and keeps the
faulted intermediate registry (it is *not* unchanged), as the counterexample
shows concretely.  The cleanup does throw on reachable inputs: a non-diff `L`
record whose resolved parent is a curve leaves the half-built primitive
attached to that parent's children list (see `createLine`), so disposing the
parent raises `Dispose all descendants first.` with nothing disposed. -/
theorem c5_cleanup_amended (qs : ℚ → ℚ) (r : Reg) (rs : List Rec) :
    (∀ e : Thrown, (derecordifyGo qs true r [] rs).2.2 = some e →
      derecordify qs false r rs true =
        { reg := (derecordifyGo qs true r [] rs).1, err := some (wrapThrown e),
          disposalLog := [] } ∧ (wrapThrown e).wrapped = true) ∧
    (∀ e : Thrown, (derecordifyGo qs false r [] rs).2.2 = some e →
      (disposeAll (derecordifyGo qs false r [] rs).1
        ((derecordifyGo qs false r [] rs).2.1.map (·.2))).2.2 = none →
      (derecordify qs false r rs false).err = some (wrapThrown e) ∧
      (wrapThrown e).wrapped = true ∧
      (derecordify qs false r rs false).disposalLog =
        sortIdsByLevelDesc (derecordifyGo qs false r [] rs).1
          ((derecordifyGo qs false r [] rs).2.1.map (·.2)) ∧
      List.Sorted
        (fun a b => (derecordifyGo qs false r [] rs).1.levelOf b ≤
          (derecordifyGo qs false r [] rs).1.levelOf a)
        ((derecordify qs false r rs false).disposalLog) ∧
      ∀ j ∈ (derecordifyGo qs false r [] rs).2.1.map (·.2),
        ((derecordify qs false r rs false).reg.disposedB j) = true) ∧
    (∀ e d : Thrown, (derecordifyGo qs false r [] rs).2.2 = some e →
      (disposeAll (derecordifyGo qs false r [] rs).1
        ((derecordifyGo qs false r [] rs).2.1.map (·.2))).2.2 = some d →
      (derecordify qs false r rs false).err = some d ∧
      (derecordify qs false r rs false).disposalLog =
        (disposeAll (derecordifyGo qs false r [] rs).1
          ((derecordifyGo qs false r [] rs).2.1.map (·.2))).2.1 ∧
      (derecordify qs false r rs false).reg =
        (disposeAll (derecordifyGo qs false r [] rs).1
          ((derecordifyGo qs false r [] rs).2.1.map (·.2))).1) := by
  refine ⟨?_, ?_, ?_⟩
  · intro e hgo
    refine ⟨?_, rfl⟩
    unfold derecordify
    rw [if_neg (by simp)]
    rcases hgo2 : derecordifyGo qs true r [] rs with ⟨r1, b1, err⟩
    have hb : b1 = [] := by
      have hx := derecordifyGo_diff_bySer qs rs r []
      rw [hgo2] at hx
      exact hx
    rw [hgo2] at hgo
    dsimp only at hgo
    subst hgo
    subst hb
    rfl
  · intro e hgo hcl
    unfold derecordify
    rw [if_neg (by simp)]
    rcases hgo2 : derecordifyGo qs false r [] rs with ⟨r1, b1, err⟩
    rw [hgo2] at hgo hcl
    dsimp only at hgo hcl
    subst hgo
    dsimp only
    rcases hcl2 : disposeAll r1 (b1.map (·.2)) with ⟨rc, logc, errc⟩
    rw [hcl2] at hcl
    dsimp only at hcl
    subst hcl
    rw [hcl2]
    dsimp only
    have hfold : disposeFold r1 (sortIdsByLevelDesc r1 (b1.map (·.2))) [] =
        (rc, logc, none) := hcl2
    obtain ⟨f1, f2, f3⟩ := disposeFold_success_facts _ _ _ _ _ hfold
    rw [List.nil_append] at f1
    refine ⟨rfl, rfl, f1, ?_, ?_⟩
    · rw [f1]
      unfold sortIdsByLevelDesc
      haveI htot : IsTotal Nat (fun a b => r1.levelOf b ≤ r1.levelOf a) :=
        ⟨fun a b => le_total (r1.levelOf b) (r1.levelOf a)⟩
      haveI htrans : IsTrans Nat (fun a b => r1.levelOf b ≤ r1.levelOf a) :=
        ⟨fun a b c hab hbc => le_trans hbc hab⟩
      exact List.sorted_insertionSort (fun a b => r1.levelOf b ≤ r1.levelOf a)
        (b1.map (·.2))
    · intro j hj
      refine f2 j ?_
      have hperm := List.perm_insertionSort
        (fun a b => r1.levelOf b ≤ r1.levelOf a) (b1.map (·.2))
      exact (hperm.mem_iff).mpr hj
  · intro e d hgo hcl
    unfold derecordify
    rw [if_neg (by simp)]
    rcases hgo2 : derecordifyGo qs false r [] rs with ⟨r1, b1, err⟩
    rw [hgo2] at hgo hcl
    dsimp only at hgo hcl
    subst hgo
    dsimp only
    rcases hcl2 : disposeAll r1 (b1.map (·.2)) with ⟨rc, logc, errc⟩
    rw [hcl2] at hcl
    dsimp only at hcl
    subst hcl
    rw [hcl2]
    exact ⟨rfl, rfl, rfl⟩

/-- A non-diff pass whose catch-block cleanup itself throws: two points, a line
on them, then an `L` record naming the line as a parent.  The nested creation
attaches the half-built object to its parents' children lists before the
TypeError (see `createLine`), so the cleanup disposal hits the line first
(highest level) and raises `Dispose all descendants first.` — the raw error
propagates and nothing is disposed. -/
def c5tRecs : List Rec :=
  [{ rid := some 1, rtype := some "P", rparents := none, rposition := some ⟨0, 0⟩,
     rhints := none, rinvalid := false, rdisposed := false },
   { rid := some 2, rtype := some "P", rparents := none, rposition := some ⟨1, 0⟩,
     rhints := none, rinvalid := false, rdisposed := false },
   { rid := some 3, rtype := some "L", rparents := some [1, 2], rposition := none,
     rhints := none, rinvalid := false, rdisposed := false },
   { rid := some 4, rtype := some "L", rparents := some [3, 1], rposition := none,
     rhints := none, rinvalid := false, rdisposed := false }]

/-- Witness for the amended C5 cleanup: the diff-mode fault of the
counterexample scene disposes nothing; a non-diff pass that creates point 1 and
then hits a malformed record disposes exactly point 1 before propagating the
wrapped fault; and the non-diff pass of `c5tRecs`, whose fourth record resolves
a line as a parent, leaves the ghost child attached so that the cleanup throws
`Dispose all descendants first.` raw, with nothing disposed and the created
line still alive. -/
theorem c5_amended_witness :
    (derecordify qs0 false c5dReg c5dRecs true).disposalLog = [] ∧
    (derecordify qs0 false c5dReg c5wRecs false).err = some ⟨true, .missingProperty⟩ ∧
    (derecordify qs0 false c5dReg c5wRecs false).disposalLog = [1] ∧
    (derecordify qs0 false c5dReg c5wRecs false).reg.disposedB 1 = true ∧
    (derecordify qs0 false c5dReg c5tRecs false).err
      = some ⟨false, .disposeChildrenFirst⟩ ∧
    (derecordify qs0 false c5dReg c5tRecs false).disposalLog = [] ∧
    Reg.isAlive (derecordify qs0 false c5dReg c5tRecs false).reg 3 = true := by
  obtain ⟨hA, hB, -⟩ := c5_cleanup_amended qs0 c5dReg c5dRecs
  obtain ⟨hEq, -⟩ := hA ⟨true, .assignedIdMismatch⟩ rfl
  obtain ⟨-, hC, -⟩ := c5_cleanup_amended qs0 c5dReg c5wRecs
  obtain ⟨e1, -, e3, -, e5⟩ := hC ⟨true, .missingProperty⟩ rfl rfl
  obtain ⟨-, -, hD⟩ := c5_cleanup_amended qs0 c5dReg c5tRecs
  obtain ⟨t1, t2, t3⟩ :=
    hD ⟨true, .typeError⟩ ⟨false, .disposeChildrenFirst⟩ rfl rfl
  refine ⟨?_, e1, ?_, ?_, t1, ?_, ?_⟩
  · rw [hEq]
  · rw [e3]
    rfl
  · exact e5 1 (by decide)
  · rw [t2]
    rfl
  · rw [t3]
    rfl

/- ### The edit completion pass (claim C1) -/

/-- Well-formedness of a registry entering an `edit` transaction: unique ids,
`children` entries reference existing, alive primitives, both sides of the
parent/child wiring agree, children lists are duplicate-free, and disposed
primitives are childless. -/
structure EditWF (r : Reg) : Prop where
  nodupPids : r.pids.Nodup
  childMem : ∀ p ∈ r.prims, ∀ c ∈ p.children, c ∈ r.pids
  childParent : ∀ p ∈ r.prims, ∀ c ∈ p.children, ∀ q, r.find? c = some q → p.pid ∈ q.parents
  childrenNodup : ∀ p ∈ r.prims, p.children.Nodup
  disposedChildless : ∀ p ∈ r.prims, p.isDisposed = true → p.children = []
  childrenAlive : ∀ p ∈ r.prims, ∀ c ∈ p.children, r.isAlive c = true

theorem isAlive_update_keep (r : Reg) (i : Nat) (f : Prim → Prim)
    (hpid : ∀ p, (f p).pid = p.pid) (hdisp : ∀ p, (f p).isDisposed = p.isDisposed)
    (j : Nat) : (r.update i f).isAlive j = r.isAlive j := by
  unfold Reg.isAlive
  rw [find?_update hpid]
  match r.find? j with
  | none => rfl
  | some p =>
    rw [Option.map_some']
    dsimp only
    by_cases h : (p.pid == i) = true
    · rw [if_pos h]
      rw [hdisp p]
    · rw [if_neg h]

theorem isAlive_of_prims_eq {r1 r2 : Reg} (h : r2.prims = r1.prims) (j : Nat) :
    r2.isAlive j = r1.isAlive j := by
  unfold Reg.isAlive
  rw [find?_eq_of_prims_eq h]

theorem childrenOf_of_prims_eq {r1 r2 : Reg} (h : r2.prims = r1.prims) (j : Nat) :
    r2.childrenOf j = r1.childrenOf j := by
  unfold Reg.childrenOf
  rw [find?_eq_of_prims_eq h]

theorem levelOf_of_prims_eq {r1 r2 : Reg} (h : r2.prims = r1.prims) (j : Nat) :
    r2.levelOf j = r1.levelOf j := by
  unfold Reg.levelOf
  rw [find?_eq_of_prims_eq h]

/-- `applyConstraints` never changes existence or disposal state. -/
theorem isAlive_applyConstraintsOn (qs : ℚ → ℚ) (r : Reg) (i j : Nat) :
    (applyConstraintsOn qs r i).isAlive j = r.isAlive j := by
  unfold applyConstraintsOn
  repeat' first | split | dsimp only
  all_goals first
    | rfl
    | (apply isAlive_update_keep
       · intro p
         rfl
       · intro p
         rfl)

/-- The progress invariant of a registry inside an `edit` transaction, relative
to the registry `r0` that entered the transaction: well-formedness persists, the
id set is constant, every primitive keeps its identity/parents/level/kind while
children only shrink and disposal is monotone, `children` edges into alive
primitives persist, and the two bookkeeping lists track the breadth-first
closures: every invalidated primitive is reachable (in `r0`) from a changed one,
and every alive primitive reachable from a changed one is invalidated. -/
structure EditInv (r0 cur : Reg) : Prop where
  wf : EditWF cur
  pidsEq : cur.pids = r0.pids
  evol : ∀ i p0, r0.find? i = some p0 → ∃ p, cur.find? i = some p ∧
    p.pid = p0.pid ∧ p.parents = p0.parents ∧ p.level = p0.level ∧ p.kind = p0.kind ∧
    (∀ c ∈ p.children, c ∈ p0.children) ∧ (p0.isDisposed = true → p.isDisposed = true)
  persist : ∀ x, cur.isAlive x = true → ∀ y p0y, r0.find? y = some p0y →
    x ∈ p0y.children → ∃ py, cur.find? y = some py ∧ x ∈ py.children
  invNodup : cur.invalidated.Nodup
  sound : ∀ x ∈ cur.invalidated, ∃ c ∈ cur.changed, Reaches r0 c x
  complete : ∀ c ∈ cur.changed, ∀ x, Reaches r0 c x → cur.isAlive x = true →
    x ∈ cur.invalidated

/-- Transfer of the invariant along a state with identical primitives and
bookkeeping (only `nextId`/`interIndex` may differ). -/
theorem editInv_of_eq {r0 cur cur2 : Reg} (hp : cur2.prims = cur.prims)
    (hc : cur2.changed = cur.changed) (hi : cur2.invalidated = cur.invalidated)
    (h : EditInv r0 cur) : EditInv r0 cur2 := by
  have hfind : ∀ j, cur2.find? j = cur.find? j := find?_eq_of_prims_eq hp
  have hpids : cur2.pids = cur.pids := by unfold Reg.pids; rw [hp]
  have halive : ∀ j, cur2.isAlive j = cur.isAlive j := isAlive_of_prims_eq hp
  refine ⟨?_, ?_, ?_, ?_, ?_, ?_, ?_⟩
  · obtain ⟨w1, w2, w3, w4, w5, w6⟩ := h.wf
    refine ⟨by rw [hpids]; exact w1, ?_, ?_, ?_, ?_, ?_⟩
    · intro p hm c hc2
      rw [hpids]
      exact w2 p (hp ▸ hm) c hc2
    · intro p hm c hc2 q hq
      exact w3 p (hp ▸ hm) c hc2 q ((hfind c) ▸ hq)
    · intro p hm
      exact w4 p (hp ▸ hm)
    · intro p hm
      exact w5 p (hp ▸ hm)
    · intro p hm c hc2
      rw [halive c]
      exact w6 p (hp ▸ hm) c hc2
  · rw [hpids]
    exact h.pidsEq
  · intro i p0 h0
    obtain ⟨p, hfp, hrest⟩ := h.evol i p0 h0
    exact ⟨p, (hfind i).symm ▸ hfp, hrest⟩
  · intro x hx y p0y h0 hmem
    obtain ⟨py, hfy, hm⟩ := h.persist x ((halive x) ▸ hx) y p0y h0 hmem
    exact ⟨py, (hfind y).symm ▸ hfy, hm⟩
  · rw [hi]
    exact h.invNodup
  · intro x hx
    rw [hc]
    exact h.sound x (hi ▸ hx)
  · intro c hc2 x hr hx
    rw [hi]
    exact h.complete c (hc ▸ hc2) x hr ((halive x) ▸ hx)

theorem editWF_of_prims_eq {r1 r2 : Reg} (hp : r2.prims = r1.prims) (w : EditWF r1) :
    EditWF r2 := by
  have hfind : ∀ j, r2.find? j = r1.find? j := find?_eq_of_prims_eq hp
  have hpids : r2.pids = r1.pids := by unfold Reg.pids; rw [hp]
  have halive : ∀ j, r2.isAlive j = r1.isAlive j := isAlive_of_prims_eq hp
  refine ⟨by rw [hpids]; exact w.nodupPids, ?_, ?_, ?_, ?_, ?_⟩
  · intro p hm c hc2
    rw [hpids]
    exact w.childMem p (hp ▸ hm) c hc2
  · intro p hm c hc2 q hq
    exact w.childParent p (hp ▸ hm) c hc2 q ((hfind c) ▸ hq)
  · intro p hm
    exact w.childrenNodup p (hp ▸ hm)
  · intro p hm
    exact w.disposedChildless p (hp ▸ hm)
  · intro p hm c hc2
    rw [halive c]
    exact w.childrenAlive p (hp ▸ hm) c hc2

theorem onPrimitiveDisposal_changed (r : Reg) (p : Prim) :
    (onPrimitiveDisposal r p).changed = r.changed := by
  unfold onPrimitiveDisposal
  repeat' first | split | dsimp only
  all_goals rfl

theorem onPrimitiveDisposal_invalidated (r : Reg) (p : Prim) :
    (onPrimitiveDisposal r p).invalidated = r.invalidated := by
  unfold onPrimitiveDisposal
  repeat' first | split | dsimp only
  all_goals rfl

/-- Children edges in the current state are a subset of the original ones. -/
theorem editInv_children_subset {r0 cur : Reg} (h : EditInv r0 cur) (x : Nat) :
    ∀ c ∈ cur.childrenOf x, c ∈ r0.childrenOf x := by
  intro c hc
  unfold Reg.childrenOf at hc ⊢
  match hf : cur.find? x with
  | none =>
    rw [hf] at hc
    cases hc
  | some p =>
    rw [hf] at hc
    simp only [Option.map_some', Option.getD_some] at hc
    have hx : x ∈ cur.pids := (mem_pids_iff_find?_isSome cur x).mpr (by rw [hf]; rfl)
    rw [h.pidsEq] at hx
    have hx0 := (mem_pids_iff_find?_isSome r0 x).mp hx
    match hf0 : r0.find? x with
    | none =>
      rw [hf0] at hx0
      cases hx0
    | some p0 =>
      obtain ⟨p1, hfp1, -, -, -, -, hsub, -⟩ := h.evol x p0 hf0
      rw [hf] at hfp1
      have hpp : p1 = p := (Option.some.inj hfp1).symm
      subst hpp
      simpa using hsub c hc

/-- Listed children are alive. -/
theorem editWF_child_alive {cur : Reg} (w : EditWF cur) {x c : Nat}
    (hc : c ∈ cur.childrenOf x) : cur.isAlive c = true := by
  unfold Reg.childrenOf at hc
  match hf : cur.find? x with
  | none =>
    rw [hf] at hc
    cases hc
  | some p =>
    rw [hf] at hc
    simp only [Option.map_some', Option.getD_some] at hc
    exact w.childrenAlive p (find?_mem hf) c hc

/-- The invalidated list is closed under current children edges. -/
theorem editInv_inv_closed {r0 cur : Reg} (h : EditInv r0 cur) :
    ∀ x ∈ cur.invalidated, ∀ c ∈ cur.childrenOf x, c ∈ cur.invalidated := by
  intro x hx c hc
  obtain ⟨root, hroot, hreach⟩ := h.sound x hx
  have hc0 := editInv_children_subset h x c hc
  exact h.complete root hroot c (Reaches.step hreach hc0) (editWF_child_alive h.wf hc)

/-- An original edge into a currently-alive primitive is still present, and its
source is alive. -/
theorem editInv_edge_step {r0 cur : Reg} (h : EditInv r0 cur) {y x : Nat}
    (hx : cur.isAlive x = true) (hedge : x ∈ r0.childrenOf y) :
    x ∈ cur.childrenOf y ∧ cur.isAlive y = true := by
  unfold Reg.childrenOf at hedge
  match hf0 : r0.find? y with
  | none =>
    rw [hf0] at hedge
    cases hedge
  | some p0y =>
    rw [hf0] at hedge
    simp only [Option.map_some', Option.getD_some] at hedge
    obtain ⟨py, hfy, hm⟩ := h.persist x hx y p0y hf0 hedge
    constructor
    · unfold Reg.childrenOf
      rw [hfy]
      simpa using hm
    · unfold Reg.isAlive
      rw [hfy]
      dsimp only
      by_cases hdp : py.isDisposed = true
      · rw [h.wf.disposedChildless py (find?_mem hfy) hdp] at hm
        cases hm
      · simp only [Bool.not_eq_true] at hdp
        rw [hdp]
        rfl

/-- One fault-free `_onPrimitiveChange` event preserves the edit invariant. -/
theorem editInv_onPrimitiveChange {r0 cur : Reg} (h : EditInv r0 cur) (i : Nat)
    (hok : (onPrimitiveChange cur i).2 = none) :
    EditInv r0 (onPrimitiveChange cur i).1 := by
  unfold onPrimitiveChange at hok ⊢
  match hf : cur.find? i with
  | none =>
    rw [hf] at hok
    dsimp only at hok
    cases hok
  | some p =>
    rw [hf] at hok
    dsimp only at hok
    dsimp only
    by_cases hd : p.isDisposed = true
    · rw [if_pos hd] at hok ⊢
      exact editInv_of_eq (onPrimitiveDisposal_prims cur p)
        (onPrimitiveDisposal_changed cur p) (onPrimitiveDisposal_invalidated cur p) h
    · rw [if_neg hd] at hok ⊢
      by_cases hch : (cur.changed.contains i) = true
      · rw [if_pos hch] at hok ⊢
        exact h
      · rw [if_neg hch] at hok ⊢
        by_cases hiv : (cur.invalidated.contains i) = true
        · rw [if_pos hiv] at hok
          cases hok
        · rw [if_neg hiv] at hok ⊢
          have hnotinv : ¬ i ∈ cur.invalidated := fun hm => hiv (by simpa using hm)
          rcases hres : bfsLoop cur cur.changed (cur.prims.length + 1)
              (cur.invalidated ++ [i]) cur.invalidated.length with ⟨L2, err⟩
          cases err with
          | some k =>
            rw [hres] at hok
            simp at hok
          | none =>
            dsimp only
            have hLnd : (cur.invalidated ++ [i]).Nodup := by
              rw [List.nodup_append]
              refine ⟨h.invNodup, List.nodup_singleton i, ?_⟩
              intro a ha hb
              simp only [List.mem_singleton] at hb
              subst hb
              exact hnotinv ha
            obtain ⟨ext, hext⟩ := bfsLoop_prefix cur cur.changed (cur.prims.length + 1)
              (cur.invalidated ++ [i]) cur.invalidated.length
            rw [hres] at hext
            dsimp only at hext
            have hnd := bfsLoop_nodup cur cur.changed (cur.prims.length + 1)
              (cur.invalidated ++ [i]) cur.invalidated.length hLnd
            rw [hres] at hnd
            have hgood := bfsLoop_good cur cur.changed
              (fun x => ∃ c ∈ cur.changed ++ [i], Reaches r0 c x)
              (by
                intro y hy c hc
                obtain ⟨root, hroot, hreach⟩ := hy
                exact ⟨root, hroot,
                  Reaches.step hreach (editInv_children_subset h y c hc)⟩)
              (cur.prims.length + 1) (cur.invalidated ++ [i]) cur.invalidated.length
              (by
                intro x hx
                rcases List.mem_append.mp hx with hm | hm
                · obtain ⟨root, hroot, hreach⟩ := h.sound x hm
                  exact ⟨root, List.mem_append_left _ hroot, hreach⟩
                · simp only [List.mem_singleton] at hm
                  exact ⟨x, List.mem_append_right _ (List.mem_singleton.mpr hm),
                    Reaches.refl x⟩)
            rw [hres] at hgood
            have hclosed := bfsLoop_closed cur cur.changed (cur.prims.length + 1)
              (cur.invalidated ++ [i]) cur.invalidated.length
              (by
                intro x hx c hc
                rw [List.take_append_of_le_length (le_refl _),
                  List.take_length] at hx
                exact List.mem_append_left _ (editInv_inv_closed h x hx c hc))
              (by rw [hres])
            rw [hres] at hclosed
            dsimp only at hnd hgood hclosed
            refine ⟨?_, h.pidsEq, ?_, ?_, hnd, hgood, ?_⟩
            · apply editWF_of_prims_eq _ h.wf
              rfl
            · exact fun j p0 h0 => h.evol j p0 h0
            · exact fun x hx y p0y h0 hm => h.persist x hx y p0y h0 hm
            · intro c hcm x hr hx
              have hx2 : cur.isAlive x = true := hx
              rcases List.mem_append.mp hcm with hm | hm
              · have := h.complete c hm x hr hx2
                rw [hext]
                exact List.mem_append_left _ (List.mem_append_left _ this)
              · simp only [List.mem_singleton] at hm
                have hcomp : ∀ w z, Reaches r0 w z → w = i → cur.isAlive z = true →
                    z ∈ L2 := by
                  intro w z hrz
                  induction hrz with
                  | refl =>
                    intro hu _
                    rw [hu, hext]
                    exact List.mem_append_left _
                      (List.mem_append_right _ (List.mem_singleton.mpr rfl))
                  | step hreach hedge ih =>
                    intro hw hz
                    obtain ⟨hedge2, halive⟩ := editInv_edge_step h hz hedge
                    exact hclosed _ (ih hw halive) _ hedge2
                exact hcomp c x hr hm hx2

theorem eraseFold_pids (i : Nat) : ∀ (ps : List Nat) (r : Reg),
    (ps.foldl (fun acc x => acc.update x
      (fun q => { q with children := q.children.erase i })) r).pids = r.pids := by
  intro ps
  induction ps with
  | nil => intro r; rfl
  | cons a rest ih =>
    intro r
    rw [List.foldl_cons, ih]
    have hpid : ∀ q : Prim, ({ q with children := q.children.erase i } : Prim).pid = q.pid :=
      fun q => rfl
    exact update_pids hpid

theorem eraseFold_changed (i : Nat) : ∀ (ps : List Nat) (r : Reg),
    (ps.foldl (fun acc x => acc.update x
      (fun q => { q with children := q.children.erase i })) r).changed = r.changed := by
  intro ps
  induction ps with
  | nil => intro r; rfl
  | cons a rest ih =>
    intro r
    rw [List.foldl_cons, ih]
    rfl

theorem eraseFold_invalidated (i : Nat) : ∀ (ps : List Nat) (r : Reg),
    (ps.foldl (fun acc x => acc.update x
      (fun q => { q with children := q.children.erase i })) r).invalidated =
      r.invalidated := by
  intro ps
  induction ps with
  | nil => intro r; rfl
  | cons a rest ih =>
    intro r
    rw [List.foldl_cons, ih]
    rfl

/-- Pointwise effect of the parents-side unlinking fold of `Primitive.dispose`:
identity on every structural field except that `i` may be erased from children
lists — and is certainly gone from the lists of the members of `ps`. -/
theorem eraseFold_find? (i : Nat) : ∀ (ps : List Nat) (r : Reg) (j : Nat),
    ((r.find? j = none) → ((ps.foldl (fun acc x => acc.update x
        (fun q => { q with children := q.children.erase i })) r).find? j) = none) ∧
    (∀ q, r.find? j = some q → ∃ q2,
      ((ps.foldl (fun acc x => acc.update x
        (fun q => { q with children := q.children.erase i })) r).find? j) = some q2 ∧
      q2.pid = q.pid ∧ q2.parents = q.parents ∧ q2.level = q.level ∧ q2.kind = q.kind ∧
      q2.isDisposed = q.isDisposed ∧
      (∀ c ∈ q2.children, c ∈ q.children) ∧
      (∀ c, c ≠ i → c ∈ q.children → c ∈ q2.children) ∧
      (q.children.Nodup → q2.children.Nodup) ∧
      (q.children.Nodup → j ∈ ps → ¬ i ∈ q2.children)) := by
  intro ps
  induction ps with
  | nil =>
    intro r j
    refine ⟨fun hn => hn, fun q hq => ⟨q, hq, rfl, rfl, rfl, rfl, rfl, fun c hc => hc,
      fun c _ hc => hc, fun hh => hh, ?_⟩⟩
    intro _ hj
    cases hj
  | cons a rest ih =>
    intro r j
    rw [List.foldl_cons]
    obtain ⟨ihn, ihs⟩ :=
      ih (r.update a (fun q => { q with children := q.children.erase i })) j
    have hpid : ∀ q : Prim, ({ q with children := q.children.erase i } : Prim).pid = q.pid :=
      fun q => rfl
    constructor
    · intro hn
      apply ihn
      rw [find?_update hpid, hn]
      rfl
    · intro q hq
      have hq1 : (r.update a (fun q =>
          { q with children := q.children.erase i })).find? j =
          some (if q.pid == a then { q with children := q.children.erase i } else q) := by
        rw [find?_update hpid, hq, Option.map_some']
      by_cases hja : (q.pid == a) = true
      · rw [if_pos hja] at hq1
        obtain ⟨q2, hq2, e1, e2, e3, e4, e5, s1, s2, n1, n2⟩ :=
          ihs ({ q with children := q.children.erase i }) hq1
        refine ⟨q2, hq2, e1, e2, e3, e4, e5, ?_, ?_, ?_, ?_⟩
        · intro c hc
          exact List.erase_subset _ _ (s1 c hc)
        · intro c hci hc
          exact s2 c hci ((List.mem_erase_of_ne hci).mpr hc)
        · intro hnd
          exact n1 (List.Nodup.erase i hnd)
        · intro hnd _
          intro hcon
          have hmem := s1 i hcon
          exact ((List.Nodup.mem_erase_iff hnd).mp hmem).1 rfl
      · rw [if_neg hja] at hq1
        obtain ⟨q2, hq2, e1, e2, e3, e4, e5, s1, s2, n1, n2⟩ := ihs q hq1
        refine ⟨q2, hq2, e1, e2, e3, e4, e5, s1, s2, n1, ?_⟩
        intro hnd hj
        rcases List.mem_cons.mp hj with hj | hj
        · exact absurd (by rw [find?_pid hq, hj]; simp) hja
        · exact n2 hnd hj

/-- Pointwise effect of `Primitive.dispose`'s mutation (unlink from the
parents' children lists, then mark disposed). -/
theorem disposeStep_find? {cur : Reg} {i : Nat} {p : Prim} (hf : cur.find? i = some p)
    (j : Nat) :
    ∀ q, cur.find? j = some q → ∃ q2,
      ((p.parents.foldl (fun acc x => acc.update x
          (fun q => { q with children := q.children.erase i })) cur).update i
        (fun q => { q with isDisposed := true })).find? j = some q2 ∧
      q2.pid = q.pid ∧ q2.parents = q.parents ∧ q2.level = q.level ∧ q2.kind = q.kind ∧
      (∀ c ∈ q2.children, c ∈ q.children) ∧
      (∀ c, c ≠ i → c ∈ q.children → c ∈ q2.children) ∧
      (q.children.Nodup → q2.children.Nodup) ∧
      (q.children.Nodup → j ∈ p.parents → ¬ i ∈ q2.children) ∧
      (j ≠ i → q2.isDisposed = q.isDisposed) ∧
      (j = i → q2.isDisposed = true) := by
  intro q hq
  obtain ⟨-, hs⟩ := eraseFold_find? i p.parents cur j
  obtain ⟨q1, hq1, e1, e2, e3, e4, e5, s1, s2, n1, n2⟩ := hs q hq
  have hpid2 : ∀ q : Prim, ({ q with isDisposed := true } : Prim).pid = q.pid :=
    fun q => rfl
  have hq2 : ((p.parents.foldl (fun acc x => acc.update x
      (fun q => { q with children := q.children.erase i })) cur).update i
      (fun q => { q with isDisposed := true })).find? j =
      some (if q1.pid == i then { q1 with isDisposed := true } else q1) := by
    rw [find?_update hpid2, hq1, Option.map_some']
  by_cases hji : (q1.pid == i) = true
  · rw [if_pos hji] at hq2
    have hjeq : j = i := by
      rw [← find?_pid hq, ← e1]
      simpa using hji
    refine ⟨{ q1 with isDisposed := true }, hq2, e1, e2, e3, e4, s1, s2, n1, n2, ?_,
      fun _ => rfl⟩
    intro hne
    exact absurd hjeq hne
  · rw [if_neg hji] at hq2
    refine ⟨q1, hq2, e1, e2, e3, e4, s1, s2, n1, n2, fun _ => e5, ?_⟩
    intro hj
    exact absurd (by rw [e1, find?_pid hq, hj]; simp) hji

theorem disposeStep_pids {cur : Reg} (i : Nat) (p : Prim) :
    ((p.parents.foldl (fun acc x => acc.update x
        (fun q => { q with children := q.children.erase i })) cur).update i
      (fun q => { q with isDisposed := true })).pids = cur.pids := by
  have hpid2 : ∀ q : Prim, ({ q with isDisposed := true } : Prim).pid = q.pid :=
    fun q => rfl
  rw [update_pids hpid2, eraseFold_pids]

/-- The state mutation of a legal `dispose` call (alive, childless target)
preserves the edit invariant. -/
theorem editInv_disposeState {r0 cur : Reg} (h : EditInv r0 cur) {i : Nat} {p : Prim}
    (hf : cur.find? i = some p) (hpc : p.children = []) :
    EditInv r0 ((p.parents.foldl (fun acc x => acc.update x
        (fun q => { q with children := q.children.erase i })) cur).update i
      (fun q => { q with isDisposed := true })) := by
  have hpids : ((p.parents.foldl (fun acc x => acc.update x
      (fun q => { q with children := q.children.erase i })) cur).update i
      (fun q => { q with isDisposed := true })).pids = cur.pids := disposeStep_pids i p
  have hchg : ((p.parents.foldl (fun acc x => acc.update x
      (fun q => { q with children := q.children.erase i })) cur).update i
      (fun q => { q with isDisposed := true })).changed = cur.changed := by
    rw [update_changed]
    exact eraseFold_changed i p.parents cur
  have hinvl : ((p.parents.foldl (fun acc x => acc.update x
      (fun q => { q with children := q.children.erase i })) cur).update i
      (fun q => { q with isDisposed := true })).invalidated = cur.invalidated := by
    rw [update_invalidated]
    exact eraseFold_invalidated i p.parents cur
  have hnd2 : ((p.parents.foldl (fun acc x => acc.update x
      (fun q => { q with children := q.children.erase i })) cur).update i
      (fun q => { q with isDisposed := true })).pids.Nodup := by
    rw [hpids]
    exact h.wf.nodupPids
  have back : ∀ j q2, ((p.parents.foldl (fun acc x => acc.update x
      (fun q => { q with children := q.children.erase i })) cur).update i
      (fun q => { q with isDisposed := true })).find? j = some q2 → ∃ q,
      cur.find? j = some q ∧
      q2.pid = q.pid ∧ q2.parents = q.parents ∧ q2.level = q.level ∧ q2.kind = q.kind ∧
      (∀ c ∈ q2.children, c ∈ q.children) ∧
      (∀ c, c ≠ i → c ∈ q.children → c ∈ q2.children) ∧
      (q.children.Nodup → q2.children.Nodup) ∧
      (q.children.Nodup → j ∈ p.parents → ¬ i ∈ q2.children) ∧
      (j ≠ i → q2.isDisposed = q.isDisposed) ∧
      (j = i → q2.isDisposed = true) := by
    intro j q2 hq2
    have hj : (cur.find? j).isSome := by
      have hm : j ∈ ((p.parents.foldl (fun acc x => acc.update x
          (fun q => { q with children := q.children.erase i })) cur).update i
          (fun q => { q with isDisposed := true })).pids :=
        (mem_pids_iff_find?_isSome _ j).mpr (by rw [hq2]; rfl)
      rw [hpids] at hm
      exact (mem_pids_iff_find?_isSome _ j).mp hm
    match hq : cur.find? j with
    | none =>
      rw [hq] at hj
      cases hj
    | some q =>
      obtain ⟨q2x, hq2x, props⟩ := disposeStep_find? hf j q hq
      rw [hq2] at hq2x
      have hqq : q2x = q2 := Option.some.inj hq2x.symm
      subst hqq
      exact ⟨q, rfl, props⟩
  have halive_back : ∀ x, ((p.parents.foldl (fun acc x => acc.update x
      (fun q => { q with children := q.children.erase i })) cur).update i
      (fun q => { q with isDisposed := true })).isAlive x = true →
      x ≠ i ∧ cur.isAlive x = true := by
    intro x hx
    unfold Reg.isAlive at hx
    match hfx : ((p.parents.foldl (fun acc x => acc.update x
        (fun q => { q with children := q.children.erase i })) cur).update i
        (fun q => { q with isDisposed := true })).find? x with
    | none =>
      rw [hfx] at hx
      cases hx
    | some px =>
      rw [hfx] at hx
      dsimp only at hx
      obtain ⟨q, hq, e1, e2, e3, e4, s1, s2, n1, n2, d1, d2⟩ := back x px hfx
      have hxi : x ≠ i := by
        intro hcon
        rw [d2 hcon] at hx
        cases hx
      refine ⟨hxi, ?_⟩
      unfold Reg.isAlive
      rw [hq]
      dsimp only
      rw [← d1 hxi]
      exact hx
  refine ⟨?_, ?_, ?_, ?_, ?_, ?_, ?_⟩
  · refine ⟨hnd2, ?_, ?_, ?_, ?_, ?_⟩
    · intro p2 hp2 c hc2
      have hfp2 := find?_self_of_nodup hnd2 hp2
      obtain ⟨q, hq, e1, e2, e3, e4, s1, s2, n1, n2, d1, d2⟩ := back p2.pid p2 hfp2
      rw [hpids]
      exact h.wf.childMem q (find?_mem hq) c (s1 c hc2)
    · intro p2 hp2 c hc2 s2q hs2q
      have hfp2 := find?_self_of_nodup hnd2 hp2
      obtain ⟨q, hq, e1, e2, e3, e4, s1, s2x, n1, n2, d1, d2⟩ := back p2.pid p2 hfp2
      obtain ⟨s, hs, f1, f2, f3, f4, t1, t2, m1, m2, g1, g2⟩ := back c s2q hs2q
      rw [f2, e1]
      exact h.wf.childParent q (find?_mem hq) c (s1 c hc2) s hs
    · intro p2 hp2
      have hfp2 := find?_self_of_nodup hnd2 hp2
      obtain ⟨q, hq, e1, e2, e3, e4, s1, s2, n1, n2, d1, d2⟩ := back p2.pid p2 hfp2
      exact n1 (h.wf.childrenNodup q (find?_mem hq))
    · intro p2 hp2 hdisp
      have hfp2 := find?_self_of_nodup hnd2 hp2
      obtain ⟨q, hq, e1, e2, e3, e4, s1, s2, n1, n2, d1, d2⟩ := back p2.pid p2 hfp2
      by_cases hpi : p2.pid = i
      · have hqp : q = p := by
          rw [hpi] at hq
          exact Option.some.inj (hq.symm.trans hf)
        rw [List.eq_nil_iff_forall_not_mem]
        intro c hc2
        have := s1 c hc2
        rw [hqp, hpc] at this
        cases this
      · have hqd : q.isDisposed = true := by
          rw [← d1 hpi]
          exact hdisp
        have := h.wf.disposedChildless q (find?_mem hq) hqd
        rw [List.eq_nil_iff_forall_not_mem]
        intro c hc2
        have hcq := s1 c hc2
        rw [this] at hcq
        cases hcq
    · intro p2 hp2 c hc2
      have hfp2 := find?_self_of_nodup hnd2 hp2
      obtain ⟨q, hq, e1, e2, e3, e4, s1, s2, n1, n2, d1, d2⟩ := back p2.pid p2 hfp2
      have hcq := s1 c hc2
      have hci : c ≠ i := by
        intro hcon
        subst hcon
        have hqp : q.pid ∈ p.parents :=
          h.wf.childParent q (find?_mem hq) c hcq p hf
        have := n2 (h.wf.childrenNodup q (find?_mem hq)) (e1 ▸ hqp)
        exact this hc2
      have hcal := h.wf.childrenAlive q (find?_mem hq) c hcq
      unfold Reg.isAlive at hcal ⊢
      match hsc : cur.find? c with
      | none =>
        rw [hsc] at hcal
        cases hcal
      | some sc =>
        rw [hsc] at hcal
        obtain ⟨sc2, hsc2, f1, f2, f3, f4, t1, t2, m1, m2, g1, g2⟩ :=
          disposeStep_find? hf c sc hsc
        rw [hsc2]
        dsimp only at hcal ⊢
        rw [g1 hci]
        exact hcal
  · rw [hpids]
    exact h.pidsEq
  · intro j p0 h0
    obtain ⟨pc, hpcur, e1, e2, e3, e4, s1, hmono⟩ := h.evol j p0 h0
    obtain ⟨q2, hq2, f1, f2, f3, f4, t1, t2, m1, m2, g1, g2⟩ :=
      disposeStep_find? hf j pc hpcur
    refine ⟨q2, hq2, f1.trans e1, f2.trans e2, f3.trans e3, f4.trans e4, ?_, ?_⟩
    · intro c hc2
      exact s1 c (t1 c hc2)
    · intro hd0
      by_cases hji : j = i
      · exact g2 hji
      · rw [g1 hji]
        exact hmono hd0
  · intro x hx y p0y h0 hm
    obtain ⟨hxi, hxcur⟩ := halive_back x hx
    obtain ⟨py, hpy, hmy⟩ := h.persist x hxcur y p0y h0 hm
    obtain ⟨py2, hpy2, f1, f2, f3, f4, t1, t2, m1, m2, g1, g2⟩ :=
      disposeStep_find? hf y py hpy
    exact ⟨py2, hpy2, t2 x hxi hmy⟩
  · rw [hinvl]
    exact h.invNodup
  · intro x hx
    rw [hinvl] at hx
    obtain ⟨c, hc, hr⟩ := h.sound x hx
    rw [hchg]
    exact ⟨c, hc, hr⟩
  · intro c hc x hr hx
    rw [hchg] at hc
    rw [hinvl]
    exact h.complete c hc x hr (halive_back x hx).2

/-- One fault-free `dispose` event preserves the edit invariant. -/
theorem editInv_disposePrim {r0 cur : Reg} (h : EditInv r0 cur) (i : Nat)
    (hok : (disposePrim cur i).2 = none) :
    EditInv r0 (disposePrim cur i).1 := by
  unfold disposePrim at hok ⊢
  match hf : cur.find? i with
  | none =>
    rw [hf] at hok
    simp at hok
  | some p =>
    rw [hf] at hok
    dsimp only at hok
    dsimp only
    by_cases hd : p.isDisposed = true
    · rw [if_pos hd] at hok ⊢
      simp at hok
    · rw [if_neg hd] at hok ⊢
      by_cases hcb : (!p.children.isEmpty) = true
      · rw [if_pos hcb] at hok ⊢
        simp at hok
      · rw [if_neg hcb] at hok ⊢
        have hpc : p.children = [] := by
          rcases hch : p.children with _ | ⟨a, t⟩
          · rfl
          · rw [hch] at hcb
            simp at hcb
        have hinv2 := editInv_disposeState h hf hpc
        match hf2 : ((p.parents.foldl (fun acc x => acc.update x
            (fun q => { q with children := q.children.erase i })) cur).update i
            (fun q => { q with isDisposed := true })).find? i with
        | none =>
          rw [hf2] at hok
          simp at hok
        | some p2 =>
          rw [hf2]
          dsimp only
          exact editInv_of_eq (onPrimitiveDisposal_prims _ p2)
            (onPrimitiveDisposal_changed _ p2) (onPrimitiveDisposal_invalidated _ p2) hinv2

/-- Running the change/dispose events of an `edit` action without faults
preserves the edit invariant (creations leave the entering-registry closure
characterisation, hence the invariant, and are excluded here; the C1
counterexample shows they must be). -/
theorem editInv_processEvents (qs : ℚ → ℚ) : ∀ (evs : List EditEv) (r0 cur : Reg),
    (∀ ev ∈ evs, ev.noCreate) →
    EditInv r0 cur → (processEvents qs cur evs).2 = none →
    EditInv r0 (processEvents qs cur evs).1 := by
  intro evs
  induction evs with
  | nil => exact fun r0 cur _ h _ => h
  | cons ev rest ih =>
    intro r0 cur hevs h hok
    unfold processEvents at hok ⊢
    rcases hstep : processEvent qs cur ev with ⟨r1, err⟩
    cases err with
    | some t =>
      rw [hstep] at hok
      simp at hok
    | none =>
      dsimp only at hok ⊢
      have h1 : EditInv r0 r1 := by
        match ev, hevs ev (List.mem_cons_self ev rest) with
        | .change i, _ =>
          have hstep2 : onPrimitiveChange cur i = (r1, none) := hstep
          have hres := editInv_onPrimitiveChange h i (by rw [hstep2])
          rw [hstep2] at hres
          exact hres
        | .dispose i, _ =>
          have hstep2 : disposePrim cur i = (r1, none) := hstep
          have hres := editInv_disposePrim h i (by rw [hstep2])
          rw [hstep2] at hres
          exact hres
        | .createP _, hf => exact False.elim hf
        | .createL _ _, hf => exact False.elim hf
        | .createO _ _, hf => exact False.elim hf
      exact ih r0 r1 (fun e he => hevs e (List.mem_cons_of_mem ev he)) h1
        (by rw [hstep] at hok; exact hok)

/-- The completion fold applies constraints exactly to the alive members of the
given order, in order. -/
theorem finalizeFoldLog (qs : ℚ → ℚ) (r : Reg) : ∀ (order : List Nat) (r1 : Reg)
    (log : List Nat), (∀ j, r1.isAlive j = r.isAlive j) →
    (order.foldl (fun (acc : Reg × List Nat) i =>
      if acc.1.isAlive i then (applyConstraintsOn qs acc.1 i, acc.2 ++ [i]) else acc)
      (r1, log)).2 = log ++ order.filter (fun i => r.isAlive i) := by
  intro order
  induction order with
  | nil =>
    intro r1 log h
    simp
  | cons a rest ih =>
    intro r1 log h
    rw [List.foldl_cons]
    by_cases ha : r1.isAlive a = true
    · rw [if_pos ha]
      rw [ih (applyConstraintsOn qs r1 a) (log ++ [a])
        (fun j => (isAlive_applyConstraintsOn qs r1 a j).trans (h j))]
      rw [List.filter_cons_of_pos (by rw [← h a]; exact ha)]
      simp
    · rw [if_neg ha]
      rw [ih r1 log h]
      rw [List.filter_cons_of_neg (by rw [← h a]; exact ha)]

/-- The `finally` block of `edit`: the applied log is the alive filter of the
level-ascending order of the invalidated list, and the bookkeeping is
cleared. -/
theorem editFinalize_spec (qs : ℚ → ℚ) (r : Reg) :
    (editFinalize qs r).2 = (sortIdsByLevelAsc r r.invalidated).filter
      (fun i => r.isAlive i) ∧
    (editFinalize qs r).1.changed = [] ∧ (editFinalize qs r).1.invalidated = [] := by
  unfold editFinalize
  dsimp only
  refine ⟨?_, rfl, rfl⟩
  rw [finalizeFoldLog qs r (sortIdsByLevelAsc r r.invalidated) r [] (fun j => rfl)]
  rw [List.nil_append]

/-- Claim C1 (amended): for every `edit` call whose action creates no
primitive — even when the action throws after its last registry event — the
completion pass calls `applyConstraints` exactly on the non-disposed members of
the breadth-first closure over `children` edges starting from the primitives
reported changed during the action (each exactly once, in ascending level
order), and the changed/invalidated bookkeeping lists are empty afterwards.
`Reaches r` is the closure over the `children` edges of the entering registry;
for actions that create primitives that characterisation fails in both
directions (see `c1_counterexample`). -/
theorem c1_edit_closure (qs : ℚ → ℚ) (r : Reg) (evs : List EditEv) (userThrows : Bool)
    (hevs : ∀ ev ∈ evs, ev.noCreate)
    (hwf : EditWF r) (hch : r.changed = []) (hinv : r.invalidated = [])
    (hok : (processEvents qs r evs).2 = none) :
    (edit qs r evs userThrows).reg.changed = [] ∧
    (edit qs r evs userThrows).reg.invalidated = [] ∧
    (∀ x, x ∈ (edit qs r evs userThrows).log ↔
      ((processEvents qs r evs).1.isAlive x = true ∧
        ∃ c ∈ (processEvents qs r evs).1.changed, Reaches r c x)) ∧
    (edit qs r evs userThrows).log.Nodup ∧
    List.Sorted (fun a b => r.levelOf a ≤ r.levelOf b) (edit qs r evs userThrows).log := by
  have hinv0 : EditInv r r := by
    refine ⟨hwf, rfl, ?_, ?_, by rw [hinv]; exact List.nodup_nil, ?_, ?_⟩
    · exact fun i p0 h0 => ⟨p0, h0, rfl, rfl, rfl, rfl, fun c hc => hc, fun hd => hd⟩
    · intro x hx y p0y h0 hm
      exact ⟨p0y, h0, hm⟩
    · intro x hx
      rw [hinv] at hx
      cases hx
    · intro c hc
      rw [hch] at hc
      cases hc
  have hmid := editInv_processEvents qs evs r r hevs hinv0 hok
  obtain ⟨f1, f2, f3⟩ := editFinalize_spec qs (processEvents qs r evs).1
  have hlog : (edit qs r evs userThrows).log =
      (sortIdsByLevelAsc (processEvents qs r evs).1
        (processEvents qs r evs).1.invalidated).filter
        (fun i => (processEvents qs r evs).1.isAlive i) := f1
  have hperm : List.Perm
      (sortIdsByLevelAsc (processEvents qs r evs).1 (processEvents qs r evs).1.invalidated)
      (processEvents qs r evs).1.invalidated :=
    List.perm_insertionSort _ _
  have hlevel : ∀ x, (processEvents qs r evs).1.levelOf x = r.levelOf x := by
    intro x
    match h0 : r.find? x with
    | none =>
      have hnx : ¬ x ∈ r.pids := by
        rw [mem_pids_iff_find?_isSome, h0]
        simp
      have hnm : ¬ x ∈ (processEvents qs r evs).1.pids := by
        rw [hmid.pidsEq]
        exact hnx
      have hm0 : (processEvents qs r evs).1.find? x = none := by
        match hq : (processEvents qs r evs).1.find? x with
        | none => rfl
        | some q =>
          exact absurd ((mem_pids_iff_find?_isSome _ x).mpr (by rw [hq]; rfl)) hnm
      unfold Reg.levelOf
      rw [hm0, h0]
    | some p0 =>
      obtain ⟨p, hp, -, -, hlvl, -, -, -⟩ := hmid.evol x p0 h0
      unfold Reg.levelOf
      rw [hp, h0]
      simp only [Option.map_some', Option.getD_some]
      exact hlvl
  refine ⟨f2, f3, ?_, ?_, ?_⟩
  · intro x
    rw [hlog, List.mem_filter]
    constructor
    · intro ⟨hmem, halive⟩
      refine ⟨halive, ?_⟩
      exact hmid.sound x (hperm.mem_iff.mp hmem)
    · intro ⟨halive, c, hc, hr⟩
      refine ⟨hperm.mem_iff.mpr ?_, halive⟩
      exact hmid.complete c hc x hr halive
  · rw [hlog]
    exact List.Nodup.filter _ ((hperm.nodup_iff).mpr hmid.invNodup)
  · rw [hlog]
    have hsorted : List.Sorted
        (fun a b => (processEvents qs r evs).1.levelOf a ≤
          (processEvents qs r evs).1.levelOf b)
        (sortIdsByLevelAsc (processEvents qs r evs).1
          (processEvents qs r evs).1.invalidated) := by
      haveI htot : IsTotal Nat (fun a b => (processEvents qs r evs).1.levelOf a ≤
          (processEvents qs r evs).1.levelOf b) := ⟨fun a b => le_total _ _⟩
      haveI htrans : IsTrans Nat (fun a b => (processEvents qs r evs).1.levelOf a ≤
          (processEvents qs r evs).1.levelOf b) := ⟨fun a b c hab hbc => le_trans hab hbc⟩
      exact List.sorted_insertionSort _ _
    have hsub : List.Sublist
        ((sortIdsByLevelAsc (processEvents qs r evs).1
          (processEvents qs r evs).1.invalidated).filter
          (fun i => (processEvents qs r evs).1.isAlive i))
        (sortIdsByLevelAsc (processEvents qs r evs).1
          (processEvents qs r evs).1.invalidated) := List.filter_sublist _
    have hpair := List.Pairwise.sublist hsub hsorted
    refine hpair.imp ?_
    intro a b hab
    rw [← hlevel a, ← hlevel b]
    exact hab

/-- Scene for the C1 witness: two free points, a line depending on both. -/
def c1Reg : Reg := mkReg
  [freePrim 1 ⟨0, 0⟩ [3], freePrim 2 ⟨4, 0⟩ [3],
   linePrim 3 1 2 ⟨0, 0⟩ ⟨4, 0⟩ [] 1] 4

/-- Witness for C1 on the concrete scene: moving point 1 inside an `edit` whose
action then throws still reapplies constraints on the line (the closure of the
change), once, and clears the bookkeeping. -/
theorem c1_witness :
    (edit qs0 c1Reg [EditEv.change 1] true).reg.changed = [] ∧
    (edit qs0 c1Reg [EditEv.change 1] true).reg.invalidated = [] ∧
    3 ∈ (edit qs0 c1Reg [EditEv.change 1] true).log ∧
    (edit qs0 c1Reg [EditEv.change 1] true).log.Nodup := by
  have hwf : EditWF c1Reg := by
    refine ⟨by decide, by decide, ?_, by decide, by decide, by decide⟩
    intro p hp c hc q hq
    have hp2 : p = freePrim 1 ⟨0, 0⟩ [3] ∨ p = freePrim 2 ⟨4, 0⟩ [3] ∨
        p = linePrim 3 1 2 ⟨0, 0⟩ ⟨4, 0⟩ [] 1 := by
      simpa [c1Reg, mkReg] using hp
    have hfq : c1Reg.find? 3 = some (linePrim 3 1 2 ⟨0, 0⟩ ⟨4, 0⟩ [] 1) := rfl
    rcases hp2 with hp2 | hp2 | hp2 <;> subst hp2
    · have hc3 : c = 3 := by simpa [freePrim] using hc
      subst hc3
      rw [hfq] at hq
      rw [← Option.some.inj hq]
      decide
    · have hc3 : c = 3 := by simpa [freePrim] using hc
      subst hc3
      rw [hfq] at hq
      rw [← Option.some.inj hq]
      decide
    · have hc0 : c ∈ ([] : List Nat) := by simpa [linePrim] using hc
      cases hc0
  obtain ⟨a1, a2, a3, a4, a5⟩ :=
    c1_edit_closure qs0 c1Reg [EditEv.change 1] true
      (by intro ev hev; rw [List.mem_singleton.mp hev]; trivial) hwf rfl rfl rfl
  refine ⟨a1, a2, ?_, a4⟩
  refine (a3 3).mpr ⟨rfl, 1, by decide, Reaches.step (Reaches.refl 1) ?_⟩
  show (3 : Nat) ∈ c1Reg.childrenOf 1
  decide

/-- Scene for the C1 counterexample: two unrelated free points, no edges. -/
def c1CeReg : Reg := mkReg [freePrim 1 ⟨0, 0⟩ [], freePrim 2 ⟨1, 0⟩ []] 3

/-- In a registry where no primitive has children, the closure relation is
trivial. -/
theorem reaches_eq_of_childless {r : Reg} (h : ∀ p ∈ r.prims, p.children = []) :
    ∀ {i j : Nat}, Reaches r i j → i = j := by
  have hch : ∀ j, r.childrenOf j = [] := by
    intro j
    unfold Reg.childrenOf
    match hf : r.find? j with
    | none => rfl
    | some p =>
      show p.children = []
      exact h p (List.mem_of_find?_eq_some hf)
  intro i j hr
  induction hr with
  | refl => rfl
  | step h1 hmem ih =>
    rw [hch] at hmem
    cases hmem

/-- Counterexample to C1 as stated, for actions that create primitives, on a
scene of two unrelated free points:
(i) creating a line on both points and then reporting point 1 changed makes the
completion pass apply constraints on the new line as well (log `[1, 3]`),
although the line is reachable over `children` edges from nothing in the
entering registry — so the closure read in the entering registry is too small;
(ii) reporting point 1 changed and then creating the line leaves the line out
of the completion pass (log `[1]`), although on completion it is an alive child
of the changed point 1 — so the closure read in the completion-time registry is
too large.  No reading of "the breadth-first closure over children edges from
the changed primitives" makes the claim hold for creating actions. -/
theorem c1_counterexample :
    (edit qs0 c1CeReg [EditEv.createL 1 2, EditEv.change 1] false).log = [1, 3] ∧
    ¬ Reaches c1CeReg 1 3 ∧
    (edit qs0 c1CeReg [EditEv.change 1, EditEv.createL 1 2] false).log = [1] ∧
    (processEvents qs0 c1CeReg [EditEv.change 1, EditEv.createL 1 2]).1.isAlive 3
      = true ∧
    (processEvents qs0 c1CeReg [EditEv.change 1, EditEv.createL 1 2]).1.childrenOf 1
      = [3] ∧
    (processEvents qs0 c1CeReg [EditEv.change 1, EditEv.createL 1 2]).1.changed
      = [1] := by
  refine ⟨rfl, ?_, rfl, rfl, rfl, rfl⟩
  intro hr
  have h13 := reaches_eq_of_childless (r := c1CeReg) (by decide) hr
  exact absurd h13 (by decide)

end Bristol
